import Mathlib

/-!
The connection graph, the flow interpreter, the runtime and the knowledge
store of illygen.

A shallow embedding of `internal/graph/graph.go`, `core/node.go`,
`core/output.go`, `core/flow.go`, `runtime/runtime.go`, `knowledge/unit.go`
and `knowledge/store.go`.

Conventions of the embedding

* Go maps `map[string]T` are total functions on `String`; a key that is
  absent and a key bound to the zero value (`nil` slice) are the same to every
  operation of the source, which only ever reads `m[k]`. Where the source
  ranges over a map, the order of the visit is an argument.
* A `float64` is NaN or a number, `F64`; the numbers are exact rationals:
  rounding, overflow and the infinities are not modelled.
* A method that mutates its receiver returns the new receiver next to the
  value the Go method returns.
* Every `*Connection` is created by `Connect` and stored in exactly one slice
  of the graph, so the slices of pointers are lists of values in `Graph`.
  `GraphMem` is the same graph with its pointers, for what a caller can do
  with a slice that `Outgoing` has returned.
* The mutexes are not modelled: every operation runs alone, from its first
  statement to its return. The goroutines of `RunMany` run one after the
  other in an order that is an argument, on the contexts, held by address,
  and the node state that they share; the cancellation signal of `Run` does
  not fire.
* A node may do anything to the context it is handed and to a state of its
  own, but the flow it belongs to stays as it is while `Execute` runs.
-/

namespace Illygen

/-! ## internal/graph/graph.go -/

/-- A `float64`: NaN or a number. -/
inductive F64 where
  | nan
  | num (q : ℚ)
  deriving DecidableEq, Repr

/-- The comparison `a > b` of Go: false as soon as one side is NaN. -/
def F64.gt : F64 → F64 → Bool
  | F64.num a, F64.num b => decide (a > b)
  | _, _ => false

/-- The comparison `a >= b` of Go: false as soon as one side is NaN. -/
def F64.ge : F64 → F64 → Bool
  | F64.num a, F64.num b => decide (a ≥ b)
  | _, _ => false

/-- The sum `a + b` of Go: NaN as soon as one side is NaN. -/
def F64.add : F64 → F64 → F64
  | F64.num a, F64.num b => F64.num (a + b)
  | _, _ => F64.nan

instance : LT F64 := ⟨fun a b => F64.gt b a = true⟩

instance : LE F64 := ⟨fun a b => F64.ge b a = true⟩

instance (a b : F64) : Decidable (a < b) := inferInstanceAs (Decidable (F64.gt b a = true))

instance (a b : F64) : Decidable (a ≤ b) := inferInstanceAs (Decidable (F64.ge b a = true))

instance : Add F64 := ⟨F64.add⟩

instance (n : Nat) : OfNat F64 n := ⟨F64.num n⟩

/-- Connection is a directed weighted edge between two nodes. -/
structure Connection where
  From : String
  To : String
  Weight : F64
  deriving DecidableEq, Repr

/-- The two failures of the graph operations (the `fmt.Errorf` values of
`Connect` and `AdjustWeight`), with the ids they are formatted from. -/
inductive GraphError where
  | DuplicateConnection (src dst : String)
  | ConnectionNotFound (src dst : String)
  deriving DecidableEq, Repr

/-- Graph is the adjacency map, keyed by the source node id. -/
structure Graph where
  connections : String → List Connection

/-- New creates an empty graph. -/
def Graph.New : Graph := ⟨fun _ => []⟩

/-- The function `clamp(v, min, max)`. -/
def clamp (v lo hi : F64) : F64 :=
  if v < lo then lo else if v > hi then hi else v

/-- Connect: scan `connections[src]` for a connection to `dst`; when one is
found return the error and leave the graph alone, otherwise append
`Connection{src, dst, weight}`. -/
def Graph.Connect (g : Graph) (src dst : String) (weight : F64) :
    Option GraphError × Graph :=
  if (g.connections src).any (fun c => c.To = dst) then
    (some (GraphError.DuplicateConnection src dst), g)
  else
    (none, ⟨Function.update g.connections src
      (g.connections src ++ [⟨src, dst, weight⟩])⟩)

/-- The inner loop of `sortConnections`:
`for j := i; j > 0 && conns[j].Weight > conns[j-1].Weight; j--` with the swap
of `conns[j]` and `conns[j-1]` as its body. -/
def sortInner (conns : List Connection) : Nat → List Connection
  | 0 => conns
  | j + 1 =>
    match conns[j + 1]?, conns[j]? with
    | some a, some b =>
      if a.Weight > b.Weight then sortInner ((conns.set (j + 1) b).set j a) j
      else conns
    | _, _ => conns

/-- The function `sortConnections`: `for i := 1; i < len(conns); i++` around
the inner loop. -/
def sortConnections (conns : List Connection) : List Connection :=
  (List.range' 1 (conns.length - 1)).foldl (fun cs i => sortInner cs i) conns

/-- Outgoing copies `connections[src]` and sorts the copy. -/
def Graph.Outgoing (g : Graph) (src : String) : List Connection :=
  sortConnections (g.connections src)

/-- The loop of `AdjustWeight` over one slice: the first connection to `dst`
gets the weight `clamp(Weight + delta, 0, 1)`; `none` when the loop ends
without finding one. -/
def adjustFirst (dst : String) (delta : F64) : List Connection → Option (List Connection)
  | [] => none
  | c :: cs =>
    if c.To = dst then some ({ c with Weight := clamp (c.Weight + delta) 0 1 } :: cs)
    else (adjustFirst dst delta cs).map (fun cs' => c :: cs')

/-- AdjustWeight adds `delta` to the weight of `src → dst`, clamped. -/
def Graph.AdjustWeight (g : Graph) (src dst : String) (delta : F64) :
    Option GraphError × Graph :=
  match adjustFirst dst delta (g.connections src) with
  | some cs => (none, ⟨Function.update g.connections src cs⟩)
  | none => (some (GraphError.ConnectionNotFound src dst), g)

/-- The loop of `Disconnect` over one slice: at the first index `i` with
`conns[i].To == dst` the result is `append(conns[:i], conns[i+1:]...)`;
`none` when the loop ends without finding one. -/
def removeFirst (dst : String) : List Connection → Option (List Connection)
  | [] => none
  | c :: cs =>
    if c.To = dst then some cs
    else (removeFirst dst cs).map (fun cs' => c :: cs')

/-- Disconnect removes the connection `src → dst`; it has no result. -/
def Graph.Disconnect (g : Graph) (src dst : String) : Graph :=
  match removeFirst dst (g.connections src) with
  | some cs => ⟨Function.update g.connections src cs⟩
  | none => g

/-- The graphs that the exported operations build from `New()`. -/
inductive Graph.Reachable : Graph → Prop where
  | new : Graph.Reachable Graph.New
  | connect (g : Graph) (src dst : String) (weight : F64) :
      Graph.Reachable g → Graph.Reachable (g.Connect src dst weight).2
  | adjustWeight (g : Graph) (src dst : String) (delta : F64) :
      Graph.Reachable g → Graph.Reachable (g.AdjustWeight src dst delta).2
  | disconnect (g : Graph) (src dst : String) :
      Graph.Reachable g → Graph.Reachable (g.Disconnect src dst)

/-- Proof device, not in the source: `x` enters a list held back to front by
passing every element of smaller weight, which is what one run of the inner
loop of `sortConnections` does to the element at index `i`. -/
def insertBack (x : Connection) : List Connection → List Connection
  | [] => [x]
  | y :: ys => if x.Weight > y.Weight then y :: insertBack x ys else x :: y :: ys

/-! ## core/context.go, core/node.go, core/output.go -/

/-- Context is the execution context handed to every node: the value map and
the two public identifiers. -/
structure Context (V : Type) where
  values : String → Option V
  FlowID : String
  TraceID : String

/-- Set stores a value in the context under the given key. -/
def Context.Set {V : Type} (c : Context V) (key : String) (value : V) : Context V :=
  { c with values := Function.update c.values key (some value) }

/-- Get retrieves a value from the context by key, `none` for `nil`. -/
def Context.Get {V : Type} (c : Context V) (key : String) : Option V :=
  c.values key

/-- Verdict is what a consultation returns. -/
structure Verdict (Out : Type) where
  Route : String
  Output : Out
  Weight : F64

/-- Node is the interface `ID()` / `Consult(ctx)`. A consultation may change
the context it is given and any state `σ` of its own, and returns the pair
`(Verdict, error)` of the Go method, the error being `none` for `nil`. -/
structure Node (V σ ε Out : Type) where
  ID : String
  Consult : Context V → σ → Verdict Out × Option ε × Context V × σ

/-- Step is one consultation recorded in the trace. -/
structure Step (Out : Type) where
  NodeID : String
  Verdict : Verdict Out

/-- FlowOutput is the trace; instants are natural numbers read from a clock,
`0` being the zero `time.Time`. -/
structure FlowOutput (Out : Type) where
  FlowID : String
  TraceID : String
  Steps : List (Step Out)
  StartedAt : Nat
  EndedAt : Nat
  Done : Bool

/-- The constructor `newFlowOutput`, `t` being `time.Now()`. -/
def newFlowOutput {Out : Type} (flowID traceID : String) (t : Nat) : FlowOutput Out :=
  { FlowID := flowID, TraceID := traceID, Steps := [], StartedAt := t, EndedAt := 0,
    Done := false }

/-- The method `record` appends a step. -/
def FlowOutput.record {Out : Type} (o : FlowOutput Out) (nodeID : String)
    (verdict : Verdict Out) : FlowOutput Out :=
  { o with Steps := o.Steps ++ [⟨nodeID, verdict⟩] }

/-- The method `complete`, `t` being `time.Now()`. -/
def FlowOutput.complete {Out : Type} (o : FlowOutput Out) (t : Nat) : FlowOutput Out :=
  { o with EndedAt := t, Done := true }

/-- LastOutput is the output of the last step, `none` (Go `nil`) without steps. -/
def FlowOutput.LastOutput {Out : Type} (o : FlowOutput Out) : Option Out :=
  if o.Steps.length = 0 then none
  else (o.Steps[o.Steps.length - 1]?).map (fun s => s.Verdict.Output)

/-- Duration is `EndedAt - StartedAt`. -/
def FlowOutput.Duration {Out : Type} (o : FlowOutput Out) : Int :=
  (o.EndedAt : Int) - (o.StartedAt : Int)

/-! ## core/flow.go -/

/-- Flow is a node registry, a graph and the id of the entry node. -/
structure Flow (V σ ε Out : Type) where
  id : String
  nodes : String → Option (Node V σ ε Out)
  graph : Graph
  entry : String

/-- The four `fmt.Errorf` failures of `Execute`, with the values they are
formatted from; `ConsultationFailed` wraps the node's own error (`%w`). -/
inductive ExecError (ε : Type) where
  | NoEntryPoint (flow : String)
  | NodeNotFound (flow node : String)
  | ConsultationFailed (flow node : String) (cause : ε)
  | UnknownRoute (flow node route : String)

section FlowDefs

variable {V σ ε Out : Type}

/-- NewFlow creates an empty flow. -/
def NewFlow (id : String) : Flow V σ ε Out :=
  { id := id, nodes := fun _ => none, graph := Graph.New, entry := "" }

/-- ID returns the identifier of the flow. -/
def Flow.ID (f : Flow V σ ε Out) : String := f.id

/-- Add registers a node under its id; it becomes the entry when none is set. -/
def Flow.Add (f : Flow V σ ε Out) (node : Node V σ ε Out) : Flow V σ ε Out :=
  { f with
    nodes := Function.update f.nodes node.ID (some node)
    entry := if f.entry = "" then node.ID else f.entry }

/-- Entry sets the entry node. -/
def Flow.Entry (f : Flow V σ ε Out) (nodeID : String) : Flow V σ ε Out :=
  { f with entry := nodeID }

/-- ConnectWeighted calls `Graph.Connect` and drops its error. -/
def Flow.ConnectWeighted (f : Flow V σ ε Out) (src dst : String) (weight : F64) :
    Flow V σ ε Out :=
  { f with graph := (f.graph.Connect src dst weight).2 }

/-- Connect is `ConnectWeighted` with weight `1.0`. -/
def Flow.Connect (f : Flow V σ ε Out) (src dst : String) : Flow V σ ε Out :=
  f.ConnectWeighted src dst 1

/-- The variables of `Execute` at the head of its loop, with the context and
the state the nodes act on, and the ids consulted so far (a ghost log: one
entry for each call of `Consult`, in call order). -/
structure ExecState (V σ Out : Type) where
  current : String
  output : FlowOutput Out
  ctx : Context V
  st : σ
  consulted : List String

/-- What `Execute` returns, `(output, err)` with `none` for `nil`, next to the
context and state it leaves behind and the ids it consulted. -/
structure ExecResult (V σ ε Out : Type) where
  output : Option (FlowOutput Out)
  err : Option (ExecError ε)
  ctx : Context V
  st : σ
  consulted : List String

/-- The tail of `Execute` after its loop: `output.complete(); return output, nil`. -/
def finish (now : σ → Nat) (output : FlowOutput Out) (ctx : Context V) (st : σ)
    (consulted : List String) : ExecResult V σ ε Out :=
  { output := some (output.complete (now st)), err := none, ctx := ctx, st := st,
    consulted := consulted }

/-- One pass through `for current != ""` in `Execute`: either the state at
the head of the next pass, or what `Execute` returns. -/
def Flow.loopBody (now : σ → Nat) (f : Flow V σ ε Out) (s : ExecState V σ Out) :
    ExecState V σ Out ⊕ ExecResult V σ ε Out :=
  if s.current = "" then Sum.inr (finish now s.output s.ctx s.st s.consulted)
  else
    match f.nodes s.current with
    | none =>
      Sum.inr { output := none, err := some (ExecError.NodeNotFound f.id s.current),
                ctx := s.ctx, st := s.st, consulted := s.consulted }
    | some node =>
      match node.Consult s.ctx s.st with
      | (_, some e, ctx1, st1) =>
        Sum.inr { output := none,
                  err := some (ExecError.ConsultationFailed f.id s.current e),
                  ctx := ctx1, st := st1, consulted := s.consulted ++ [s.current] }
      | (verdict, none, ctx1, st1) =>
        let output := s.output.record s.current verdict
        if verdict.Route = "" then
          Sum.inr (finish now output ctx1 st1 (s.consulted ++ [s.current]))
        else if (f.graph.Outgoing s.current).any (fun conn => conn.To = verdict.Route) then
          Sum.inl { current := verdict.Route, output := output, ctx := ctx1, st := st1,
                    consulted := s.consulted ++ [s.current] }
        else
          Sum.inr { output := none,
                    err := some (ExecError.UnknownRoute f.id s.current verdict.Route),
                    ctx := ctx1, st := st1, consulted := s.consulted ++ [s.current] }

/-- The loop of `Execute`, at most `fuel` passes; `none` when they do not
suffice (the source has no bound: a cyclic routing runs forever). -/
def Flow.loop (now : σ → Nat) (f : Flow V σ ε Out) :
    Nat → ExecState V σ Out → Option (ExecResult V σ ε Out)
  | 0, _ => none
  | fuel + 1, s =>
    match f.loopBody now s with
    | Sum.inl s1 => Flow.loop now f fuel s1
    | Sum.inr r => some r

/-- The state in which `Execute` enters its loop. -/
def Flow.start (now : σ → Nat) (f : Flow V σ ε Out) (ctx : Context V) (st : σ) :
    ExecState V σ Out :=
  { current := f.entry, output := newFlowOutput f.id ctx.TraceID (now st), ctx := ctx,
    st := st, consulted := [] }

/-- Execute: the entry check, then the loop from the entry node. The flow
itself is not changed while it runs. -/
def Flow.Execute (now : σ → Nat) (f : Flow V σ ε Out) (ctx : Context V) (st : σ)
    (fuel : Nat) : Option (ExecResult V σ ε Out) :=
  if f.entry = "" then
    some { output := none, err := some (ExecError.NoEntryPoint f.id), ctx := ctx, st := st,
           consulted := [] }
  else Flow.loop now f fuel (f.start now ctx st)

/-- The state at the head of pass `k` of the loop, counted from `s`: `none`
when `Execute` has returned before. -/
def Flow.stateAt (now : σ → Nat) (f : Flow V σ ε Out) :
    Nat → ExecState V σ Out → Option (ExecState V σ Out)
  | 0, s => some s
  | k + 1, s =>
    match f.loopBody now s with
    | Sum.inl s1 => Flow.stateAt now f k s1
    | Sum.inr _ => none

/-- Pass `k` of the loop of `Execute f ctx st` starts in state `s`. -/
def Flow.Reaches (now : σ → Nat) (f : Flow V σ ε Out) (ctx : Context V) (st : σ)
    (k : Nat) (s : ExecState V σ Out) : Prop :=
  f.entry ≠ "" ∧ Flow.stateAt now f k (f.start now ctx st) = some s

/-- The step `a` routes to `nodeID` along a stored connection. -/
def Linked (f : Flow V σ ε Out) (a : Step Out) (nodeID : String) : Prop :=
  a.Verdict.Route ≠ "" ∧ a.Verdict.Route = nodeID
    ∧ ∃ c ∈ f.graph.connections a.NodeID, c.To = nodeID ∧ (f.graph.Reachable → c.From = a.NodeID)

/-- What holds of the variables of `Execute` at the head of every pass: the
steps recorded so far are a walk from the entry that leads to `current`. -/
def WalkInv (f : Flow V σ ε Out) (s : ExecState V σ Out) : Prop :=
  s.current ≠ ""
    ∧ List.Chain' (fun a b => Linked f a b.NodeID) s.output.Steps
    ∧ (∀ a, s.output.Steps.getLast? = some a → Linked f a s.current)
    ∧ (∀ a ∈ s.output.Steps, (f.nodes a.NodeID).isSome = true)
    ∧ (s.output.Steps.map (fun a => a.NodeID) ++ [s.current]).head? = some f.entry
    ∧ s.consulted = s.output.Steps.map (fun a => a.NodeID)

end FlowDefs

/-! ## Concrete inputs -/

/-- The graph after `connect(A,B,w)` on a new graph. -/
def graphAB (w : F64) : Graph := (Graph.New.Connect "A" "B" w).2

/-- A node that answers every consultation with the given route and output. -/
def routeNode (id route out : String) : Node Unit Unit String String :=
  { ID := id, Consult := fun ctx st => (⟨route, out, 1⟩, none, ctx, st) }

/-- A node whose consultation fails with the given cause. -/
def failingNode (id cause : String) : Node Unit Unit String String :=
  { ID := id, Consult := fun ctx st => (⟨"", "", 0⟩, some cause, ctx, st) }

/-- A context with no values. -/
def ctx0 : Context Unit := { values := fun _ => none, FlowID := "f", TraceID := "run-1" }

/-- A clock that stands still. -/
def clock0 : Unit → Nat := fun _ => 0

/-- Nodes `A`, `B`, `C` routing `A` to `B`, `B` to `C`, `C` to the end, with the
connections `A → B` and `B → C`. -/
def flowABC : Flow Unit Unit String String :=
  (((((NewFlow "f").Add (routeNode "A" "B" "a")).Add (routeNode "B" "C" "b")).Add
    (routeNode "C" "" "c")).Connect "A" "B").Connect "B" "C"

/-- Node `A` routes to `C`, which is registered, but the only connection is
`A → B`. -/
def flowNoEdge : Flow Unit Unit String String :=
  (((NewFlow "f").Add (routeNode "A" "C" "a")).Add (routeNode "C" "" "c")).Connect "A" "B"

/-- Node `A` routes to `B` along a connection, and the consultation of `B`
fails. -/
def flowFail : Flow Unit Unit String String :=
  (((NewFlow "f").Add (routeNode "A" "B" "a")).Add (failingNode "B" "boom")).Connect "A" "B"

/-- Node `A` routes to `B` along a connection, and no node `B` was added. -/
def flowMissing : Flow Unit Unit String String :=
  ((NewFlow "f").Add (routeNode "A" "B" "a")).Connect "A" "B"

/-- What `Execute` returns on `flowABC`. -/
def resultABC : ExecResult Unit Unit String String :=
  { output := some { FlowID := "f", TraceID := "run-1",
                     Steps := [⟨"A", ⟨"B", "a", 1⟩⟩, ⟨"B", ⟨"C", "b", 1⟩⟩, ⟨"C", ⟨"", "c", 1⟩⟩],
                     StartedAt := 0, EndedAt := 0, Done := true },
    err := none, ctx := ctx0, st := (), consulted := ["A", "B", "C"] }

/-- Three connections out of `A`, two of them of equal weight. -/
def graphFan : Graph :=
  (((Graph.New.Connect "A" "B" (F64.num (1/2))).2.Connect "A" "C" 1).2.Connect "A" "D" (F64.num (1/2))).2

/-- The graph after `Connect("A","B",0.2)`, `Connect("A","C",NaN)` and
`Connect("A","D",0.9)` on a new graph. -/
def graphNaN : Graph :=
  (((Graph.New.Connect "A" "B" (F64.num (1/5))).2.Connect "A" "C" F64.nan).2.Connect
    "A" "D" (F64.num (9/10))).2

/-! ## Sequences of calls -/

section CallSequences

variable {V σ ε Out : Type}

/-- The flow after the calls `Add(n)` for the nodes `n` of a list, in order. -/
def Flow.AddAll (f : Flow V σ ε Out) (nodes : List (Node V σ ε Out)) : Flow V σ ε Out :=
  nodes.foldl Flow.Add f

/-- The flow after the calls `ConnectWeighted(src, dst, w)` for the triples of
a list, in order (`Connect(src, dst)` being the triple with `w = 1`). -/
def Flow.WireAll (f : Flow V σ ε Out) (calls : List (String × String × F64)) :
    Flow V σ ε Out :=
  calls.foldl (fun f c => f.ConnectWeighted c.1 c.2.1 c.2.2) f

/-- The weight given by the first call of a list for the pair `src → dst`. -/
def firstWeight (calls : List (String × String × F64)) (src dst : String) : Option F64 :=
  (calls.find? (fun c => c.1 = src ∧ c.2.1 = dst)).map (fun c => c.2.2)

/-- The weight of the first connection to `dst` stored for `src`. -/
def Graph.weightOf (g : Graph) (src dst : String) : Option F64 :=
  ((g.connections src).find? (fun c => c.To = dst)).map (fun c => c.Weight)

end CallSequences

/-- A node with the empty string as its id. -/
def namelessNode : Node Unit Unit String String := routeNode "" "" "x"

/-! ## runtime/runtime.go -/

/-- The failures that the runtime returns: its own three `fmt.Errorf` values,
and the error of `Execute`, which `Run` hands on as it is. -/
inductive RunError (ε : Type) where
  | FlowAlreadyRegistered (flow : String)
  | FlowNotFound (flow : String)
  | Cancelled (flow : String)
  | Exec (err : ExecError ε)

/-- Runtime is the registry of flows, keyed by flow id. -/
structure Runtime (V σ ε Out : Type) where
  flows : String → Option (Flow V σ ε Out)

/-- What `Run` returns, `(output, err)`, next to the context and state the
execution leaves behind and the ids it consulted. -/
structure RunResult (V σ ε Out : Type) where
  output : Option (FlowOutput Out)
  err : Option (RunError ε)
  ctx : Context V
  st : σ
  consulted : List String

section RuntimeDefs

variable {V σ ε Out : Type}

/-- New creates a runtime with no flow. -/
def Runtime.New : Runtime V σ ε Out := ⟨fun _ => none⟩

/-- Register stores the flow under its id unless the id is taken. -/
def Runtime.Register (r : Runtime V σ ε Out) (flow : Flow V σ ε Out) :
    Option (RunError ε) × Runtime V σ ε Out :=
  match r.flows flow.ID with
  | some _ => (some (RunError.FlowAlreadyRegistered flow.ID), r)
  | none => (none, ⟨Function.update r.flows flow.ID (some flow)⟩)

/-- The method `get` looks a flow up. -/
def Runtime.get (r : Runtime V σ ε Out) (flowID : String) :
    Except (RunError ε) (Flow V σ ε Out) :=
  match r.flows flowID with
  | some flow => Except.ok flow
  | none => Except.error (RunError.FlowNotFound flowID)

/-- Run, for a cancellation signal that does not fire before the execution is
over: after the lookup the `select` receives what `Execute` returned. The
result is `none` when `Execute` does not return within the fuel. -/
def Runtime.Run (now : σ → Nat) (r : Runtime V σ ε Out) (flowID : String)
    (flowCtx : Context V) (st : σ) (fuel : Nat) : Option (RunResult V σ ε Out) :=
  match r.get flowID with
  | Except.error err =>
    some { output := none, err := some err, ctx := flowCtx, st := st, consulted := [] }
  | Except.ok flow =>
    (flow.Execute now flowCtx st fuel).map (fun res =>
      { output := res.output, err := res.err.map RunError.Exec, ctx := res.ctx, st := res.st,
        consulted := res.consulted })

/-- The errors and the runtime after the calls `Register(f)` for the flows of
a list, in order. -/
def Runtime.RegisterAll (r : Runtime V σ ε Out) :
    List (Flow V σ ε Out) → List (Option (RunError ε)) × Runtime V σ ε Out
  | [] => ([], r)
  | f :: fs => ((r.Register f).1 :: ((r.Register f).2.RegisterAll fs).1,
                ((r.Register f).2.RegisterAll fs).2)

end RuntimeDefs

/-! ## Walks in the graph -/

/-- A stored connection leads from `a` to `b`. -/
def Graph.Edge (g : Graph) (a b : String) : Prop :=
  ∃ c ∈ g.connections a, c.To = b

/-- The graph has no directed cycle. -/
def Graph.Acyclic (g : Graph) : Prop :=
  ∀ a, ¬ Relation.TransGen g.Edge a a

section PathDefs

variable {V σ ε Out : Type}

/-- What holds at the head of every pass of `Execute` of the ids consulted so
far: they are registered, and with `current` they are a path of the graph. -/
def PathInv (f : Flow V σ ε Out) (s : ExecState V σ Out) : Prop :=
  s.current ≠ ""
    ∧ List.Chain' f.graph.Edge (s.consulted ++ [s.current])
    ∧ ∀ id ∈ s.consulted, (f.nodes id).isSome = true

end PathDefs

/-- The position of a node id in the walk `A → B → C`. -/
def rankABC (id : String) : Nat :=
  if id = "A" then 0 else if id = "B" then 1 else 2

/-! ## Two runs side by side -/

/-- The four kinds of failure of `Execute`. -/
inductive ErrorKind where
  | NoEntryPoint
  | NodeNotFound
  | ConsultationFailed
  | UnknownRoute
  deriving DecidableEq, Repr

/-- The kind of an error of `Execute`. -/
def ExecError.kind {ε : Type} : ExecError ε → ErrorKind
  | ExecError.NoEntryPoint _ => ErrorKind.NoEntryPoint
  | ExecError.NodeNotFound _ _ => ErrorKind.NodeNotFound
  | ExecError.ConsultationFailed _ _ _ => ErrorKind.ConsultationFailed
  | ExecError.UnknownRoute _ _ _ => ErrorKind.UnknownRoute

section SideBySide

variable {V σ ε Out : Type}

/-- Two steps at the same node whose verdicts are related by `RV`. -/
def StepRel (RV : Verdict Out → Verdict Out → Prop) (a b : Step Out) : Prop :=
  a.NodeID = b.NodeID ∧ RV a.Verdict b.Verdict

/-- Two traces, or two absent traces: step by step at the same nodes with
verdicts related by `RV`, and the same `Done`. -/
def OutputRel (RV : Verdict Out → Verdict Out → Prop) :
    Option (FlowOutput Out) → Option (FlowOutput Out) → Prop
  | some o1, some o2 => List.Forall₂ (StepRel RV) o1.Steps o2.Steps ∧ o1.Done = o2.Done
  | none, none => True
  | _, _ => False

/-- Two results of `Execute` that took the same course: both without error or
both with an error of the same kind, the same ids consulted in the same
order, and related traces. -/
def SameCourse (RV : Verdict Out → Verdict Out → Prop) (r1 r2 : ExecResult V σ ε Out) : Prop :=
  r1.err.map ExecError.kind = r2.err.map ExecError.kind
    ∧ r1.consulted = r2.consulted
    ∧ OutputRel RV r1.output r2.output

/-- Two runs of `Execute` with the same fuel: both out of fuel, or both
returned and took the same course. -/
def SameOutcome (RV : Verdict Out → Verdict Out → Prop) :
    Option (ExecResult V σ ε Out) → Option (ExecResult V σ ε Out) → Prop
  | some r1, some r2 => SameCourse RV r1 r2
  | none, none => True
  | _, _ => False

/-- Two states at the head of a pass of `Execute` that are in step. -/
def StateRel (RV : Verdict Out → Verdict Out → Prop)
    (Sim : Context V → σ → Context V → σ → Prop) (s1 s2 : ExecState V σ Out) : Prop :=
  s1.current = s2.current
    ∧ s1.consulted = s2.consulted
    ∧ List.Forall₂ (StepRel RV) s1.output.Steps s2.output.Steps
    ∧ Sim s1.ctx s1.st s2.ctx s2.st

/-- The nodes registered under one id in two flows answer alike on states
related by `Sim`: both fail, or both succeed with verdicts related by `RV` and
leave states related by `Sim`. -/
def NodesAlike (RV : Verdict Out → Verdict Out → Prop)
    (Sim : Context V → σ → Context V → σ → Prop) (f1 f2 : Flow V σ ε Out) : Prop :=
  ∀ (id : String) (n1 n2 : Node V σ ε Out) (c1 : Context V) (s1 : σ) (c2 : Context V) (s2 : σ),
    f1.nodes id = some n1 → f2.nodes id = some n2 → Sim c1 s1 c2 s2 →
    ((n1.Consult c1 s1).2.1.isSome = (n2.Consult c2 s2).2.1.isSome)
      ∧ ((n1.Consult c1 s1).2.1 = none →
          RV (n1.Consult c1 s1).1 (n2.Consult c2 s2).1
            ∧ Sim (n1.Consult c1 s1).2.2.1 (n1.Consult c1 s1).2.2.2
                (n2.Consult c2 s2).2.2.1 (n2.Consult c2 s2).2.2.2)

/-- The steps are the verdicts, as returned, of successive consultations of
the nodes they name, starting in `(ctx, st)` and ending in `(ctx1, st1)`. -/
def ReplayTo (f : Flow V σ ε Out) (ctx1 : Context V) (st1 : σ) :
    Context V → σ → List (Step Out) → Prop
  | ctx, st, [] => ctx = ctx1 ∧ st = st1
  | ctx, st, a :: rest =>
    ∃ node, f.nodes a.NodeID = some node
      ∧ (node.Consult ctx st).1 = a.Verdict
      ∧ (node.Consult ctx st).2.1 = none
      ∧ ReplayTo f ctx1 st1 (node.Consult ctx st).2.2.1 (node.Consult ctx st).2.2.2 rest

/-- The graph after the calls `AdjustWeight(src, dst, delta)` for the triples
of a list, in order. -/
def Graph.AdjustAll (g : Graph) (adjs : List (String × String × F64)) : Graph :=
  adjs.foldl (fun g a => (g.AdjustWeight a.1 a.2.1 a.2.2).2) g

end SideBySide

/-- The flow `flowABC` with other outputs and other verdict weights. -/
def flowABC2 : Flow Unit Unit String String :=
  (((((NewFlow "f").Add { routeNode "A" "B" "x" with
        Consult := fun ctx st => (⟨"B", "x", F64.num (1/3)⟩, none, ctx, st) }).Add
      { routeNode "B" "C" "y" with
        Consult := fun ctx st => (⟨"C", "y", 0⟩, none, ctx, st) }).Add
    (routeNode "C" "" "z")).Connect "A" "B").Connect "B" "C"

/-- The flow `flowABC` with other connection weights. -/
def flowABC3 : Flow Unit Unit String String :=
  { flowABC with graph := flowABC.graph.AdjustAll [("A", "B", F64.num (-1/2)), ("B", "C", F64.num (-1/4))] }

/-! ## The insertion sort of graph.go and store.go, over any element type -/

/-- The inner loop that `sortConnections` and `sortByWeight` share,
`for j := i; j > 0 && xs[j].Weight > xs[j-1].Weight; j--` with the swap as its
body, the weight of an element being read by `w`. -/
def sortInnerBy {α : Type} (w : α → F64) (xs : List α) : Nat → List α
  | 0 => xs
  | j + 1 =>
    match xs[j + 1]?, xs[j]? with
    | some a, some b =>
      if w a > w b then sortInnerBy w ((xs.set (j + 1) b).set j a) j
      else xs
    | _, _ => xs

/-- The outer loop `for i := 1; i < len(xs); i++` around the inner one. -/
def sortBy {α : Type} (w : α → F64) (xs : List α) : List α :=
  (List.range' 1 (xs.length - 1)).foldl (fun cs i => sortInnerBy w cs i) xs

/-- Proof device: `insertBack` over any element type. -/
def insertBackBy {α : Type} (w : α → F64) (x : α) : List α → List α
  | [] => [x]
  | y :: ys => if w x > w y then y :: insertBackBy w x ys else x :: y :: ys

/-! ## knowledge/unit.go, knowledge/store.go -/

namespace Knowledge

/-- Unit is a piece of knowledge; instants are natural numbers. -/
structure Unit (F : Type) where
  ID : String
  Domain : String
  Facts : String → Option F
  Weight : F64
  Refined : Bool
  CreatedAt : Nat
  UpdatedAt : Nat

/-- NewUnit creates a unit of weight `1.0`; `now` is the reading of the clock. -/
def NewUnit {F : Type} (now : Nat) (id domain : String) (facts : String → Option F) : Unit F :=
  { ID := id, Domain := domain, Facts := facts, Weight := 1, Refined := false,
    CreatedAt := now, UpdatedAt := now }

/-- The function `clamp` of unit.go: two comparisons of `float64`. -/
def clamp (v min max : F64) : F64 :=
  if v < min then min else if v > max then max else v

/-- Refine marks the unit as refined and sets its weight to
`clamp(newWeight, 0.0, 1.0)`; `now` is the reading of the clock. -/
def Unit.Refine {F : Type} (u : Unit F) (now : Nat) (newWeight : F64) : Unit F :=
  { u with Weight := clamp newWeight 0 1, Refined := true, UpdatedAt := now }

/-- Store is the map of units, keyed by unit id. -/
structure Store (F : Type) where
  units : String → Option (Unit F)

/-- NewStore creates an empty store. -/
def NewStore {F : Type} : Store F := ⟨fun _ => none⟩

/-- The failure of `Add`, with the id it is formatted from. -/
inductive StoreError where
  | UnitExists (id : String)
  deriving DecidableEq, Repr

/-- Add inserts a unit unless its id is taken. -/
def Store.Add {F : Type} (s : Store F) (unit : Unit F) : Option StoreError × Store F :=
  match s.units unit.ID with
  | some _ => (some (StoreError.UnitExists unit.ID), s)
  | none => (none, ⟨Function.update s.units unit.ID (some unit)⟩)

/-- Set inserts or replaces a unit by id. -/
def Store.Set {F : Type} (s : Store F) (unit : Unit F) : Store F :=
  ⟨Function.update s.units unit.ID (some unit)⟩

/-- Get retrieves a unit by id. -/
def Store.Get {F : Type} (s : Store F) (id : String) : Option (Unit F) :=
  s.units id

/-- Remove deletes a unit by id. -/
def Store.Remove {F : Type} (s : Store F) (id : String) : Store F :=
  ⟨Function.update s.units id none⟩

/-- The function `sortByWeight`, the insertion sort on `Weight`. -/
def sortByWeight {F : Type} (units : List (Unit F)) : List (Unit F) :=
  sortBy (fun u => u.Weight) units

/-- Domain: `range s.units` visits the keys in the order `order`, the units of
the domain are appended to `result` in that order, and `result` is sorted. -/
def Store.Domain {F : Type} (s : Store F) (order : List String) (domain : String) :
    List (Unit F) :=
  sortByWeight ((order.filterMap s.units).filter (fun u => u.Domain = domain))

/-- The list `order` is an order in which `range s.units` may visit the keys:
every key of the map once, and nothing else. -/
def Store.IteratedBy {F : Type} (s : Store F) (order : List String) : Prop :=
  order.Nodup ∧ ∀ id, id ∈ order ↔ (s.units id).isSome = true

/-- A unit with no facts. -/
def plainUnit (id domain : String) (weight : F64) : Unit Nat :=
  { ID := id, Domain := domain, Facts := fun _ => none, Weight := weight, Refined := false,
    CreatedAt := 0, UpdatedAt := 0 }

/-- A store with the units `u1` and `u3` of the domain `go` and `u2` of the
domain `rust`. -/
def store3 : Store Nat :=
  ((NewStore.Set (plainUnit "u1" "go" (F64.num (1/2)))).Set (plainUnit "u2" "rust" 1)).Set
    (plainUnit "u3" "go" (F64.num (9/10)))

/-- The unit `NewUnit(id, "go", nil)` after `Refine(w)`, at the instant `0`. -/
def refinedUnit (id : String) (w : F64) : Unit Nat :=
  (NewUnit 0 id "go" (fun _ => none)).Refine 0 w

/-- The store after `Add` of three units of the domain `go` refined to `0.2`,
to a NaN and to `0.9`. -/
def storeNaN : Store Nat :=
  (((NewStore.Add (refinedUnit "u1" (F64.num (1/5)))).2.Add (refinedUnit "u2" F64.nan)).2.Add
    (refinedUnit "u3" (F64.num (9/10)))).2

end Knowledge

/-! ## runtime/runtime.go: RunMany -/

/-- FlowRun bundles a flow id with its execution context; `Ctx` is a pointer,
the address of the context among the contexts of the world. -/
structure FlowRun where
  FlowID : String
  Ctx : Nat
  deriving DecidableEq, Repr

/-- What the runs of one `RunMany` share: the contexts, by address (two runs
may be given the same `*Context`), and the state `σ` that the nodes act on. -/
structure World (V σ : Type) where
  ctxs : Nat → Context V
  st : σ

section RunManyDefs

variable {V σ ε Out : Type}

/-- The world that the run `fr` leaves when `Run` returns `res`: its context
and the state of the nodes as its execution left them. -/
def World.after (w : World V σ) (fr : FlowRun) (res : RunResult V σ ε Out) : World V σ :=
  { ctxs := Function.update w.ctxs fr.Ctx res.ctx, st := res.st }

/-- What the goroutine of the run `fr` does once it holds `mu`, `res` being
what `Run` returned: `errors = append(errors, err)` or
`results[fr.FlowID] = out`. -/
def collect (acc : (String → Option (FlowOutput Out)) × List (RunError ε))
    (fr : FlowRun) (res : RunResult V σ ε Out) :
    (String → Option (FlowOutput Out)) × List (RunError ε) :=
  match res.err with
  | some err => (acc.1, acc.2 ++ [err])
  | none => (Function.update acc.1 fr.FlowID res.output, acc.2)

/-- The goroutines of `RunMany`, one after the other in the order of the
list: each calls `Run` on the context its pointer leads to and on the state
of the nodes, both as the runs before it have left them, and then takes `mu`
and collects. The result is `none` when a run does not return, `wg.Wait()`
then waiting for ever; otherwise it is `(results, errors)` next to the world
that the runs leave. -/
def Runtime.RunManyFrom (now : σ → Nat) (r : Runtime V σ ε Out) (fuel : Nat) :
    World V σ → (String → Option (FlowOutput Out)) × List (RunError ε) → List FlowRun →
      Option (((String → Option (FlowOutput Out)) × List (RunError ε)) × World V σ)
  | w, acc, [] => some (acc, w)
  | w, acc, fr :: rest =>
    match r.Run now fr.FlowID (w.ctxs fr.Ctx) w.st fuel with
    | none => none
    | some res => Runtime.RunManyFrom now r fuel (w.after fr res) (collect acc fr res) rest

/-- RunMany, for a cancellation signal that does not fire: `sched` is the
list of runs in the order in which their goroutines run, `results` starts as
the empty map and `errors` as the `nil` slice. -/
def Runtime.RunMany (now : σ → Nat) (r : Runtime V σ ε Out) (w : World V σ) (fuel : Nat)
    (sched : List FlowRun) :
    Option (((String → Option (FlowOutput Out)) × List (RunError ε)) × World V σ) :=
  Runtime.RunManyFrom now r fuel w (fun _ => none, []) sched

/-- What `Run` returns to each goroutine of `RunMany`, in the order of the
list, each run next to its result; `none` when one of them does not return. -/
def Runtime.RunEach (now : σ → Nat) (r : Runtime V σ ε Out) (fuel : Nat) :
    World V σ → List FlowRun → Option (List (FlowRun × RunResult V σ ε Out))
  | _, [] => some []
  | w, fr :: rest =>
    match r.Run now fr.FlowID (w.ctxs fr.Ctx) w.st fuel with
    | none => none
    | some res => (Runtime.RunEach now r fuel (w.after fr res) rest).map (fun l => (fr, res) :: l)

/-- The world after the runs of a list have returned, one after the other. -/
def World.afterAll (w : World V σ) (outs : List (FlowRun × RunResult V σ ε Out)) : World V σ :=
  outs.foldl (fun w1 p => w1.after p.1 p.2) w

/-- The map and the error list after the results of a list of runs have been
collected, one after the other. -/
def collectAll (acc : (String → Option (FlowOutput Out)) × List (RunError ε))
    (outs : List (FlowRun × RunResult V σ ε Out)) :
    (String → Option (FlowOutput Out)) × List (RunError ε) :=
  outs.foldl (fun a p => collect a p.1 p.2) acc

end RunManyDefs

/-- A runtime with two flows of one node that ends the flow, `ok1` and `ok2`,
and the flow `bad` whose only node fails. -/
def runtime3 : Runtime Unit Unit String String :=
  (Runtime.New.RegisterAll
    [(NewFlow "ok1").Add (routeNode "A" "" "a"), (NewFlow "bad").Add (failingNode "A" "boom"),
      (NewFlow "ok2").Add (routeNode "A" "" "b")]).2

/-- Three runs, one for each flow of `runtime3`, each with a context of its
own. -/
def runs3 : List FlowRun := [⟨"ok1", 0⟩, ⟨"bad", 1⟩, ⟨"ok2", 2⟩]

/-- A world in which every context is empty. -/
def world0 : World Unit Unit := { ctxs := fun _ => ctx0, st := () }

/-- A node that sets the key `dirty` in the context and then fails. -/
def markNode : Node Unit Unit String String :=
  { ID := "A", Consult := fun ctx st => (⟨"", "", 0⟩, some "boom", ctx.Set "dirty" (), st) }

/-- A node that fails when the key `dirty` is set in the context, and ends the
flow otherwise. -/
def checkNode : Node Unit Unit String String :=
  { ID := "A",
    Consult := fun ctx st =>
      match ctx.Get "dirty" with
      | some _ => (⟨"", "", 0⟩, some "dirty", ctx, st)
      | none => (⟨"", "clean", 1⟩, none, ctx, st) }

/-- The flow `spin`: its node `A` routes to `A` along the connection `A → A`. -/
def flowSpin : Flow Unit Unit String String :=
  ((NewFlow "spin").Add (routeNode "A" "A" "a")).Connect "A" "A"

/-- A runtime with the flow `spin`, the flow `mark` of the node that sets
`dirty` and fails, and the flow `check` of the node that looks for `dirty`. -/
def runtime4 : Runtime Unit Unit String String :=
  (Runtime.New.RegisterAll
    [flowSpin, (NewFlow "mark").Add markNode, (NewFlow "check").Add checkNode]).2

/-! ## internal/graph/graph.go with its pointers

The same operations on the memory they work on: a `*Connection` is the address
of a connection object, a `[]*Connection` is the address of a backing array of
such addresses (the slice being the whole array), and the map of the graph
holds the address of the array of each key. `append` in `Connect` writes to
the array of the key, which nothing but the map refers to. -/

/-- The memory of a graph: connection objects and backing arrays by address,
the number of addresses handed out so far of each kind, and the map from a
key to the array of its slice (`none` being the `nil` slice). -/
structure GraphMem where
  objs : Nat → Connection
  nobjs : Nat
  arrs : Nat → List Nat
  narrs : Nat
  connections : String → Option Nat

/-- New creates an empty graph in an empty memory. -/
def GraphMem.New : GraphMem :=
  { objs := fun _ => ⟨"", "", 0⟩, nobjs := 0, arrs := fun _ => [], narrs := 0,
    connections := fun _ => none }

/-- The slice `g.connections[src]`, as the list of its pointers. -/
def GraphMem.slice (m : GraphMem) (src : String) : List Nat :=
  match m.connections src with
  | some a => m.arrs a
  | none => []

/-- Connect: the scan, then `&Connection{...}` at a new address, appended to
the slice of `src`. -/
def GraphMem.Connect (m : GraphMem) (src dst : String) (weight : F64) :
    Option GraphError × GraphMem :=
  if (m.slice src).any (fun p => (m.objs p).To = dst) then
    (some (GraphError.DuplicateConnection src dst), m)
  else
    match m.connections src with
    | some a =>
      (none, { m with
        objs := Function.update m.objs m.nobjs ⟨src, dst, weight⟩
        nobjs := m.nobjs + 1
        arrs := Function.update m.arrs a (m.arrs a ++ [m.nobjs]) })
    | none =>
      (none, { m with
        objs := Function.update m.objs m.nobjs ⟨src, dst, weight⟩
        nobjs := m.nobjs + 1
        arrs := Function.update m.arrs m.narrs [m.nobjs]
        narrs := m.narrs + 1
        connections := Function.update m.connections src (some m.narrs) })

/-- Outgoing: `make` a new array, `copy` the pointers of the slice of `src`
into it, sort it by the weights the pointers lead to, and return it (its
address). -/
def GraphMem.Outgoing (m : GraphMem) (src : String) : Nat × GraphMem :=
  (m.narrs, { m with
    arrs := Function.update m.arrs m.narrs
      (sortBy (fun p => (m.objs p).Weight) (m.slice src))
    narrs := m.narrs + 1 })

/-- AdjustWeight: `c.Weight = clamp(c.Weight+delta, 0, 1)` on the object that
the first pointer to a connection to `dst` leads to. -/
def GraphMem.AdjustWeight (m : GraphMem) (src dst : String) (delta : F64) :
    Option GraphError × GraphMem :=
  match (m.slice src).find? (fun p => (m.objs p).To = dst) with
  | some p =>
    (none, { m with
      objs := Function.update m.objs p
        { m.objs p with Weight := clamp ((m.objs p).Weight + delta) 0 1 } })
  | none => (some (GraphError.ConnectionNotFound src dst), m)

/-- The loop of `Disconnect` over the pointers of one slice. -/
def removeFirstPtr (objs : Nat → Connection) (dst : String) : List Nat → Option (List Nat)
  | [] => none
  | p :: ps =>
    if (objs p).To = dst then some ps
    else (removeFirstPtr objs dst ps).map (fun ps1 => p :: ps1)

/-- Disconnect: `append(conns[:i], conns[i+1:]...)` in the array of `src`. -/
def GraphMem.Disconnect (m : GraphMem) (src dst : String) : GraphMem :=
  match m.connections src with
  | none => m
  | some a =>
    match removeFirstPtr m.objs dst (m.arrs a) with
    | some ps => { m with arrs := Function.update m.arrs a ps }
    | none => m

/-- What the holder of the slice at address `a` reads through it. -/
def GraphMem.read (m : GraphMem) (a : Nat) : List Connection :=
  (m.arrs a).map m.objs

/-- The graph that the memory holds, slices read as lists of values. -/
def GraphMem.toGraph (m : GraphMem) : Graph :=
  ⟨fun k => (m.slice k).map m.objs⟩

/-- The holder of the slice at address `a` assigns `snap[i] = p`. -/
def GraphMem.writeSlot (m : GraphMem) (a i p : Nat) : GraphMem :=
  { m with arrs := Function.update m.arrs a ((m.arrs a).set i p) }

/-- The holder of the pointer `p` assigns `p.Weight = w`. -/
def GraphMem.writeWeight (m : GraphMem) (p : Nat) (w : F64) : GraphMem :=
  { m with objs := Function.update m.objs p { m.objs p with Weight := w } }

/-- The memory is in order: the arrays of the map and the objects of its
slices are at addresses that have been handed out. -/
def GraphMem.WF (m : GraphMem) : Prop :=
  (∀ k a, m.connections k = some a → a < m.narrs) ∧ (∀ k, ∀ p ∈ m.slice k, p < m.nobjs)

/-- The memory `m1` after any number of calls of the operations of the graph. -/
inductive GraphMem.Later (m : GraphMem) : GraphMem → Prop where
  | refl : GraphMem.Later m m
  | connect (m1 : GraphMem) (src dst : String) (weight : F64) :
      GraphMem.Later m m1 → GraphMem.Later m (m1.Connect src dst weight).2
  | adjustWeight (m1 : GraphMem) (src dst : String) (delta : F64) :
      GraphMem.Later m m1 → GraphMem.Later m (m1.AdjustWeight src dst delta).2
  | disconnect (m1 : GraphMem) (src dst : String) :
      GraphMem.Later m m1 → GraphMem.Later m (m1.Disconnect src dst)
  | outgoing (m1 : GraphMem) (src : String) :
      GraphMem.Later m m1 → GraphMem.Later m (m1.Outgoing src).2

/-- The memory `m1` after any number of calls of `Connect`, `Disconnect` and
`Outgoing`, and no call of `AdjustWeight`. -/
inductive GraphMem.LaterUnadjusted (m : GraphMem) : GraphMem → Prop where
  | refl : GraphMem.LaterUnadjusted m m
  | connect (m1 : GraphMem) (src dst : String) (weight : F64) :
      GraphMem.LaterUnadjusted m m1 → GraphMem.LaterUnadjusted m (m1.Connect src dst weight).2
  | disconnect (m1 : GraphMem) (src dst : String) :
      GraphMem.LaterUnadjusted m m1 → GraphMem.LaterUnadjusted m (m1.Disconnect src dst)
  | outgoing (m1 : GraphMem) (src : String) :
      GraphMem.LaterUnadjusted m m1 → GraphMem.LaterUnadjusted m (m1.Outgoing src).2

/-- The slice of every key holds connections from that key, and two keys have
two arrays. -/
def GraphMem.Keyed (m : GraphMem) : Prop :=
  (∀ k, ∀ p ∈ m.slice k, (m.objs p).From = k)
    ∧ (∀ k1 k2 a, m.connections k1 = some a → m.connections k2 = some a → k1 = k2)

/-- What holds of the slice at address `a` returned by `Outgoing`, after any
later calls: it is not an array of the map, its pointers are as they were in
`m1`, and the objects they lead to have kept their `From` and `To`. -/
def GraphMem.Apart (m1 : GraphMem) (a : Nat) (m2 : GraphMem) : Prop :=
  a < m2.narrs
    ∧ (∀ k b, m2.connections k = some b → b ≠ a ∧ b < m2.narrs)
    ∧ m2.arrs a = m1.arrs a
    ∧ ∀ p ∈ m1.arrs a, p < m2.nobjs
        ∧ (m2.objs p).From = (m1.objs p).From ∧ (m2.objs p).To = (m1.objs p).To

/-- The memory after `connect(A,B,0.5)` on a new graph. -/
def memAB : GraphMem := (GraphMem.New.Connect "A" "B" (F64.num (1/2))).2

/-! ## Comparisons of `float64` -/

theorem F64.num_gt_num (p q : ℚ) : F64.num p > F64.num q ↔ p > q := by
  show F64.gt (F64.num p) (F64.num q) = true ↔ p > q
  simp [F64.gt]

theorem F64.num_ge_num (p q : ℚ) : F64.num p ≥ F64.num q ↔ p ≥ q := by
  show F64.ge (F64.num p) (F64.num q) = true ↔ p ≥ q
  simp [F64.ge]

theorem F64.not_nan_gt (a : F64) : ¬ F64.nan > a := by
  show ¬ F64.gt F64.nan a = true
  simp [F64.gt]

theorem F64.not_gt_nan (a : F64) : ¬ a > F64.nan := by
  show ¬ F64.gt a F64.nan = true
  cases a <;> simp [F64.gt]

theorem F64.num_add_num (p q : ℚ) : F64.num p + F64.num q = F64.num (p + q) := rfl

theorem F64.zero_eq : (0 : F64) = F64.num 0 := by
  show F64.num ((0 : Nat) : ℚ) = F64.num 0
  simp

theorem F64.one_eq : (1 : F64) = F64.num 1 := by
  show F64.num ((1 : Nat) : ℚ) = F64.num 1
  simp

theorem F64.num_lt_num (p q : ℚ) : F64.num p < F64.num q ↔ p < q :=
  F64.num_gt_num q p

theorem F64.num_le_num (p q : ℚ) : F64.num p ≤ F64.num q ↔ p ≤ q :=
  F64.num_ge_num q p

theorem F64.not_nan_lt (a : F64) : ¬ F64.nan < a := F64.not_gt_nan a

theorem F64.not_lt_nan (a : F64) : ¬ a < F64.nan := F64.not_nan_gt a

/-- On a number, `clamp(v, 0, 1)` is `v` cut to the interval from 0 to 1. -/
theorem F64.clamp_num (v : ℚ) : clamp (F64.num v) 0 1 = F64.num (max 0 (min v 1)) := by
  unfold clamp
  rw [F64.zero_eq, F64.one_eq]
  simp only [F64.num_lt_num, gt_iff_lt]
  by_cases h0 : v < 0
  · have h1 : min v 1 = v := min_eq_left (by linarith)
    simp [h0, h1, max_eq_left (le_of_lt h0)]
  · by_cases h1 : 1 < v
    · have h2 : min v 1 = 1 := min_eq_right (le_of_lt h1)
      simp [h0, h1, h2]
    · have h2 : min v 1 = v := min_eq_left (not_lt.mp h1)
      simp [h0, h1, h2, not_lt.mp h0]

theorem F64.clamp_num_num (v lo hi : ℚ) :
    clamp (F64.num v) (F64.num lo) (F64.num hi)
      = F64.num (if v < lo then lo else if v > hi then hi else v) := by
  unfold clamp
  simp only [F64.num_lt_num, gt_iff_lt]
  by_cases h0 : v < lo
  · simp [h0]
  · by_cases h1 : hi < v <;> simp [h0, h1]

/-- A NaN passes through `clamp`: both of its comparisons are false. -/
theorem F64.clamp_nan (lo hi : F64) : clamp F64.nan lo hi = F64.nan := by
  unfold clamp
  rw [if_neg (F64.not_nan_lt lo), if_neg (F64.not_nan_gt hi)]

theorem F64.ne_of_gt (a b : F64) (h : a > b) : a ≠ b := by
  cases a with
  | nan => exact absurd h (F64.not_nan_gt b)
  | num p =>
    cases b with
    | nan => exact absurd h (F64.not_gt_nan _)
    | num q =>
      rw [F64.num_gt_num] at h
      intro e
      cases e
      exact lt_irrefl _ h

theorem F64.ge_of_gt (a b : F64) (h : a > b) : a ≥ b := by
  cases a with
  | nan => exact absurd h (F64.not_nan_gt b)
  | num p =>
    cases b with
    | nan => exact absurd h (F64.not_gt_nan _)
    | num q =>
      rw [F64.num_gt_num] at h
      rw [F64.num_ge_num]
      exact le_of_lt h

theorem F64.ge_of_not_gt (a b : F64) (ha : a ≠ F64.nan) (hb : b ≠ F64.nan) (h : ¬ a > b) :
    b ≥ a := by
  cases a with
  | nan => exact absurd rfl ha
  | num p =>
    cases b with
    | nan => exact absurd rfl hb
    | num q =>
      rw [F64.num_gt_num] at h
      rw [F64.num_ge_num]
      exact not_lt.mp h

theorem F64.ge_trans (a b c : F64) (h1 : a ≥ b) (h2 : b ≥ c) : a ≥ c := by
  cases a with
  | nan => exact absurd h1 (by show ¬ F64.ge F64.nan b = true; simp [F64.ge])
  | num p =>
    cases b with
    | nan => exact absurd h1 (by show ¬ F64.ge (F64.num p) F64.nan = true; simp [F64.ge])
    | num q =>
      cases c with
      | nan => exact absurd h2 (by show ¬ F64.ge (F64.num q) F64.nan = true; simp [F64.ge])
      | num r =>
        rw [F64.num_ge_num] at h1 h2 ⊢
        exact le_trans h2 h1

theorem F64.gt_of_ge_of_ne (a b : F64) (h1 : a ≥ b) (h2 : a ≠ b) : a > b := by
  cases a with
  | nan => exact absurd h1 (by show ¬ F64.ge F64.nan b = true; simp [F64.ge])
  | num p =>
    cases b with
    | nan => exact absurd h1 (by show ¬ F64.ge (F64.num p) F64.nan = true; simp [F64.ge])
    | num q =>
      rw [F64.num_ge_num] at h1
      rw [F64.num_gt_num]
      exact lt_of_le_of_ne h1 (fun e => h2 (by rw [e]))

/-! ## The sort of `Outgoing` -/

theorem sortInner_append (x : Connection) (r t : List Connection) :
    sortInner (r.reverse ++ x :: t) r.length = (insertBack x r).reverse ++ t := by
  induction r generalizing t with
  | nil => simp [sortInner, insertBack]
  | cons y ys ih =>
    have h1 : (ys.reverse ++ y :: x :: t)[ys.length + 1]? = some x := by
      rw [List.getElem?_append_right (by simp)]; simp
    have h2 : (ys.reverse ++ y :: x :: t)[ys.length]? = some y := by
      rw [List.getElem?_append_right (by simp)]; simp
    have h3 : ((ys.reverse ++ y :: x :: t).set (ys.length + 1) y).set ys.length x
        = ys.reverse ++ x :: y :: t := by
      rw [List.set_append_right _ _ (by simp), List.set_append_right _ _ (by simp)]
      simp
    simp only [List.reverse_cons, List.append_assoc, List.singleton_append, List.length_cons,
      sortInner, h1, h2, h3, insertBack]
    by_cases h : x.Weight > y.Weight
    · simp only [h, if_true, ih, List.reverse_cons, List.append_assoc, List.singleton_append]
    · simp [h]

theorem sortOuter_append (r t : List Connection) :
    (List.range' (r.length) t.length).foldl (fun cs i => sortInner cs i) (r.reverse ++ t)
      = (t.foldl (fun acc x => insertBack x acc) r).reverse := by
  induction t generalizing r with
  | nil => simp
  | cons x t ih =>
    have hl : (insertBack x r).length = r.length + 1 := by
      induction r with
      | nil => simp [insertBack]
      | cons y ys ihh => by_cases h : x.Weight > y.Weight <;> simp [insertBack, h, ihh]
    simp only [List.length_cons, List.range'_succ, List.foldl_cons, sortInner_append]
    have := ih (insertBack x r)
    rw [hl] at this
    simpa using this

theorem sortConnections_eq (conns : List Connection) :
    sortConnections conns = (conns.foldl (fun acc x => insertBack x acc) []).reverse := by
  cases conns with
  | nil => simp [sortConnections]
  | cons a t =>
    have := sortOuter_append [a] t
    simpa [sortConnections, insertBack] using this

theorem insertBack_perm (x : Connection) (r : List Connection) :
    (insertBack x r).Perm (x :: r) := by
  induction r with
  | nil => simp [insertBack]
  | cons y ys ih =>
    by_cases h : x.Weight > y.Weight
    · simp only [insertBack, h, if_true]
      exact (List.Perm.cons y ih).trans (List.Perm.swap x y ys)
    · simp [insertBack, h]

theorem insertBack_filter (w : F64) (x : Connection) (r : List Connection) :
    (insertBack x r).filter (fun c => c.Weight = w)
      = (x :: r).filter (fun c => c.Weight = w) := by
  induction r with
  | nil => simp [insertBack]
  | cons y ys ih =>
    by_cases h : x.Weight > y.Weight
    · simp only [insertBack, h, if_true, List.filter_cons, ih]
      by_cases hx : x.Weight = w
      · have hy : ¬ y.Weight = w := fun hy => F64.ne_of_gt _ _ h (by rw [hx, hy])
        simp [hx, hy]
      · simp [hx]
    · simp [insertBack, h]

theorem insertBack_sorted (x : Connection) (r : List Connection)
    (hx : x.Weight ≠ F64.nan) (hn : ∀ y ∈ r, y.Weight ≠ F64.nan)
    (hr : r.Pairwise (fun a b => a.Weight ≤ b.Weight)) :
    (insertBack x r).Pairwise (fun a b => a.Weight ≤ b.Weight) := by
  induction r with
  | nil => simp [insertBack]
  | cons y ys ih =>
    rw [List.pairwise_cons] at hr
    have hy : y.Weight ≠ F64.nan := hn y (List.mem_cons_self _ _)
    have hys : ∀ z ∈ ys, z.Weight ≠ F64.nan := fun z hz => hn z (List.mem_cons_of_mem _ hz)
    by_cases h : x.Weight > y.Weight
    · simp only [insertBack, h, if_true, List.pairwise_cons]
      refine ⟨fun z hz => ?_, ih hys hr.2⟩
      rcases (List.mem_cons.mp ((insertBack_perm x ys).mem_iff.mp hz)) with hzx | hzy
      · rw [hzx]; exact F64.ge_of_gt _ _ h
      · exact hr.1 z hzy
    · simp only [insertBack, h, if_false, List.pairwise_cons]
      have hxy : x.Weight ≤ y.Weight := F64.ge_of_not_gt _ _ hx hy h
      refine ⟨fun z hz => ?_, hr⟩
      rcases List.mem_cons.mp hz with hzy | hzs
      · rw [hzy]; exact hxy
      · exact F64.ge_trans _ _ _ (hr.1 z hzs) hxy

theorem insertBack_mem_nan (x : Connection) (r : List Connection)
    (hx : x.Weight ≠ F64.nan) (hn : ∀ y ∈ r, y.Weight ≠ F64.nan) :
    ∀ y ∈ insertBack x r, y.Weight ≠ F64.nan := by
  intro y hy
  rcases List.mem_cons.mp ((insertBack_perm x r).mem_iff.mp hy) with h | h
  · rw [h]; exact hx
  · exact hn y h

theorem foldl_insertBack_perm (t r : List Connection) :
    (t.foldl (fun acc x => insertBack x acc) r).Perm (t ++ r) := by
  induction t generalizing r with
  | nil => simp
  | cons x t ih =>
    simp only [List.foldl_cons, List.cons_append]
    refine (ih _).trans ?_
    exact (List.Perm.append_left t (insertBack_perm x r)).trans List.perm_middle

theorem foldl_insertBack_sorted (t r : List Connection)
    (ht : ∀ y ∈ t, y.Weight ≠ F64.nan) (hn : ∀ y ∈ r, y.Weight ≠ F64.nan)
    (hr : r.Pairwise (fun a b => a.Weight ≤ b.Weight)) :
    (t.foldl (fun acc x => insertBack x acc) r).Pairwise (fun a b => a.Weight ≤ b.Weight) := by
  induction t generalizing r with
  | nil => simpa using hr
  | cons x t ih =>
    have hx : x.Weight ≠ F64.nan := ht x (List.mem_cons_self _ _)
    exact ih _ (fun y hy => ht y (List.mem_cons_of_mem _ hy))
      (insertBack_mem_nan x r hx hn) (insertBack_sorted x r hx hn hr)

theorem foldl_insertBack_filter (w : F64) (t r : List Connection) :
    (t.foldl (fun acc x => insertBack x acc) r).filter (fun c => c.Weight = w)
      = (t.reverse ++ r).filter (fun c => c.Weight = w) := by
  induction t generalizing r with
  | nil => simp
  | cons x t ih =>
    simp only [List.foldl_cons, ih, List.filter_append, insertBack_filter, List.reverse_cons,
      List.append_assoc, List.singleton_append]

theorem sortConnections_perm (conns : List Connection) :
    (sortConnections conns).Perm conns := by
  rw [sortConnections_eq]
  exact (List.reverse_perm _).trans (by simpa using foldl_insertBack_perm conns [])

theorem sortConnections_sorted (conns : List Connection)
    (hn : ∀ c ∈ conns, c.Weight ≠ F64.nan) :
    (sortConnections conns).Pairwise (fun a b => a.Weight ≥ b.Weight) := by
  rw [sortConnections_eq, List.pairwise_reverse]
  exact foldl_insertBack_sorted conns [] hn (by simp) List.Pairwise.nil

theorem sortConnections_filter (w : F64) (conns : List Connection) :
    (sortConnections conns).filter (fun c => c.Weight = w)
      = conns.filter (fun c => c.Weight = w) := by
  rw [sortConnections_eq, List.filter_reverse, foldl_insertBack_filter]
  simp [List.filter_reverse]

theorem mem_Outgoing (g : Graph) (src : String) (c : Connection) :
    c ∈ g.Outgoing src ↔ c ∈ g.connections src :=
  (sortConnections_perm _).mem_iff

theorem Outgoing_any (g : Graph) (src dst : String) :
    (g.Outgoing src).any (fun conn => conn.To = dst) = true
      ↔ ∃ c ∈ g.connections src, c.To = dst := by
  simp only [List.any_eq_true, decide_eq_true_eq]
  constructor
  · rintro ⟨c, hc, h⟩; exact ⟨c, (mem_Outgoing g src c).mp hc, h⟩
  · rintro ⟨c, hc, h⟩; exact ⟨c, (mem_Outgoing g src c).mpr hc, h⟩

/-! ## The loops of `AdjustWeight` and `Disconnect` -/

theorem adjustFirst_none (dst : String) (delta : F64) (l : List Connection)
    (h : ∀ c ∈ l, c.To ≠ dst) : adjustFirst dst delta l = none := by
  induction l with
  | nil => rfl
  | cons c cs ih =>
    have hc : c.To ≠ dst := h c (List.mem_cons_self _ _)
    have hcs : ∀ x ∈ cs, x.To ≠ dst := fun x hx => h x (List.mem_cons_of_mem _ hx)
    simp [adjustFirst, hc, ih hcs]

theorem adjustFirst_split (dst : String) (delta : F64) (pre post : List Connection)
    (c : Connection) (hpre : ∀ p ∈ pre, p.To ≠ dst) (hc : c.To = dst) :
    adjustFirst dst delta (pre ++ c :: post)
      = some (pre ++ { c with Weight := clamp (c.Weight + delta) 0 1 } :: post) := by
  induction pre with
  | nil => simp [adjustFirst, hc]
  | cons p ps ih =>
    have hp : p.To ≠ dst := hpre p (List.mem_cons_self _ _)
    have hps : ∀ x ∈ ps, x.To ≠ dst := fun x hx => hpre x (List.mem_cons_of_mem _ hx)
    simp [adjustFirst, hp, ih hps]

theorem adjustFirst_map_To (dst : String) (delta : F64) (l l1 : List Connection)
    (h : adjustFirst dst delta l = some l1) :
    l1.map (fun c => c.To) = l.map (fun c => c.To)
      ∧ l1.map (fun c => c.From) = l.map (fun c => c.From) := by
  induction l generalizing l1 with
  | nil => simp [adjustFirst] at h
  | cons c cs ih =>
    by_cases hc : c.To = dst
    · simp only [adjustFirst, hc, if_true, Option.some.injEq] at h
      subst h; simp [hc]
    · simp only [adjustFirst, hc, if_false, Option.map_eq_some'] at h
      obtain ⟨l2, h2, rfl⟩ := h
      simp [ih l2 h2]

theorem removeFirst_none (dst : String) (l : List Connection)
    (h : ∀ c ∈ l, c.To ≠ dst) : removeFirst dst l = none := by
  induction l with
  | nil => rfl
  | cons c cs ih =>
    have hc : c.To ≠ dst := h c (List.mem_cons_self _ _)
    have hcs : ∀ x ∈ cs, x.To ≠ dst := fun x hx => h x (List.mem_cons_of_mem _ hx)
    simp [removeFirst, hc, ih hcs]

theorem removeFirst_split (dst : String) (pre post : List Connection)
    (c : Connection) (hpre : ∀ p ∈ pre, p.To ≠ dst) (hc : c.To = dst) :
    removeFirst dst (pre ++ c :: post) = some (pre ++ post) := by
  induction pre with
  | nil => simp [removeFirst, hc]
  | cons p ps ih =>
    have hp : p.To ≠ dst := hpre p (List.mem_cons_self _ _)
    have hps : ∀ x ∈ ps, x.To ≠ dst := fun x hx => hpre x (List.mem_cons_of_mem _ hx)
    simp [removeFirst, hp, ih hps]

/-- A slice that holds a connection to `dst` splits at the first one. -/
theorem exists_first_split (dst : String) (l : List Connection)
    (h : ∃ c ∈ l, c.To = dst) :
    ∃ pre c post, l = pre ++ c :: post ∧ (∀ p ∈ pre, p.To ≠ dst) ∧ c.To = dst := by
  induction l with
  | nil => simp at h
  | cons a as ih =>
    by_cases ha : a.To = dst
    · exact ⟨[], a, as, rfl, by simp, ha⟩
    · have h2 : ∃ c ∈ as, c.To = dst := by
        obtain ⟨c, hc, hcd⟩ := h
        rcases List.mem_cons.mp hc with rfl | hmem
        · exact absurd hcd ha
        · exact ⟨c, hmem, hcd⟩
      obtain ⟨pre, c, post, hl, hpre, hc⟩ := ih h2
      refine ⟨a :: pre, c, post, by simp [hl], ?_, hc⟩
      intro p hp
      rcases List.mem_cons.mp hp with rfl | hmem
      · exact ha
      · exact hpre p hmem

theorem removeFirst_sublist (dst : String) (l l1 : List Connection)
    (h : removeFirst dst l = some l1) : l1.Sublist l := by
  induction l generalizing l1 with
  | nil => simp [removeFirst] at h
  | cons c cs ih =>
    by_cases hc : c.To = dst
    · simp only [removeFirst, hc, if_true, Option.some.injEq] at h
      subst h; exact List.sublist_cons_self _ _
    · simp only [removeFirst, hc, if_false, Option.map_eq_some'] at h
      obtain ⟨l2, h2, rfl⟩ := h
      exact (ih l2 h2).cons₂ c

theorem removeFirst_no_target (dst : String) (l l1 : List Connection)
    (hn : (l.map (fun c => c.To)).Nodup) (h : removeFirst dst l = some l1) :
    ∀ c ∈ l1, c.To ≠ dst := by
  induction l generalizing l1 with
  | nil => simp [removeFirst] at h
  | cons c cs ih =>
    rw [List.map_cons, List.nodup_cons] at hn
    by_cases hc : c.To = dst
    · simp only [removeFirst, hc, if_true, Option.some.injEq] at h
      subst h
      intro x hx hxd
      exact hn.1 (List.mem_map.mpr ⟨x, hx, by rw [hxd, hc]⟩)
    · simp only [removeFirst, hc, if_false, Option.map_eq_some'] at h
      obtain ⟨l2, h2, rfl⟩ := h
      intro x hx
      rcases List.mem_cons.mp hx with rfl | hmem
      · exact hc
      · exact ih l2 hn.2 h2 x hmem

/-! ## The invariant of the graphs built by the exported operations -/

/-- In a graph built from `New()` no slice holds two connections to one
destination, and every connection sits under the key of its `From`. -/
theorem Reachable_invariant (g : Graph) (hg : g.Reachable) (k : String) :
    ((g.connections k).map (fun c => c.To)).Nodup ∧ ∀ c ∈ g.connections k, c.From = k := by
  induction hg generalizing k with
  | new => simp [Graph.New]
  | connect g src dst weight _ ih =>
    unfold Graph.Connect
    by_cases hany : (g.connections src).any (fun c => c.To = dst) = true
    · simp only [hany, if_true]; exact ih k
    · simp only [hany]
      by_cases hk : k = src
      · subst hk
        simp only [Bool.false_eq_true, if_false, Function.update_same]
        have hno : ∀ c ∈ g.connections k, c.To ≠ dst := by
          intro c hc hcd
          exact hany (List.any_eq_true.mpr ⟨c, hc, by simpa using hcd⟩)
        refine ⟨?_, ?_⟩
        · rw [List.map_append, List.nodup_append]
          refine ⟨(ih k).1, by simp, ?_⟩
          intro a ha hb
          simp only [List.map_cons, List.map_nil, List.mem_singleton] at hb
          obtain ⟨c, hc, hca⟩ := List.mem_map.mp ha
          exact hno c hc (by rw [hca, hb])
        · intro c hc
          rcases List.mem_append.mp hc with h1 | h1
          · exact (ih k).2 c h1
          · simp only [List.mem_singleton] at h1
            rw [h1]
      · simp only [Bool.false_eq_true, if_false, Function.update_noteq hk]
        exact ih k
  | adjustWeight g src dst delta _ ih =>
    unfold Graph.AdjustWeight
    cases hadj : adjustFirst dst delta (g.connections src) with
    | none => exact ih k
    | some cs =>
      by_cases hk : k = src
      · subst hk
        simp only [Function.update_same]
        have hm := adjustFirst_map_To dst delta _ cs hadj
        refine ⟨by rw [hm.1]; exact (ih k).1, ?_⟩
        intro c hc
        have hc1 : c.From ∈ cs.map (fun c => c.From) := List.mem_map.mpr ⟨c, hc, rfl⟩
        rw [hm.2] at hc1
        obtain ⟨d, hd, hdc⟩ := List.mem_map.mp hc1
        rw [← hdc]; exact (ih k).2 d hd
      · simp only [Function.update_noteq hk]
        exact ih k
  | disconnect g src dst _ ih =>
    unfold Graph.Disconnect
    cases hrem : removeFirst dst (g.connections src) with
    | none => exact ih k
    | some cs =>
      by_cases hk : k = src
      · subst hk
        simp only [Function.update_same]
        have hsub := removeFirst_sublist dst _ cs hrem
        exact ⟨(ih k).1.sublist (hsub.map _), fun c hc => (ih k).2 c (hsub.subset hc)⟩
      · simp only [Function.update_noteq hk]
        exact ih k

/-! ## Claims on the connection graph -/

/-- C6: when a connection `src → dst` is already stored, `Connect` fails with
DuplicateConnection and hands back the graph it was given, so `Outgoing`
reports the same connections, in the same order and with the same weights, as
before the call. -/
theorem Connect_duplicate_fails (g : Graph) (src dst : String) (w : F64)
    (h : ∃ c ∈ g.connections src, c.To = dst) :
    g.Connect src dst w = (some (GraphError.DuplicateConnection src dst), g)
      ∧ ∀ x, (g.Connect src dst w).2.Outgoing x = g.Outgoing x := by
  have hany : (g.connections src).any (fun c => c.To = dst) = true := by
    obtain ⟨c, hc, hcd⟩ := h
    exact List.any_eq_true.mpr ⟨c, hc, by simpa using hcd⟩
  have heq : g.Connect src dst w = (some (GraphError.DuplicateConnection src dst), g) := by
    simp [Graph.Connect, hany]
  exact ⟨heq, fun x => by rw [heq]⟩

/-- C6 at `connect(A,B,0.5)` then `connect(A,B,0.2)`: the second call fails and
`outgoing(A)` still reports `0.5` for `A → B`. -/
theorem Connect_duplicate_fails_witness :
    (graphAB (F64.num (1/2))).Outgoing "A" = [⟨"A", "B", F64.num (1/2)⟩]
      ∧ ((graphAB (F64.num (1/2))).Connect "A" "B" (F64.num (1/5))
          = (some (GraphError.DuplicateConnection "A" "B"), graphAB (F64.num (1/2)))
        ∧ ∀ x, ((graphAB (F64.num (1/2))).Connect "A" "B" (F64.num (1/5))).2.Outgoing x
            = (graphAB (F64.num (1/2))).Outgoing x) :=
  ⟨by simp [graphAB, Graph.Connect, Graph.New, Graph.Outgoing, sortConnections],
   Connect_duplicate_fails (graphAB (F64.num (1/2))) "A" "B" (F64.num (1/5))
    ⟨⟨"A", "B", F64.num (1/2)⟩, by simp [graphAB, Graph.Connect, Graph.New], rfl⟩⟩

/-- C7, the code at `New().Connect("A", "B", 1.5)`: the call succeeds and the
stored weight is `1.5`, which is above `1` and is not `clamp(1.5, 0, 1)`. -/
theorem Connect_stores_weight_unclamped :
    (Graph.New.Connect "A" "B" (F64.num (3/2))).1 = none
      ∧ (Graph.New.Connect "A" "B" (F64.num (3/2))).2.connections "A" = [⟨"A", "B", F64.num (3/2)⟩]
      ∧ (Graph.New.Connect "A" "B" (F64.num (3/2))).2.Reachable
      ∧ ¬ (F64.num (3/2) ≤ 1)
      ∧ clamp (F64.num (3/2)) 0 1 = 1 := by
  refine ⟨by simp [Graph.Connect, Graph.New], by simp [Graph.Connect, Graph.New],
    Graph.Reachable.connect _ _ _ _ Graph.Reachable.new, ?_, ?_⟩
  · rw [F64.one_eq, F64.num_le_num]; norm_num
  · rw [F64.clamp_num, F64.one_eq]; norm_num

/-- `Outgoing(src)` is always a permutation of the connections stored for
`src` in which, for every weight `w`, the connections of weight `w` come in
the order in which they are stored (the order of their insertion, `Connect`
appending at the end). When no stored weight of `src` is a NaN it is in
non-increasing order of weight, and in strictly decreasing order when the
stored weights are moreover pairwise distinct. -/
theorem Outgoing_sorted_stable (g : Graph) (src : String) :
    (g.Outgoing src).Perm (g.connections src)
      ∧ ((∀ c ∈ g.connections src, c.Weight ≠ F64.nan) →
          (g.Outgoing src).Pairwise (fun a b => a.Weight ≥ b.Weight))
      ∧ ((∀ c ∈ g.connections src, c.Weight ≠ F64.nan) →
          ((g.connections src).map (fun c => c.Weight)).Nodup →
          (g.Outgoing src).Pairwise (fun a b => a.Weight > b.Weight))
      ∧ (∀ w : F64, (g.Outgoing src).filter (fun c => c.Weight = w)
          = (g.connections src).filter (fun c => c.Weight = w))
      ∧ (∀ dst w, (g.Connect src dst w).1 = none →
          (g.Connect src dst w).2.connections src = g.connections src ++ [⟨src, dst, w⟩]) := by
  refine ⟨sortConnections_perm _, fun hn => sortConnections_sorted _ hn, ?_,
    fun w => sortConnections_filter w _, ?_⟩
  · intro hn hnd
    have hnd2 : ((g.Outgoing src).map (fun c => c.Weight)).Nodup :=
      ((sortConnections_perm (g.connections src)).map _).nodup_iff.mpr hnd
    have hne : (g.Outgoing src).Pairwise (fun a b => a.Weight ≠ b.Weight) :=
      (List.pairwise_map.mp hnd2)
    exact ((sortConnections_sorted (g.connections src) hn).and hne).imp
      (fun h => F64.gt_of_ge_of_ne _ _ h.1 h.2)
  · intro dst w h
    unfold Graph.Connect at h ⊢
    by_cases hany : (g.connections src).any (fun c => c.To = dst) = true
    · simp [hany] at h
    · simp [hany]

/-- Three connections stored in the order `B (0.5)`, `C (1)`, `D (0.5)`:
`Outgoing` puts `C` first and keeps `B` before `D`. -/
theorem Outgoing_sorted_stable_fan :
    graphFan.connections "A" = [⟨"A", "B", F64.num (1/2)⟩, ⟨"A", "C", 1⟩, ⟨"A", "D", F64.num (1/2)⟩]
      ∧ graphFan.Outgoing "A" = [⟨"A", "C", 1⟩, ⟨"A", "B", F64.num (1/2)⟩, ⟨"A", "D", F64.num (1/2)⟩]
      ∧ (graphFan.Outgoing "A").filter (fun c => c.Weight = F64.num (1/2))
          = (graphFan.connections "A").filter (fun c => c.Weight = F64.num (1/2)) := by
  have hc : graphFan.connections "A"
      = [⟨"A", "B", F64.num (1/2)⟩, ⟨"A", "C", 1⟩, ⟨"A", "D", F64.num (1/2)⟩] := by
    simp [graphFan, Graph.Connect, Graph.New]
  refine ⟨hc, ?_, (Outgoing_sorted_stable graphFan "A").2.2.2.1 (F64.num (1/2))⟩
  unfold Graph.Outgoing
  rw [hc]
  simp [sortConnections, sortInner, List.range', F64.one_eq, F64.num_gt_num]
  norm_num [sortInner, F64.num_gt_num]

/-- C8, the code at `g.Connect("A","B",0.2); g.Connect("A","C",NaN);
g.Connect("A","D",0.9); g.Outgoing("A")`: the three calls of `Connect`
succeed and store the three connections in this order, and `Outgoing("A")`
returns them in the stored order, `0.2` before `0.9`: both comparisons with
the NaN are false, so the insertion sort moves nothing and the result is not
in non-increasing order of weight. -/
theorem Outgoing_unsorted_at_NaN :
    (Graph.New.Connect "A" "B" (F64.num (1/5))).1 = none
      ∧ ((Graph.New.Connect "A" "B" (F64.num (1/5))).2.Connect "A" "C" F64.nan).1 = none
      ∧ (((Graph.New.Connect "A" "B" (F64.num (1/5))).2.Connect "A" "C" F64.nan).2.Connect
          "A" "D" (F64.num (9/10))).1 = none
      ∧ graphNaN.Reachable
      ∧ graphNaN.connections "A"
          = [⟨"A", "B", F64.num (1/5)⟩, ⟨"A", "C", F64.nan⟩, ⟨"A", "D", F64.num (9/10)⟩]
      ∧ graphNaN.Outgoing "A"
          = [⟨"A", "B", F64.num (1/5)⟩, ⟨"A", "C", F64.nan⟩, ⟨"A", "D", F64.num (9/10)⟩]
      ∧ ¬ (graphNaN.Outgoing "A").Pairwise (fun a b => a.Weight ≥ b.Weight)
      ∧ F64.num (9/10) > F64.num (1/5) := by
  have hc : graphNaN.connections "A"
      = [⟨"A", "B", F64.num (1/5)⟩, ⟨"A", "C", F64.nan⟩, ⟨"A", "D", F64.num (9/10)⟩] := by
    simp [graphNaN, Graph.Connect, Graph.New]
  have ho : graphNaN.Outgoing "A"
      = [⟨"A", "B", F64.num (1/5)⟩, ⟨"A", "C", F64.nan⟩, ⟨"A", "D", F64.num (9/10)⟩] := by
    unfold Graph.Outgoing
    rw [hc]
    simp [sortConnections, sortInner, List.range', F64.not_nan_gt, F64.not_gt_nan]
  refine ⟨by simp [Graph.Connect, Graph.New], by simp [Graph.Connect, Graph.New],
    by simp [Graph.Connect, Graph.New], ?_, hc, ho, ?_, ?_⟩
  · exact Graph.Reachable.connect _ _ _ _ (Graph.Reachable.connect _ _ _ _
      (Graph.Reachable.connect _ _ _ _ Graph.Reachable.new))
  · rw [ho]
    intro h
    have h2 := (List.pairwise_cons.mp h).1 ⟨"A", "C", F64.nan⟩ (by simp)
    exact absurd h2 (by show ¬ F64.ge (F64.num (1/5)) F64.nan = true; simp [F64.ge])
  · rw [F64.num_gt_num]; norm_num

/-- C9: `AdjustWeight(src, dst, delta)` on a graph without a connection
`src → dst` fails with ConnectionNotFound and hands back the graph it was
given; on a graph with one it succeeds, the first connection to `dst` stored
for `src` gets the weight `clamp(old + delta, 0, 1)`, which for numbers is the
rational `old + delta` cut to the interval from 0 to 1, and every other
connection, of `src` and of every other source, keeps its weight and its
place. -/
theorem AdjustWeight_spec (g : Graph) (src dst : String) (delta : F64) :
    ((∀ c ∈ g.connections src, c.To ≠ dst) →
        g.AdjustWeight src dst delta = (some (GraphError.ConnectionNotFound src dst), g))
      ∧ ((∃ c ∈ g.connections src, c.To = dst) →
          ∃ pre c post, g.connections src = pre ++ c :: post
            ∧ (∀ p ∈ pre, p.To ≠ dst) ∧ c.To = dst
            ∧ (g.AdjustWeight src dst delta).1 = none
            ∧ (g.AdjustWeight src dst delta).2.connections src
                = pre ++ ⟨c.From, c.To, clamp (c.Weight + delta) 0 1⟩ :: post
            ∧ (∀ x, x ≠ src →
                (g.AdjustWeight src dst delta).2.connections x = g.connections x))
      ∧ (∀ v : ℚ, clamp (F64.num v) 0 1 = F64.num (max 0 (min v 1))
          ∧ 0 ≤ clamp (F64.num v) 0 1 ∧ clamp (F64.num v) 0 1 ≤ 1)
      ∧ (∀ old d : ℚ, clamp (F64.num old + F64.num d) 0 1
          = F64.num (max 0 (min (old + d) 1))) := by
  refine ⟨fun h => ?_, fun h => ?_, fun v => ?_,
    fun old d => by rw [F64.num_add_num, F64.clamp_num]⟩
  · simp [Graph.AdjustWeight, adjustFirst_none dst delta _ h]
  · obtain ⟨pre, c, post, hl, hpre, hc⟩ := exists_first_split dst _ h
    have hadj := adjustFirst_split dst delta pre post c hpre hc
    rw [← hl] at hadj
    refine ⟨pre, c, post, hl, hpre, hc, ?_, ?_, ?_⟩
    · simp [Graph.AdjustWeight, hadj]
    · simp [Graph.AdjustWeight, hadj]
    · intro x hx
      simp [Graph.AdjustWeight, hadj, Function.update_noteq hx]
  · rw [F64.clamp_num, F64.zero_eq, F64.one_eq, F64.num_le_num, F64.num_le_num]
    exact ⟨rfl, le_max_left _ _, max_le (by norm_num) (min_le_right _ _)⟩

/-- C9 at the three examples: `0.9` with `+0.5` gives `1`, `0.1` with `-0.5`
gives `0`, `0.5` with `+0.1` gives `0.6`; and adjusting `A → C` where only
`A → B` is stored fails and changes nothing. -/
theorem AdjustWeight_spec_witness :
    ((graphAB (F64.num (9/10))).AdjustWeight "A" "B" (F64.num (1/2))).2.connections "A" = [⟨"A", "B", 1⟩]
      ∧ ((graphAB (F64.num (1/10))).AdjustWeight "A" "B" (F64.num (-1/2))).2.connections "A" = [⟨"A", "B", 0⟩]
      ∧ ((graphAB (F64.num (1/2))).AdjustWeight "A" "B" (F64.num (1/10))).2.connections "A" = [⟨"A", "B", F64.num (3/5)⟩]
      ∧ (graphAB (F64.num (1/2))).AdjustWeight "A" "C" (F64.num (1/10))
          = (some (GraphError.ConnectionNotFound "A" "C"), graphAB (F64.num (1/2))) := by
  have hconn : ∀ w : F64, (graphAB w).connections "A" = [⟨"A", "B", w⟩] := fun w => by
    simp [graphAB, Graph.Connect, Graph.New]
  have key : ∀ w d : F64, ((graphAB w).AdjustWeight "A" "B" d).2.connections "A"
      = [⟨"A", "B", clamp (w + d) 0 1⟩] := by
    intro w d
    obtain ⟨pre, c, post, hl, hpre, hc, _, hres, _⟩ :=
      (AdjustWeight_spec (graphAB w) "A" "B" d).2.1 ⟨⟨"A", "B", w⟩, by simp [hconn], rfl⟩
    rw [hconn] at hl
    cases pre with
    | nil =>
      simp only [List.nil_append, List.cons.injEq] at hl
      obtain ⟨rfl, rfl⟩ := hl
      simpa using hres
    | cons p ps =>
      simp only [List.cons_append, List.cons.injEq] at hl
      have hp := hpre p (List.mem_cons_self _ _)
      rw [← hl.1] at hp
      exact absurd rfl hp
  refine ⟨?_, ?_, ?_, ?_⟩
  · rw [key, F64.num_add_num, F64.clamp_num, F64.one_eq]; norm_num
  · rw [key, F64.num_add_num, F64.clamp_num, F64.zero_eq]; norm_num
  · rw [key, F64.num_add_num, F64.clamp_num]; norm_num
  · exact (AdjustWeight_spec (graphAB (F64.num (1/2))) "A" "C" (F64.num (1/10))).1 (by simp [hconn])

/-- C10: `Disconnect(src, dst)` has no failure. When no connection `src → dst`
is stored the graph is unchanged; otherwise the first one stored for `src` is
removed and the others stay, in the same order and with the same weights; the
connections of every other source are untouched. In a graph built from `New()`
no connection `src → dst` remains afterwards and `Connect(src, dst, w)` then
succeeds. -/
theorem Disconnect_spec (g : Graph) (src dst : String) :
    ((∀ c ∈ g.connections src, c.To ≠ dst) → g.Disconnect src dst = g)
      ∧ (∀ pre c post, g.connections src = pre ++ c :: post →
          (∀ p ∈ pre, p.To ≠ dst) → c.To = dst →
          (g.Disconnect src dst).connections src = pre ++ post)
      ∧ (∀ x, x ≠ src → (g.Disconnect src dst).connections x = g.connections x)
      ∧ (g.Reachable →
          (∀ c ∈ (g.Disconnect src dst).connections src, c.To ≠ dst)
            ∧ ∀ w, ((g.Disconnect src dst).Connect src dst w).1 = none
              ∧ ((g.Disconnect src dst).Connect src dst w).2.connections src
                  = (g.Disconnect src dst).connections src ++ [⟨src, dst, w⟩]) := by
  refine ⟨fun h => ?_, fun pre c post hl hpre hc => ?_, fun x hx => ?_, fun hg => ?_⟩
  · simp [Graph.Disconnect, removeFirst_none dst _ h]
  · have hrem := removeFirst_split dst pre post c hpre hc
    rw [← hl] at hrem
    simp [Graph.Disconnect, hrem]
  · unfold Graph.Disconnect
    cases removeFirst dst (g.connections src) with
    | none => rfl
    | some cs => simp [Function.update_noteq hx]
  · have hno : ∀ c ∈ (g.Disconnect src dst).connections src, c.To ≠ dst := by
      unfold Graph.Disconnect
      cases hrem : removeFirst dst (g.connections src) with
      | none =>
        intro c hc hcd
        obtain ⟨pre, c1, post, hl, hpre, hc1⟩ := exists_first_split dst _ ⟨c, hc, hcd⟩
        have := removeFirst_split dst pre post c1 hpre hc1
        rw [← hl, hrem] at this
        exact Option.noConfusion this
      | some cs =>
        simp only [Function.update_same]
        exact removeFirst_no_target dst _ cs (Reachable_invariant g hg src).1 hrem
    refine ⟨hno, fun w => ?_⟩
    have hany : ¬ ((g.Disconnect src dst).connections src).any (fun c => c.To = dst) = true := by
      intro h
      obtain ⟨c, hc, hcd⟩ := List.any_eq_true.mp h
      exact hno c hc (by simpa using hcd)
    simp [Graph.Connect, hany]

/-- C10 at the graph holding `A → B (0.5)`, `A → C (1)`, `A → D (0.5)`:
`Disconnect(A, C)` leaves `B` then `D`, `Disconnect(A, E)` changes nothing, and
`Connect(A, C, 0.3)` after the removal succeeds. -/
theorem Disconnect_spec_witness :
    (graphFan.Disconnect "A" "C").connections "A" = [⟨"A", "B", F64.num (1/2)⟩, ⟨"A", "D", F64.num (1/2)⟩]
      ∧ graphFan.Disconnect "A" "E" = graphFan
      ∧ ((graphFan.Disconnect "A" "C").Connect "A" "C" (F64.num (3/10))).1 = none := by
  have hc : graphFan.connections "A"
      = [⟨"A", "B", F64.num (1/2)⟩] ++ ⟨"A", "C", 1⟩ :: [⟨"A", "D", F64.num (1/2)⟩] := by
    simp [graphFan, Graph.Connect, Graph.New]
  have hr : graphFan.Reachable :=
    Graph.Reachable.connect _ _ _ _ (Graph.Reachable.connect _ _ _ _
      (Graph.Reachable.connect _ _ _ _ Graph.Reachable.new))
  refine ⟨?_, ?_, ?_⟩
  · exact (Disconnect_spec graphFan "A" "C").2.1 _ _ _ hc (by simp) rfl
  · exact (Disconnect_spec graphFan "A" "E").1 (by rw [hc]; simp)
  · exact (((Disconnect_spec graphFan "A" "C").2.2.2 hr).2 (F64.num (3/10))).1

/-! ## The loop of `Execute` -/

section FlowProofs

variable {V σ ε Out : Type}

/-- What a pass that goes on to a next pass has done. -/
theorem loopBody_inl (now : σ → Nat) (f : Flow V σ ε Out) (s s1 : ExecState V σ Out)
    (h : f.loopBody now s = Sum.inl s1) :
    s.current ≠ "" ∧ ∃ node v ctx1 st1,
      f.nodes s.current = some node
        ∧ node.Consult s.ctx s.st = (v, none, ctx1, st1)
        ∧ v.Route ≠ ""
        ∧ (∃ c ∈ f.graph.connections s.current, c.To = v.Route)
        ∧ s1 = { current := v.Route, output := s.output.record s.current v, ctx := ctx1,
                 st := st1, consulted := s.consulted ++ [s.current] } := by
  unfold Flow.loopBody at h
  by_cases hcur : s.current = ""
  · simp [hcur] at h
  · refine ⟨hcur, ?_⟩
    simp only [hcur, if_false] at h
    cases hn : f.nodes s.current with
    | none => simp [hn] at h
    | some node =>
      simp only [hn] at h
      rcases hc : node.Consult s.ctx s.st with ⟨v, e, ctx1, st1⟩
      cases e with
      | some e => simp [hc] at h
      | none =>
        simp only [hc] at h
        by_cases hr : v.Route = ""
        · simp [hr] at h
        · simp only [hr, if_false] at h
          by_cases ha : (f.graph.Outgoing s.current).any (fun conn => conn.To = v.Route) = true
          · simp only [ha, if_true, Sum.inl.injEq] at h
            exact ⟨node, v, ctx1, st1, rfl, hc, hr, (Outgoing_any _ _ _).mp ha, h.symm⟩
          · simp [ha] at h

/-- What a pass that makes `Execute` return has done. -/
theorem loopBody_inr (now : σ → Nat) (f : Flow V σ ε Out) (s : ExecState V σ Out)
    (r : ExecResult V σ ε Out) (h : f.loopBody now s = Sum.inr r) :
    (s.current = "" ∧ r = finish now s.output s.ctx s.st s.consulted)
      ∨ (s.current ≠ "" ∧ f.nodes s.current = none
          ∧ r = { output := none, err := some (ExecError.NodeNotFound f.id s.current),
                  ctx := s.ctx, st := s.st, consulted := s.consulted })
      ∨ (s.current ≠ "" ∧ ∃ node v e ctx1 st1, f.nodes s.current = some node
          ∧ node.Consult s.ctx s.st = (v, some e, ctx1, st1)
          ∧ r = { output := none,
                  err := some (ExecError.ConsultationFailed f.id s.current e),
                  ctx := ctx1, st := st1, consulted := s.consulted ++ [s.current] })
      ∨ (s.current ≠ "" ∧ ∃ node v ctx1 st1, f.nodes s.current = some node
          ∧ node.Consult s.ctx s.st = (v, none, ctx1, st1) ∧ v.Route = ""
          ∧ r = finish now (s.output.record s.current v) ctx1 st1
                  (s.consulted ++ [s.current]))
      ∨ (s.current ≠ "" ∧ ∃ node v ctx1 st1, f.nodes s.current = some node
          ∧ node.Consult s.ctx s.st = (v, none, ctx1, st1) ∧ v.Route ≠ ""
          ∧ (∀ c ∈ f.graph.connections s.current, c.To ≠ v.Route)
          ∧ r = { output := none,
                  err := some (ExecError.UnknownRoute f.id s.current v.Route),
                  ctx := ctx1, st := st1, consulted := s.consulted ++ [s.current] }) := by
  unfold Flow.loopBody at h
  by_cases hcur : s.current = ""
  · simp only [hcur, if_true, Sum.inr.injEq] at h
    exact Or.inl ⟨hcur, h.symm⟩
  · simp only [hcur, if_false] at h
    cases hn : f.nodes s.current with
    | none =>
      simp only [hn, Sum.inr.injEq] at h
      exact Or.inr (Or.inl ⟨hcur, rfl, h.symm⟩)
    | some node =>
      simp only [hn] at h
      rcases hc : node.Consult s.ctx s.st with ⟨v, e, ctx1, st1⟩
      cases e with
      | some e =>
        simp only [hc, Sum.inr.injEq] at h
        exact Or.inr (Or.inr (Or.inl ⟨hcur, node, v, e, ctx1, st1, rfl, hc, h.symm⟩))
      | none =>
        simp only [hc] at h
        by_cases hr : v.Route = ""
        · simp only [hr, if_true, Sum.inr.injEq] at h
          exact Or.inr (Or.inr (Or.inr (Or.inl
            ⟨hcur, node, v, ctx1, st1, rfl, hc, hr, h.symm⟩)))
        · simp only [hr, if_false] at h
          by_cases ha : (f.graph.Outgoing s.current).any (fun conn => conn.To = v.Route) = true
          · simp [ha] at h
          · simp only [ha, Bool.false_eq_true, if_false, Sum.inr.injEq] at h
            refine Or.inr (Or.inr (Or.inr (Or.inr
              ⟨hcur, node, v, ctx1, st1, rfl, hc, hr, ?_, h.symm⟩)))
            intro c hc hcd
            exact ha ((Outgoing_any _ _ _).mpr ⟨c, hc, hcd⟩)

theorem loop_of_stateAt (now : σ → Nat) (f : Flow V σ ε Out) (k : Nat) :
    ∀ s0 s : ExecState V σ Out, f.stateAt now k s0 = some s →
      ∀ n, f.loop now (k + n) s0 = f.loop now n s := by
  induction k with
  | zero =>
    intro s0 s h n
    simp only [Flow.stateAt, Option.some.injEq] at h
    rw [h, Nat.zero_add]
  | succ k ih =>
    intro s0 s h n
    have hk : k + 1 + n = (k + n) + 1 := by omega
    rw [hk]
    unfold Flow.stateAt at h
    cases hb : f.loopBody now s0 with
    | inl s1 =>
      simp only [hb] at h
      have hstep : f.loop now ((k + n) + 1) s0 = f.loop now (k + n) s1 := by
        simp [Flow.loop, hb]
      rw [hstep]
      exact ih s1 s h n
    | inr r => simp [hb] at h

theorem stateAt_succ (now : σ → Nat) (f : Flow V σ ε Out) (k : Nat) :
    ∀ s0 s s1 : ExecState V σ Out, f.stateAt now k s0 = some s →
      f.loopBody now s = Sum.inl s1 → f.stateAt now (k + 1) s0 = some s1 := by
  induction k with
  | zero =>
    intro s0 s s1 h hb
    simp only [Flow.stateAt, Option.some.injEq] at h
    subst h
    simp [Flow.stateAt, hb]
  | succ k ih =>
    intro s0 s s1 h hb
    unfold Flow.stateAt at h ⊢
    cases hb0 : f.loopBody now s0 with
    | inl s2 =>
      simp only [hb0] at h ⊢
      exact ih s2 s s1 h hb
    | inr r => simp [hb0] at h

theorem stateAt_current_ne (now : σ → Nat) (f : Flow V σ ε Out) (k : Nat) :
    ∀ s0 s : ExecState V σ Out, s0.current ≠ "" → f.stateAt now k s0 = some s →
      s.current ≠ "" := by
  induction k with
  | zero =>
    intro s0 s h0 h
    simp only [Flow.stateAt, Option.some.injEq] at h
    rw [← h]; exact h0
  | succ k ih =>
    intro s0 s h0 h
    unfold Flow.stateAt at h
    cases hb : f.loopBody now s0 with
    | inl s1 =>
      simp only [hb] at h
      obtain ⟨_, node, v, ctx1, st1, _, _, hr, _, hs1⟩ := loopBody_inl now f s0 s1 hb
      exact ih s1 s (by rw [hs1]; exact hr) h
    | inr r => simp [hb] at h

/-- A pass that returns decides what `Execute` returns, whatever fuel is left. -/
theorem Execute_of_Reaches (now : σ → Nat) (f : Flow V σ ε Out) (ctx : Context V) (st : σ)
    (k : Nat) (s : ExecState V σ Out) (r : ExecResult V σ ε Out)
    (hreach : f.Reaches now ctx st k s) (hb : f.loopBody now s = Sum.inr r)
    (fuel : Nat) (hfuel : k < fuel) : f.Execute now ctx st fuel = some r := by
  obtain ⟨n, rfl⟩ : ∃ n, fuel = k + (n + 1) := ⟨fuel - k - 1, by omega⟩
  unfold Flow.Execute
  simp only [hreach.1, if_false]
  rw [loop_of_stateAt now f k _ s hreach.2 (n + 1)]
  simp [Flow.loop, hb]

theorem Reaches_current_ne (now : σ → Nat) (f : Flow V σ ε Out) (ctx : Context V) (st : σ)
    (k : Nat) (s : ExecState V σ Out) (hreach : f.Reaches now ctx st k s) :
    s.current ≠ "" :=
  stateAt_current_ne now f k _ s hreach.1 hreach.2

end FlowProofs

/-! ## A successful run is a walk -/

section WalkProofs

variable {V σ ε Out : Type}

theorem chain_getElem? {α : Type} (R : α → α → Prop) (l : List α) (hl : List.Chain' R l) :
    ∀ (i : Nat) (a b : α), l[i]? = some a → l[i + 1]? = some b → R a b := by
  induction l with
  | nil => intro i a b h; simp at h
  | cons x xs ih =>
    intro i a b ha hb
    cases xs with
    | nil => simp at hb
    | cons y ys =>
      rw [List.chain'_cons] at hl
      cases i with
      | zero =>
        simp only [List.getElem?_cons_zero, List.getElem?_cons_succ, Option.some.injEq,
          Nat.zero_add] at ha hb
        rw [← ha, ← hb]; exact hl.1
      | succ j =>
        simp only [List.getElem?_cons_succ] at ha hb
        exact ih hl.2 j a b ha (by simpa using hb)

theorem Linked_of_edge (f : Flow V σ ε Out) (cur : String) (v : Verdict Out)
    (hr : v.Route ≠ "") (he : ∃ c ∈ f.graph.connections cur, c.To = v.Route) :
    Linked f ⟨cur, v⟩ v.Route := by
  obtain ⟨c, hc, hcd⟩ := he
  exact ⟨hr, rfl, c, hc, hcd, fun hg => (Reachable_invariant f.graph hg cur).2 c hc⟩

theorem WalkInv_start (now : σ → Nat) (f : Flow V σ ε Out) (ctx : Context V) (st : σ)
    (he : f.entry ≠ "") : WalkInv f (f.start now ctx st) := by
  refine ⟨he, ?_, ?_, ?_, ?_, ?_⟩ <;> simp [Flow.start, newFlowOutput]

theorem WalkInv_step (now : σ → Nat) (f : Flow V σ ε Out) (s s1 : ExecState V σ Out)
    (hinv : WalkInv f s) (hb : f.loopBody now s = Sum.inl s1) : WalkInv f s1 := by
  obtain ⟨_, node, v, ctx1, st1, hn, _, hr, he, rfl⟩ := loopBody_inl now f s s1 hb
  obtain ⟨_, hchain, hlast, hreg, hhead, hlog⟩ := hinv
  refine ⟨hr, ?_, ?_, ?_, ?_, ?_⟩
  · simp only [FlowOutput.record]
    rw [List.chain'_append]
    refine ⟨hchain, List.chain'_singleton _, ?_⟩
    intro a ha b hb2
    simp only [List.head?_cons, Option.mem_def, Option.some.injEq] at hb2
    rw [← hb2]
    exact hlast a ha
  · intro a ha
    simp only [FlowOutput.record, List.getLast?_concat, Option.some.injEq] at ha
    rw [← ha]
    exact Linked_of_edge f s.current v hr he
  · intro a ha
    simp only [FlowOutput.record, List.mem_append, List.mem_singleton] at ha
    rcases ha with h1 | h1
    · exact hreg a h1
    · rw [h1]; simp [hn]
  · simp only [FlowOutput.record, List.map_append, List.map_cons, List.map_nil]
    rw [List.head?_append_of_ne_nil _ (by simp)]
    exact hhead
  · simp [FlowOutput.record, hlog]

/-- The trace of a run that ends without an error, under the invariant. -/
theorem loop_walk (now : σ → Nat) (f : Flow V σ ε Out) (fuel : Nat) :
    ∀ (s : ExecState V σ Out) (r : ExecResult V σ ε Out), WalkInv f s →
      f.loop now fuel s = some r → r.err = none →
      ∃ out, r.output = some out ∧ out.Steps ≠ []
        ∧ (out.Steps.map (fun a => a.NodeID)).head? = some f.entry
        ∧ (∀ a ∈ out.Steps, (f.nodes a.NodeID).isSome = true)
        ∧ List.Chain' (fun a b => Linked f a b.NodeID) out.Steps
        ∧ out.Steps.getLast?.map (fun a => a.Verdict.Route) = some ""
        ∧ out.Done = true
        ∧ r.consulted = out.Steps.map (fun a => a.NodeID) := by
  induction fuel with
  | zero => intro s r _ h; simp [Flow.loop] at h
  | succ fuel ih =>
    intro s r hinv h herr
    unfold Flow.loop at h
    cases hb : f.loopBody now s with
    | inl s1 =>
      simp only [hb] at h
      exact ih s1 r (WalkInv_step now f s s1 hinv hb) h herr
    | inr r1 =>
      simp only [hb, Option.some.injEq] at h
      subst h
      obtain ⟨hcur, hchain, hlast, hreg, hhead, hlog⟩ := hinv
      rcases loopBody_inr now f s r1 hb with h1 | h1 | h1 | h1 | h1
      · exact absurd h1.1 hcur
      · rw [h1.2.2] at herr; simp at herr
      · obtain ⟨_, node, v, e, ctx1, st1, _, _, hr1⟩ := h1
        rw [hr1] at herr; simp at herr
      · obtain ⟨_, node, v, ctx1, st1, hn, _, hr, rfl⟩ := h1
        refine ⟨_, rfl, ?_, ?_, ?_, ?_, ?_, rfl, ?_⟩
        · simp [FlowOutput.complete, FlowOutput.record]
        · simp only [FlowOutput.complete, FlowOutput.record, List.map_append, List.map_cons,
            List.map_nil]
          exact hhead
        · intro a ha
          simp only [FlowOutput.complete, FlowOutput.record, List.mem_append,
            List.mem_singleton] at ha
          rcases ha with h2 | h2
          · exact hreg a h2
          · rw [h2]; simp [hn]
        · simp only [FlowOutput.complete, FlowOutput.record]
          rw [List.chain'_append]
          refine ⟨hchain, List.chain'_singleton _, ?_⟩
          intro a ha b hb2
          simp only [List.head?_cons, Option.mem_def, Option.some.injEq] at hb2
          rw [← hb2]
          exact hlast a ha
        · simp [FlowOutput.complete, FlowOutput.record, List.getLast?_concat, hr]
        · simp [finish, FlowOutput.complete, FlowOutput.record, hlog]
      · obtain ⟨_, node, v, ctx1, st1, _, _, _, _, hr1⟩ := h1
        rw [hr1] at herr; simp at herr

theorem LastOutput_eq {Out : Type} (o : FlowOutput Out) :
    o.LastOutput = o.Steps.getLast?.map (fun a => a.Verdict.Output) := by
  unfold FlowOutput.LastOutput
  by_cases h : o.Steps.length = 0
  · have : o.Steps = [] := List.length_eq_zero.mp h
    simp [this]
  · simp [h, List.getLast?_eq_getElem?]

end WalkProofs


/-! ## Claims on `Execute` -/

section ExecuteClaims

variable {V σ ε Out : Type}

theorem loopBody_notFound (now : σ → Nat) (f : Flow V σ ε Out) (s : ExecState V σ Out)
    (hcur : s.current ≠ "") (hn : f.nodes s.current = none) :
    f.loopBody now s = Sum.inr
      { output := none, err := some (ExecError.NodeNotFound f.id s.current),
        ctx := s.ctx, st := s.st, consulted := s.consulted } := by
  simp [Flow.loopBody, hcur, hn]

theorem loopBody_failed (now : σ → Nat) (f : Flow V σ ε Out) (s : ExecState V σ Out)
    (node : Node V σ ε Out) (v : Verdict Out) (e : ε) (ctx1 : Context V) (st1 : σ)
    (hcur : s.current ≠ "") (hn : f.nodes s.current = some node)
    (hc : node.Consult s.ctx s.st = (v, some e, ctx1, st1)) :
    f.loopBody now s = Sum.inr
      { output := none, err := some (ExecError.ConsultationFailed f.id s.current e),
        ctx := ctx1, st := st1, consulted := s.consulted ++ [s.current] } := by
  simp [Flow.loopBody, hcur, hn, hc]

theorem loopBody_unknown (now : σ → Nat) (f : Flow V σ ε Out) (s : ExecState V σ Out)
    (node : Node V σ ε Out) (v : Verdict Out) (ctx1 : Context V) (st1 : σ)
    (hcur : s.current ≠ "") (hn : f.nodes s.current = some node)
    (hc : node.Consult s.ctx s.st = (v, none, ctx1, st1)) (hr : v.Route ≠ "")
    (hno : ∀ c ∈ f.graph.connections s.current, c.To ≠ v.Route) :
    f.loopBody now s = Sum.inr
      { output := none, err := some (ExecError.UnknownRoute f.id s.current v.Route),
        ctx := ctx1, st := st1, consulted := s.consulted ++ [s.current] } := by
  have ha : ¬ (f.graph.Outgoing s.current).any (fun conn => conn.To = v.Route) = true := by
    intro h
    obtain ⟨c, hc1, hcd⟩ := (Outgoing_any _ _ _).mp h
    exact hno c hc1 hcd
  simp only [Flow.loopBody, hcur, if_false, hn, hc, hr, ha, Bool.false_eq_true]

theorem loopBody_continue (now : σ → Nat) (f : Flow V σ ε Out) (s : ExecState V σ Out)
    (node : Node V σ ε Out) (v : Verdict Out) (ctx1 : Context V) (st1 : σ)
    (hcur : s.current ≠ "") (hn : f.nodes s.current = some node)
    (hc : node.Consult s.ctx s.st = (v, none, ctx1, st1)) (hr : v.Route ≠ "")
    (he : ∃ c ∈ f.graph.connections s.current, c.To = v.Route) :
    f.loopBody now s = Sum.inl
      { current := v.Route, output := s.output.record s.current v, ctx := ctx1, st := st1,
        consulted := s.consulted ++ [s.current] } := by
  have ha : (f.graph.Outgoing s.current).any (fun conn => conn.To = v.Route) = true :=
    (Outgoing_any _ _ _).mpr he
  simp only [Flow.loopBody, hcur, if_false, hn, hc, hr, ha, if_true]

theorem loop_output_iff (now : σ → Nat) (f : Flow V σ ε Out) (fuel : Nat) :
    ∀ (s : ExecState V σ Out) (r : ExecResult V σ ε Out),
      f.loop now fuel s = some r → (r.output.isSome = true ↔ r.err = none) := by
  induction fuel with
  | zero => intro s r h; simp [Flow.loop] at h
  | succ fuel ih =>
    intro s r h
    unfold Flow.loop at h
    cases hb : f.loopBody now s with
    | inl s1 =>
      simp only [hb] at h
      exact ih s1 r h
    | inr r1 =>
      simp only [hb, Option.some.injEq] at h
      subst h
      rcases loopBody_inr now f s r1 hb with h1 | h1 | h1 | h1 | h1
      · rw [h1.2]; simp [finish]
      · rw [h1.2.2]; simp
      · obtain ⟨_, node, v, e, ctx1, st1, _, _, hr1⟩ := h1
        rw [hr1]; simp
      · obtain ⟨_, node, v, ctx1, st1, _, _, _, hr1⟩ := h1
        rw [hr1]; simp [finish]
      · obtain ⟨_, node, v, ctx1, st1, _, _, _, _, hr1⟩ := h1
        rw [hr1]; simp

/-- C1: when `Execute` returns without an error it returns a trace that is a
walk of the flow. The trace has a step; the first step is at the entry; every
step is at a registered node; every step but the last has a non-empty route,
which is the node of the next step and the destination of a connection stored
for the node of the step (a connection whose `From` is that node when the
graph was built from `New()`); the route of the last step is empty; `Done` is
set; `LastOutput()` is the output of the last step; and the steps are the
consultations, in the order in which they were made. -/
theorem Execute_success_is_walk (now : σ → Nat) (f : Flow V σ ε Out) (ctx : Context V)
    (st : σ) (fuel : Nat) (r : ExecResult V σ ε Out)
    (hexec : f.Execute now ctx st fuel = some r) (hok : r.err = none) :
    ∃ out, r.output = some out
      ∧ out.Steps ≠ []
      ∧ out.Steps.head?.map (fun a => a.NodeID) = some f.entry
      ∧ (∀ a ∈ out.Steps, (f.nodes a.NodeID).isSome = true)
      ∧ (∀ i a b, out.Steps[i]? = some a → out.Steps[i + 1]? = some b →
          a.Verdict.Route ≠ "" ∧ a.Verdict.Route = b.NodeID
            ∧ ∃ c ∈ f.graph.connections a.NodeID,
                c.To = b.NodeID ∧ (f.graph.Reachable → c.From = a.NodeID))
      ∧ out.Steps.getLast?.map (fun a => a.Verdict.Route) = some ""
      ∧ out.Done = true
      ∧ out.LastOutput = out.Steps.getLast?.map (fun a => a.Verdict.Output)
      ∧ r.consulted = out.Steps.map (fun a => a.NodeID) := by
  unfold Flow.Execute at hexec
  by_cases he : f.entry = ""
  · simp only [he, if_true, Option.some.injEq] at hexec
    rw [← hexec] at hok
    simp at hok
  · simp only [he, if_false] at hexec
    obtain ⟨out, hout, hne, hhead, hreg, hchain, hlast, hdone, hlog⟩ :=
      loop_walk now f fuel _ r (WalkInv_start now f ctx st he) hexec hok
    refine ⟨out, hout, hne, ?_, hreg, ?_, hlast, hdone, LastOutput_eq out, hlog⟩
    · rw [← hhead]; cases out.Steps <;> rfl
    · intro i a b ha hb
      exact chain_getElem? _ out.Steps hchain i a b ha hb

/-- C1 at the flow `A → B → C`: the steps are `A`, `B`, `C` in that order,
`Done` is set and `LastOutput()` is the output of `C`. -/
theorem Execute_success_is_walk_witness :
    flowABC.Execute clock0 ctx0 () 3 = some resultABC
      ∧ resultABC.err = none
      ∧ resultABC.output.map (fun o => o.Steps.map (fun a => a.NodeID)) = some ["A", "B", "C"]
      ∧ resultABC.output.map (fun o => o.Done) = some true
      ∧ resultABC.output.bind (fun o => o.LastOutput) = some "c"
      ∧ ∃ out, resultABC.output = some out ∧ out.Steps ≠ []
          ∧ out.Steps.head?.map (fun a => a.NodeID) = some flowABC.entry
          ∧ out.Steps.getLast?.map (fun a => a.Verdict.Route) = some ""
          ∧ out.LastOutput = out.Steps.getLast?.map (fun a => a.Verdict.Output) := by
  refine ⟨rfl, rfl, rfl, rfl, rfl, ?_⟩
  obtain ⟨out, h1, h2, h3, _, _, h6, _, h8, _⟩ :=
    Execute_success_is_walk clock0 flowABC ctx0 () 3 resultABC rfl rfl
  exact ⟨out, h1, h2, h3, h6, h8⟩

/-- C2: when the node consulted in some pass of `Execute` returns a non-empty
route `r` without an error and no connection stored for the current node leads
to `r`, `Execute` returns no trace and the UnknownRoute error, and the list of
consultations ends with the current node: nothing is consulted after it, the
node named `r` included, whether or not `r` is registered. -/
theorem Execute_unknown_route (now : σ → Nat) (f : Flow V σ ε Out) (ctx : Context V)
    (st : σ) (k : Nat) (s : ExecState V σ Out) (node : Node V σ ε Out) (v : Verdict Out)
    (ctx1 : Context V) (st1 : σ)
    (hreach : f.Reaches now ctx st k s)
    (hnode : f.nodes s.current = some node)
    (hcons : node.Consult s.ctx s.st = (v, none, ctx1, st1))
    (hroute : v.Route ≠ "")
    (hno : ∀ c ∈ f.graph.connections s.current, c.To ≠ v.Route)
    (fuel : Nat) (hfuel : k < fuel) :
    f.Execute now ctx st fuel = some
      { output := none, err := some (ExecError.UnknownRoute f.id s.current v.Route),
        ctx := ctx1, st := st1, consulted := s.consulted ++ [s.current] } :=
  Execute_of_Reaches now f ctx st k s _ hreach
    (loopBody_unknown now f s node v ctx1 st1 (Reaches_current_ne now f ctx st k s hreach)
      hnode hcons hroute hno) fuel hfuel

/-- C2 at a flow where `A` routes to the registered node `C` and the only
connection is `A → B`: UnknownRoute, no trace, and only `A` was consulted. -/
theorem Execute_unknown_route_witness :
    (flowNoEdge.nodes "C").isSome = true
      ∧ flowNoEdge.Execute clock0 ctx0 () 1 = some
          { output := none, err := some (ExecError.UnknownRoute "f" "A" "C"),
            ctx := ctx0, st := (), consulted := ["A"] } :=
  ⟨rfl, Execute_unknown_route clock0 flowNoEdge ctx0 () 0 (flowNoEdge.start clock0 ctx0 ())
    (routeNode "A" "C" "a") ⟨"C", "a", 1⟩ ctx0 () ⟨by decide, rfl⟩ rfl rfl (by decide)
    (by
      intro c hc
      have hconn : flowNoEdge.graph.connections "A" = [⟨"A", "B", 1⟩] := by
        simp [flowNoEdge, Flow.Connect, Flow.ConnectWeighted, Flow.Add, NewFlow,
          Graph.Connect, Graph.New]
      have hconn2 : (flowNoEdge.start clock0 ctx0 ()).current = "A" := rfl
      rw [hconn2, hconn, List.mem_singleton] at hc
      rw [hc]; decide)
    1 (by decide)⟩

/-- C3: on a flow whose entry is the empty string, and so on every new flow,
`Execute` returns no trace and the NoEntryPoint error whatever the fuel, with
no consultation made and the context and the state untouched. -/
theorem Execute_no_entry (now : σ → Nat) (ctx : Context V) (st : σ) (fuel : Nat) :
    (∀ f : Flow V σ ε Out, f.entry = "" →
        f.Execute now ctx st fuel = some
          { output := none, err := some (ExecError.NoEntryPoint f.id), ctx := ctx, st := st,
            consulted := [] })
      ∧ (∀ id : String, (NewFlow id : Flow V σ ε Out).Execute now ctx st fuel = some
          { output := none, err := some (ExecError.NoEntryPoint id), ctx := ctx, st := st,
            consulted := [] }) := by
  refine ⟨fun f h => ?_, fun id => ?_⟩
  · simp [Flow.Execute, h]
  · simp [Flow.Execute, NewFlow]

/-- C3 at a new flow and at a flow with nodes whose entry was reset to the
empty string. -/
theorem Execute_no_entry_witness :
    (NewFlow "f" : Flow Unit Unit String String).Execute clock0 ctx0 () 0 = some
        { output := none, err := some (ExecError.NoEntryPoint "f"), ctx := ctx0, st := (),
          consulted := [] }
      ∧ (flowABC.Entry "").Execute clock0 ctx0 () 5 = some
        { output := none, err := some (ExecError.NoEntryPoint "f"), ctx := ctx0, st := (),
          consulted := [] } :=
  ⟨(Execute_no_entry clock0 ctx0 () 0).2 "f",
   (Execute_no_entry clock0 ctx0 () 5).1 (flowABC.Entry "") rfl⟩

/-- C4: when the consultation of the current node of some pass of `Execute`
returns an error `e`, `Execute` returns no trace and the ConsultationFailed
error that carries the node id and `e`, and the list of consultations ends
with that one consultation of the node: no retry, nothing consulted after it.
And whenever `Execute` returns, it returns a trace exactly when it returns no
error. -/
theorem Execute_consult_failure (now : σ → Nat) (f : Flow V σ ε Out) (ctx : Context V)
    (st : σ) :
    (∀ (k : Nat) (s : ExecState V σ Out) (node : Node V σ ε Out) (v : Verdict Out) (e : ε)
        (ctx1 : Context V) (st1 : σ),
        f.Reaches now ctx st k s → f.nodes s.current = some node →
        node.Consult s.ctx s.st = (v, some e, ctx1, st1) →
        ∀ fuel, k < fuel → f.Execute now ctx st fuel = some
          { output := none, err := some (ExecError.ConsultationFailed f.id s.current e),
            ctx := ctx1, st := st1, consulted := s.consulted ++ [s.current] })
      ∧ (∀ (fuel : Nat) (r : ExecResult V σ ε Out), f.Execute now ctx st fuel = some r →
          (r.output.isSome = true ↔ r.err = none)) := by
  refine ⟨fun k s node v e ctx1 st1 hreach hnode hcons fuel hfuel => ?_, fun fuel r h => ?_⟩
  · exact Execute_of_Reaches now f ctx st k s _ hreach
      (loopBody_failed now f s node v e ctx1 st1
        (Reaches_current_ne now f ctx st k s hreach) hnode hcons) fuel hfuel
  · unfold Flow.Execute at h
    by_cases he : f.entry = ""
    · simp only [he, if_true, Option.some.injEq] at h
      rw [← h]; simp
    · simp only [he, if_false] at h
      exact loop_output_iff now f fuel _ r h

/-- C4 at a flow where `A` routes to `B` and the consultation of `B` fails
with `boom` in the second pass: ConsultationFailed for `B` wrapping `boom`, no
trace, and the consultations are `A` then `B`, once each. -/
theorem Execute_consult_failure_witness :
    flowFail.Execute clock0 ctx0 () 2 = some
      { output := none, err := some (ExecError.ConsultationFailed "f" "B" "boom"),
        ctx := ctx0, st := (), consulted := ["A", "B"] } :=
  (Execute_consult_failure clock0 flowFail ctx0 ()).1 1
    { current := "B", output := (newFlowOutput "f" "run-1" 0).record "A" ⟨"B", "a", 1⟩,
      ctx := ctx0, st := (), consulted := ["A"] }
    (failingNode "B" "boom") ⟨"", "", 0⟩ "boom" ctx0 () ⟨by decide, rfl⟩ rfl rfl 2 (by decide)

/-- C5: when the current node id of some pass of `Execute` is not registered,
`Execute` returns no trace and the NodeNotFound error for that id, and
consults nothing in that pass. With an entry set through `Entry(id)` to a
non-empty id that was never added this happens in the first pass, before any
consultation; with a route that a stored connection validates but whose
destination was never added it happens in the pass after the one that
returned the route. -/
theorem Execute_node_not_found (now : σ → Nat) (f : Flow V σ ε Out) (ctx : Context V)
    (st : σ) :
    (∀ (k : Nat) (s : ExecState V σ Out), f.Reaches now ctx st k s →
        f.nodes s.current = none →
        ∀ fuel, k < fuel → f.Execute now ctx st fuel = some
          { output := none, err := some (ExecError.NodeNotFound f.id s.current),
            ctx := s.ctx, st := s.st, consulted := s.consulted })
      ∧ (∀ id : String, id ≠ "" → f.nodes id = none →
          ∀ fuel, 0 < fuel → (f.Entry id).Execute now ctx st fuel = some
            { output := none, err := some (ExecError.NodeNotFound f.id id),
              ctx := ctx, st := st, consulted := [] })
      ∧ (∀ (k : Nat) (s : ExecState V σ Out) (node : Node V σ ε Out) (v : Verdict Out)
          (ctx1 : Context V) (st1 : σ),
          f.Reaches now ctx st k s → f.nodes s.current = some node →
          node.Consult s.ctx s.st = (v, none, ctx1, st1) → v.Route ≠ "" →
          (∃ c ∈ f.graph.connections s.current, c.To = v.Route) →
          f.nodes v.Route = none →
          ∀ fuel, k + 1 < fuel → f.Execute now ctx st fuel = some
            { output := none, err := some (ExecError.NodeNotFound f.id v.Route),
              ctx := ctx1, st := st1, consulted := s.consulted ++ [s.current] }) := by
  refine ⟨fun k s hreach hn fuel hfuel => ?_, fun id hid hn fuel hfuel => ?_,
    fun k s node v ctx1 st1 hreach hnode hcons hr he hn fuel hfuel => ?_⟩
  · exact Execute_of_Reaches now f ctx st k s _ hreach
      (loopBody_notFound now f s (Reaches_current_ne now f ctx st k s hreach) hn) fuel hfuel
  · have hreach : (f.Entry id).Reaches now ctx st 0 ((f.Entry id).start now ctx st) :=
      ⟨hid, rfl⟩
    exact Execute_of_Reaches now (f.Entry id) ctx st 0 _ _ hreach
      (loopBody_notFound now (f.Entry id) _ hid hn) fuel hfuel
  · have hcur := Reaches_current_ne now f ctx st k s hreach
    have hstep := loopBody_continue now f s node v ctx1 st1 hcur hnode hcons hr he
    have hreach1 : f.Reaches now ctx st (k + 1) _ :=
      ⟨hreach.1, stateAt_succ now f k _ s _ hreach.2 hstep⟩
    exact Execute_of_Reaches now f ctx st (k + 1) _ _ hreach1
      (loopBody_notFound now f _ hr hn) fuel hfuel

/-- C5 at a new flow whose entry is set to `X`, and at a flow where `A` routes
to `B` along the connection `A → B` and `B` was never added. -/
theorem Execute_node_not_found_witness :
    ((NewFlow "f" : Flow Unit Unit String String).Entry "X").Execute clock0 ctx0 () 1 = some
        { output := none, err := some (ExecError.NodeNotFound "f" "X"), ctx := ctx0, st := (),
          consulted := [] }
      ∧ flowMissing.Execute clock0 ctx0 () 2 = some
        { output := none, err := some (ExecError.NodeNotFound "f" "B"), ctx := ctx0, st := (),
          consulted := ["A"] } :=
  ⟨(Execute_node_not_found clock0 (NewFlow "f") ctx0 ()).2.1 "X" (by decide) rfl 1 (by decide),
   (Execute_node_not_found clock0 flowMissing ctx0 ()).2.2 0 (flowMissing.start clock0 ctx0 ())
    (routeNode "A" "B" "a") ⟨"B", "a", 1⟩ ctx0 () ⟨by decide, rfl⟩ rfl rfl (by decide)
    ⟨⟨"A", "B", 1⟩, by
      simp [flowMissing, Flow.start, Flow.Connect, Flow.ConnectWeighted, Flow.Add, NewFlow,
        Graph.Connect, Graph.New, routeNode], rfl⟩
    rfl 2 (by decide)⟩

end ExecuteClaims

/-! ## Claims on the graph invariant and on the building of a flow -/

/-- C11: in a graph built from `New()` by `Connect`, `AdjustWeight` and
`Disconnect`, no slice holds two connections to one destination, every
connection stored under a key has that key as its `From`, and so two stored
connections with the same `From` and the same `To` are one and the same: they
sit under the same key at the same index. -/
theorem Reachable_unique_pairs (g : Graph) (hg : g.Reachable) :
    (∀ k, ((g.connections k).map (fun c => c.To)).Nodup)
      ∧ (∀ k, ∀ c ∈ g.connections k, c.From = k)
      ∧ (∀ (k1 k2 : String) (i j : Nat) (c1 c2 : Connection),
          (g.connections k1)[i]? = some c1 → (g.connections k2)[j]? = some c2 →
          c1.From = c2.From → c1.To = c2.To → k1 = k2 ∧ i = j) := by
  refine ⟨fun k => (Reachable_invariant g hg k).1, fun k => (Reachable_invariant g hg k).2, ?_⟩
  intro k1 k2 i j c1 c2 h1 h2 hf ht
  have hk1 : c1.From = k1 := (Reachable_invariant g hg k1).2 c1 (List.getElem?_mem h1)
  have hk2 : c2.From = k2 := (Reachable_invariant g hg k2).2 c2 (List.getElem?_mem h2)
  have hk : k1 = k2 := by rw [← hk1, ← hk2, hf]
  subst hk
  refine ⟨rfl, ?_⟩
  have hnd := (Reachable_invariant g hg k1).1
  rw [List.nodup_iff_getElem?_ne_getElem?] at hnd
  have hi : i < (g.connections k1).length := by
    by_contra hlt
    rw [List.getElem?_eq_none (by omega)] at h1
    exact Option.noConfusion h1
  have hj : j < (g.connections k1).length := by
    by_contra hlt
    rw [List.getElem?_eq_none (by omega)] at h2
    exact Option.noConfusion h2
  have e1 : ((g.connections k1).map (fun c => c.To))[i]? = some c1.To := by
    rw [List.getElem?_map, h1]; rfl
  have e2 : ((g.connections k1).map (fun c => c.To))[j]? = some c1.To := by
    rw [List.getElem?_map, h2, ht]; rfl
  rcases Nat.lt_trichotomy i j with hlt | heq | hgt
  · exact absurd (e1.trans e2.symm) (hnd i j hlt (by simpa using hj))
  · exact heq
  · exact absurd (e2.trans e1.symm) (hnd j i hgt (by simpa using hi))

/-- C11 at the graph holding `A → B`, `A → C`, `A → D`, after a second
`Connect(A, C, 0.9)`: the slice of `A` still has three connections. -/
theorem Reachable_unique_pairs_witness :
    ((graphFan.Connect "A" "C" (F64.num (9/10))).2.connections "A").length = 3
      ∧ (((graphFan.Connect "A" "C" (F64.num (9/10))).2.connections "A").map (fun c => c.To)).Nodup
      ∧ ∀ c ∈ (graphFan.Connect "A" "C" (F64.num (9/10))).2.connections "A", c.From = "A" := by
  have hr : (graphFan.Connect "A" "C" (F64.num (9/10))).2.Reachable :=
    Graph.Reachable.connect _ _ _ _ (Graph.Reachable.connect _ _ _ _
      (Graph.Reachable.connect _ _ _ _ (Graph.Reachable.connect _ _ _ _ Graph.Reachable.new)))
  have h := Reachable_unique_pairs _ hr
  exact ⟨by simp [graphFan, Graph.Connect, Graph.New], h.1 "A", h.2.1 "A"⟩

section BuildClaims

variable {V σ ε Out : Type}

theorem Add_entry_of_set (f : Flow V σ ε Out) (n : Node V σ ε Out) (h : f.entry ≠ "") :
    (f.Add n).entry = f.entry := by
  simp [Flow.Add, h]

theorem AddAll_entry_of_set (ns : List (Node V σ ε Out)) :
    ∀ f : Flow V σ ε Out, f.entry ≠ "" → (f.AddAll ns).entry = f.entry := by
  induction ns with
  | nil => intro f _; rfl
  | cons n ns ih =>
    intro f h
    have h1 : (f.Add n).entry = f.entry := Add_entry_of_set f n h
    have h2 : (f.Add n).entry ≠ "" := by rw [h1]; exact h
    show ((f.Add n).AddAll ns).entry = f.entry
    rw [ih (f.Add n) h2, h1]

theorem AddAll_entry_of_unset (ns : List (Node V σ ε Out)) :
    ∀ f : Flow V σ ε Out, f.entry = "" →
      (f.AddAll ns).entry = ((ns.map (fun n => n.ID)).find? (fun i => i ≠ "")).getD "" := by
  induction ns with
  | nil => intro f h; simpa [Flow.AddAll] using h
  | cons n ns ih =>
    intro f h
    show ((f.Add n).AddAll ns).entry = _
    have h1 : (f.Add n).entry = n.ID := by simp [Flow.Add, h]
    by_cases hn : n.ID = ""
    · rw [ih (f.Add n) (by rw [h1, hn])]
      simp [List.find?_cons, hn]
    · rw [AddAll_entry_of_set ns (f.Add n) (by rw [h1]; exact hn), h1]
      simp [List.find?_cons, hn]

/-- What `Add` does: on a new flow with no `Entry` call, the entry after a
sequence of `Add` calls is the id of the first node added whose id is not the
empty string, and the empty string when there is none; so it is the id of the
first node added when that id is not empty. Once the entry is set no `Add`
changes it, a re-added id included. After `Entry(id)` the entry is `id`. -/
theorem Add_entry_first_nonempty (id : String) (ns : List (Node V σ ε Out)) :
    (((NewFlow id : Flow V σ ε Out).AddAll ns).entry
        = ((ns.map (fun n => n.ID)).find? (fun i => i ≠ "")).getD "")
      ∧ (∀ n : Node V σ ε Out, n.ID ≠ "" →
          ((NewFlow id : Flow V σ ε Out).AddAll (n :: ns)).entry = n.ID)
      ∧ (∀ f : Flow V σ ε Out, f.entry ≠ "" → (f.AddAll ns).entry = f.entry)
      ∧ (∀ (f : Flow V σ ε Out) (nodeID : String), ((f.AddAll ns).Entry nodeID).entry = nodeID) := by
  refine ⟨AddAll_entry_of_unset ns _ rfl, fun n hn => ?_, fun f hf => AddAll_entry_of_set ns f hf,
    fun f nodeID => rfl⟩
  rw [AddAll_entry_of_unset (n :: ns) _ rfl]
  simp [List.find?_cons, hn]

/-- The nodes `A`, `B`, `A` again, `C` added: the entry is `A`; and with a node
of empty id added first, then `B`: the entry is `B`. -/
theorem Add_entry_first_nonempty_example :
    ((NewFlow "f").AddAll
        [routeNode "A" "B" "a", routeNode "B" "" "b", routeNode "A" "" "z",
          routeNode "C" "" "c"]).entry = "A"
      ∧ ((NewFlow "f").AddAll [namelessNode, routeNode "B" "" "b"]).entry = "B" :=
  ⟨(Add_entry_first_nonempty "f"
      [routeNode "B" "" "b", routeNode "A" "" "z", routeNode "C" "" "c"]).2.1
      (routeNode "A" "B" "a") (by decide),
   (Add_entry_first_nonempty "f" [namelessNode, routeNode "B" "" "b"]).1⟩

/-- C12, the code at `NewFlow("f").Add(n0).Add(nB)` where the id of `n0` is
the empty string and the id of `nB` is `B`, with no `Entry` call: the first
`Add` registers `n0` and leaves the entry empty, and the second `Add` sets the
entry to `B`. The entry is not the id of the first node added, and an `Add`
after the first one has changed it. -/
theorem Add_entry_after_empty_id :
    namelessNode.ID = ""
      ∧ (((NewFlow "f").Add namelessNode).nodes "").isSome = true
      ∧ ((NewFlow "f").Add namelessNode).entry = ""
      ∧ (((NewFlow "f").Add namelessNode).Add (routeNode "B" "" "b")).entry = "B"
      ∧ (((NewFlow "f").Add namelessNode).Add (routeNode "B" "" "b")).entry ≠ namelessNode.ID
      ∧ ((NewFlow "f").Add namelessNode).entry
          ≠ (((NewFlow "f").Add namelessNode).Add (routeNode "B" "" "b")).entry := by
  refine ⟨rfl, ?_, rfl, rfl, ?_, ?_⟩
  · simp [Flow.Add, NewFlow, namelessNode, routeNode]
  · decide
  · decide

theorem Graph_weightOf_Connect (g : Graph) (a b : String) (w : F64) (s d : String) :
    (g.Connect a b w).2.weightOf s d
      = (g.weightOf s d).or (if a = s ∧ b = d then some w else none) := by
  unfold Graph.Connect
  by_cases hany : (g.connections a).any (fun c => c.To = b) = true
  · simp only [hany, if_true]
    by_cases hsd : a = s ∧ b = d
    · obtain ⟨rfl, rfl⟩ := hsd
      obtain ⟨c, hc, hcb⟩ := List.any_eq_true.mp hany
      have hsome : ((g.connections a).find? (fun c => c.To = b)).isSome = true := by
        rw [List.find?_isSome]; exact ⟨c, hc, hcb⟩
      obtain ⟨x, hx⟩ := Option.isSome_iff_exists.mp hsome
      simp [Graph.weightOf, hx]
    · simp [hsd]
  · simp only [hany, Bool.false_eq_true, if_false]
    by_cases hs : s = a
    · subst hs
      by_cases hd : b = d
      · subst hd
        simp [Graph.weightOf, List.find?_append, List.find?_cons]
        cases h : (g.connections s).find? (fun c => c.To = b) <;> simp
      · simp [Graph.weightOf, List.find?_append, List.find?_cons, hd]
    · have hne : ¬ (a = s ∧ b = d) := fun h => hs h.1.symm
      simp [Graph.weightOf, Function.update_noteq hs, hne]

theorem WireAll_weightOf (calls : List (String × String × F64)) (s d : String) :
    ∀ f : Flow V σ ε Out,
      (f.WireAll calls).graph.weightOf s d = (f.graph.weightOf s d).or (firstWeight calls s d) := by
  induction calls with
  | nil => intro f; simp [Flow.WireAll, firstWeight]
  | cons c cs ih =>
    intro f
    show ((f.ConnectWeighted c.1 c.2.1 c.2.2).WireAll cs).graph.weightOf s d = _
    rw [ih]
    simp only [Flow.ConnectWeighted, Graph_weightOf_Connect, firstWeight, List.find?_cons]
    by_cases hc : c.1 = s ∧ c.2.1 = d
    · cases h : f.graph.weightOf s d <;> simp [hc]
    · cases h : f.graph.weightOf s d <;> simp [hc]

end BuildClaims

section WiringClaims

variable {V σ ε Out : Type}

/-- C13: `Connect(src, dst)` is `ConnectWeighted(src, dst, 1.0)`; both return
the flow, with the graph that `Graph.Connect` leaves and nothing else changed,
and no error. A call for a pair that is stored leaves the flow as it is; a
call for a pair that is not stored appends the connection with the weight
given. So after any sequence of wiring calls the weight stored for a pair is
the one it had before the calls, or else the one given by the first call for
that pair, and on a new flow it is the one given by the first call. -/
theorem Flow_wiring_first_call_wins (f : Flow V σ ε Out) :
    (∀ s d, f.Connect s d = f.ConnectWeighted s d 1)
      ∧ (∀ s d w, (f.ConnectWeighted s d w).graph = (f.graph.Connect s d w).2
          ∧ (f.ConnectWeighted s d w).id = f.id
          ∧ (f.ConnectWeighted s d w).nodes = f.nodes
          ∧ (f.ConnectWeighted s d w).entry = f.entry)
      ∧ (∀ s d w, (∃ c ∈ f.graph.connections s, c.To = d) →
          (f.graph.Connect s d w).1 = some (GraphError.DuplicateConnection s d)
            ∧ f.ConnectWeighted s d w = f)
      ∧ (∀ s d w, (∀ c ∈ f.graph.connections s, c.To ≠ d) →
          (f.ConnectWeighted s d w).graph.connections s
            = f.graph.connections s ++ [⟨s, d, w⟩])
      ∧ (∀ calls s d, (f.WireAll calls).graph.weightOf s d
          = (f.graph.weightOf s d).or (firstWeight calls s d))
      ∧ (∀ (id : String) calls s d,
          ((NewFlow id : Flow V σ ε Out).WireAll calls).graph.weightOf s d
            = firstWeight calls s d) := by
  refine ⟨fun s d => rfl, fun s d w => ⟨rfl, rfl, rfl, rfl⟩, fun s d w h => ?_,
    fun s d w h => ?_, fun calls s d => WireAll_weightOf calls s d f, fun id calls s d => ?_⟩
  · have hany : (f.graph.connections s).any (fun c => c.To = d) = true := by
      obtain ⟨c, hc, hcd⟩ := h
      exact List.any_eq_true.mpr ⟨c, hc, by simpa using hcd⟩
    refine ⟨by simp [Graph.Connect, hany], ?_⟩
    cases f
    simp only [Flow.ConnectWeighted, Graph.Connect] at hany ⊢
    simp [hany]
  · have hany : ¬ (f.graph.connections s).any (fun c => c.To = d) = true := by
      intro h1
      obtain ⟨c, hc, hcd⟩ := List.any_eq_true.mp h1
      exact h c hc (by simpa using hcd)
    simp [Flow.ConnectWeighted, Graph.Connect, hany]
  · rw [WireAll_weightOf]
    simp [NewFlow, Graph.New, Graph.weightOf]

/-- C13 at the calls `ConnectWeighted(A, B, 0.5)`, `Connect(A, B)`,
`ConnectWeighted(A, C, 0.3)` on a new flow: the weight stored for `A → B` is
`0.5`, the one for `A → C` is `0.3`, and the second call changed nothing. -/
theorem Flow_wiring_first_call_wins_witness :
    ((NewFlow "f" : Flow Unit Unit String String).WireAll
        [("A", "B", F64.num (1/2)), ("A", "B", 1), ("A", "C", F64.num (3/10))]).graph.weightOf "A" "B" = some (F64.num (1/2))
      ∧ ((NewFlow "f" : Flow Unit Unit String String).WireAll
        [("A", "B", F64.num (1/2)), ("A", "B", 1), ("A", "C", F64.num (3/10))]).graph.weightOf "A" "C"
          = some (F64.num (3/10))
      ∧ ((NewFlow "f" : Flow Unit Unit String String).ConnectWeighted "A" "B" (F64.num (1/2))).Connect
          "A" "B"
          = (NewFlow "f" : Flow Unit Unit String String).ConnectWeighted "A" "B" (F64.num (1/2)) := by
  have h := Flow_wiring_first_call_wins (NewFlow "f" : Flow Unit Unit String String)
  have h2 := Flow_wiring_first_call_wins
    ((NewFlow "f" : Flow Unit Unit String String).ConnectWeighted "A" "B" (F64.num (1/2)))
  refine ⟨?_, ?_, ?_⟩
  · rw [h.2.2.2.2.2 "f"]; simp [firstWeight, List.find?_cons]
  · rw [h.2.2.2.2.2 "f"]; simp [firstWeight, List.find?_cons]
  · rw [h2.1 "A" "B"]
    exact (h2.2.2.1 "A" "B" 1 ⟨⟨"A", "B", F64.num (1/2)⟩, by
      simp [Flow.ConnectWeighted, NewFlow, Graph.Connect, Graph.New], rfl⟩).2

end WiringClaims

/-! ## Claims on the runtime -/

section RuntimeClaims

variable {V σ ε Out : Type}

theorem Register_isSome (r : Runtime V σ ε Out) (f : Flow V σ ε Out) (id : String) :
    (((r.Register f).2.flows id).isSome = true)
      ↔ ((r.flows id).isSome = true ∨ (f.ID = id ∧ (r.Register f).1 = none)) := by
  unfold Runtime.Register
  cases h : r.flows f.ID with
  | some f0 => simp
  | none =>
    by_cases hid : id = f.ID
    · subst hid; simp [h]
    · have hne : ¬ f.ID = id := fun e => hid e.symm
      simp [Function.update_noteq hid, hne]

theorem Register_keeps (r : Runtime V σ ε Out) (f f0 : Flow V σ ε Out) (id : String)
    (h : r.flows id = some f0) : (r.Register f).2.flows id = some f0 := by
  unfold Runtime.Register
  cases hf : r.flows f.ID with
  | some f1 => exact h
  | none =>
    have hid : id ≠ f.ID := fun e => by rw [e, hf] at h; exact Option.noConfusion h
    simp [Function.update_noteq hid, h]

theorem RegisterAll_keeps (fs : List (Flow V σ ε Out)) :
    ∀ (r : Runtime V σ ε Out) (f0 : Flow V σ ε Out) (id : String),
      r.flows id = some f0 → (r.RegisterAll fs).2.flows id = some f0 := by
  induction fs with
  | nil => intro r f0 id h; exact h
  | cons f fs ih =>
    intro r f0 id h
    exact ih _ f0 id (Register_keeps r f f0 id h)

theorem RegisterAll_isSome (fs : List (Flow V σ ε Out)) :
    ∀ (r : Runtime V σ ε Out) (id : String),
      (((r.RegisterAll fs).2.flows id).isSome = true)
        ↔ ((r.flows id).isSome = true
            ∨ ∃ p ∈ List.zip fs (r.RegisterAll fs).1, p.1.ID = id ∧ p.2 = none) := by
  induction fs with
  | nil => intro r id; simp [Runtime.RegisterAll]
  | cons f fs ih =>
    intro r id
    simp only [Runtime.RegisterAll, List.zip_cons_cons, List.mem_cons, exists_eq_or_imp]
    rw [ih, Register_isSome]
    tauto

theorem RegisterAll_New (fs : List (Flow V σ ε Out)) (id : String) :
    ∀ r : Runtime V σ ε Out, r.flows id = none →
      (r.RegisterAll fs).2.flows id = fs.find? (fun f => f.ID = id) := by
  induction fs with
  | nil => intro r h; simpa [Runtime.RegisterAll] using h
  | cons f fs ih =>
    intro r h
    simp only [Runtime.RegisterAll, List.find?_cons]
    by_cases hid : f.ID = id
    · have hreg : (r.Register f).2.flows id = some f := by
        unfold Runtime.Register
        rw [hid, h]
        simp
      simp only [hid, decide_True]
      exact RegisterAll_keeps fs _ f id hreg
    · have hreg : (r.Register f).2.flows id = none := by
        unfold Runtime.Register
        cases hf : r.flows f.ID with
        | some f1 => exact h
        | none => simp [Function.update_noteq (fun e => hid e.symm), h]
      simp only [hid, decide_False]
      exact ih _ hreg

/-- C15: `Register(flow)` on a runtime where the id of the flow is taken
fails with FlowAlreadyRegistered and hands back the runtime it was given;
otherwise it succeeds, the id resolves to the flow, and every other id
resolves as before. No `Register` call removes or replaces what an id
resolves to, so after any sequence of `Register` calls an id resolves exactly
when it resolved before or one of the calls with that id succeeded, and on a
new runtime it resolves to the first flow registered with that id. `Run` on an
id that does not resolve returns no trace and FlowNotFound, with no
consultation. -/
theorem Register_spec (r : Runtime V σ ε Out) :
    (∀ flow f0 : Flow V σ ε Out, r.flows flow.ID = some f0 →
        r.Register flow = (some (RunError.FlowAlreadyRegistered flow.ID), r))
      ∧ (∀ flow : Flow V σ ε Out, r.flows flow.ID = none →
          (r.Register flow).1 = none
            ∧ (r.Register flow).2.flows flow.ID = some flow
            ∧ ∀ id, id ≠ flow.ID → (r.Register flow).2.flows id = r.flows id)
      ∧ (∀ (fs : List (Flow V σ ε Out)) (id : String) (f0 : Flow V σ ε Out),
          r.flows id = some f0 → (r.RegisterAll fs).2.flows id = some f0)
      ∧ (∀ (fs : List (Flow V σ ε Out)) (id : String),
          ((r.RegisterAll fs).2.flows id).isSome = true
            ↔ ((r.flows id).isSome = true
                ∨ ∃ p ∈ List.zip fs (r.RegisterAll fs).1, p.1.ID = id ∧ p.2 = none))
      ∧ (∀ (fs : List (Flow V σ ε Out)) (id : String),
          ((Runtime.New : Runtime V σ ε Out).RegisterAll fs).2.flows id
            = fs.find? (fun f => f.ID = id))
      ∧ (∀ (now : σ → Nat) (id : String) (ctx : Context V) (st : σ) (fuel : Nat),
          r.flows id = none →
          r.Run now id ctx st fuel = some
            { output := none, err := some (RunError.FlowNotFound id), ctx := ctx, st := st,
              consulted := [] }) := by
  refine ⟨fun flow f0 h => ?_, fun flow h => ⟨?_, ?_, fun id hid => ?_⟩,
    fun fs id f0 h => RegisterAll_keeps fs r f0 id h, fun fs id => RegisterAll_isSome fs r id,
    fun fs id => RegisterAll_New fs id _ rfl, fun now id ctx st fuel h => ?_⟩
  · simp [Runtime.Register, h]
  · simp [Runtime.Register, h]
  · simp [Runtime.Register, h]
  · simp [Runtime.Register, h, Function.update_noteq hid]
  · simp [Runtime.Run, Runtime.get, h]

/-- C15 at a new runtime: after `Register` of the flow `f` of the walk
`A → B → C` the id `f` resolves to it, a second `Register` of a flow with the
id `f` fails and changes nothing, and `Run` on the id `g` fails with
FlowNotFound. -/
theorem Register_spec_witness :
    ((Runtime.New.Register flowABC).2.Register flowFail).1
        = some (RunError.FlowAlreadyRegistered "f")
      ∧ ((Runtime.New.Register flowABC).2.Register flowFail).2
        = (Runtime.New.Register flowABC).2
      ∧ (Runtime.New.Register flowABC).2.Run clock0 "g" ctx0 () 0 = some
          { output := none, err := some (RunError.FlowNotFound "g"), ctx := ctx0, st := (),
            consulted := [] } := by
  have h1 : (Runtime.New.Register flowABC).2.flows flowFail.ID = some flowABC := rfl
  have h := (Register_spec (Runtime.New.Register flowABC).2).1 flowFail flowABC h1
  refine ⟨by rw [h]; rfl, by rw [h], ?_⟩
  exact (Register_spec (Runtime.New.Register flowABC).2).2.2.2.2.2 clock0 "g" ctx0 () 0 rfl

end RuntimeClaims

/-! ## Termination on a graph without cycles -/

section TerminationClaims

variable {V σ ε Out : Type}

theorem Acyclic_of_rank (g : Graph) (rank : String → Nat)
    (h : ∀ a b, g.Edge a b → rank a < rank b) : g.Acyclic := by
  have key : ∀ a b, Relation.TransGen g.Edge a b → rank a < rank b := by
    intro a b hab
    induction hab with
    | single e => exact h _ _ e
    | tail _ e ih => exact lt_trans ih (h _ _ e)
  intro a ha
  exact lt_irrefl _ (key a a ha)

theorem Acyclic_chain_nodup (g : Graph) (hacyc : g.Acyclic) (l : List String)
    (hl : List.Chain' g.Edge l) : l.Nodup := by
  have h1 : List.Chain' (Relation.TransGen g.Edge) l :=
    hl.imp (fun _ _ h => Relation.TransGen.single h)
  have h2 : List.Pairwise (Relation.TransGen g.Edge) l := List.chain'_iff_pairwise.mp h1
  have h3 : List.Pairwise (fun a b : String => a ≠ b) l := by
    refine h2.imp ?_
    intro a b hab heq
    rw [← heq] at hab
    exact hacyc a hab
  exact h3

theorem PathInv_start (now : σ → Nat) (f : Flow V σ ε Out) (ctx : Context V) (st : σ)
    (he : f.entry ≠ "") : PathInv f (f.start now ctx st) := by
  refine ⟨he, ?_, ?_⟩ <;> simp [Flow.start]

theorem PathInv_step (now : σ → Nat) (f : Flow V σ ε Out) (s s1 : ExecState V σ Out)
    (hinv : PathInv f s) (hb : f.loopBody now s = Sum.inl s1) :
    PathInv f s1 ∧ s1.consulted = s.consulted ++ [s.current] := by
  obtain ⟨_, node, v, ctx1, st1, hn, _, hr, he, rfl⟩ := loopBody_inl now f s s1 hb
  obtain ⟨_, hchain, hreg⟩ := hinv
  refine ⟨⟨hr, ?_, ?_⟩, rfl⟩
  · show List.Chain' f.graph.Edge ((s.consulted ++ [s.current]) ++ [v.Route])
    rw [List.chain'_append]
    refine ⟨hchain, List.chain'_singleton _, ?_⟩
    intro a ha b hb2
    simp only [List.getLast?_concat, Option.mem_def, Option.some.injEq] at ha
    simp only [List.head?_cons, Option.mem_def, Option.some.injEq] at hb2
    rw [← ha, ← hb2]
    exact he
  · intro id hid
    simp only [List.mem_append, List.mem_singleton] at hid
    rcases hid with h1 | h1
    · exact hreg id h1
    · rw [h1]; simp [hn]

theorem length_le_of_nodup_subset (l ids : List String) (hn : l.Nodup)
    (hs : ∀ id ∈ l, id ∈ ids) : l.length ≤ ids.length :=
  (List.subperm_of_subset hn hs).length_le

theorem loop_terminates (now : σ → Nat) (f : Flow V σ ε Out) (ids : List String)
    (hacyc : f.graph.Acyclic) (hids : ∀ id, (f.nodes id).isSome = true → id ∈ ids)
    (fuel : Nat) :
    ∀ s : ExecState V σ Out, PathInv f s → ids.length + 1 ≤ s.consulted.length + fuel →
      ∃ r, f.loop now fuel s = some r ∧ r.consulted.Nodup
        ∧ ∀ id ∈ r.consulted, (f.nodes id).isSome = true := by
  induction fuel with
  | zero =>
    intro s hinv hle
    have hnd : s.consulted.Nodup :=
      (Acyclic_chain_nodup f.graph hacyc _ hinv.2.1).of_append_left
    have := length_le_of_nodup_subset s.consulted ids hnd (fun id hid => hids id (hinv.2.2 id hid))
    omega
  | succ fuel ih =>
    intro s hinv hle
    have hnd : (s.consulted ++ [s.current]).Nodup := Acyclic_chain_nodup f.graph hacyc _ hinv.2.1
    unfold Flow.loop
    cases hb : f.loopBody now s with
    | inl s1 =>
      obtain ⟨hinv1, hlog⟩ := PathInv_step now f s s1 hinv hb
      simp only []
      exact ih s1 hinv1 (by rw [hlog]; simp; omega)
    | inr r =>
      refine ⟨r, rfl, ?_⟩
      have hcase : r.consulted = s.consulted
          ∨ (r.consulted = s.consulted ++ [s.current] ∧ (f.nodes s.current).isSome = true) := by
        rcases loopBody_inr now f s r hb with h1 | h1 | h1 | h1 | h1
        · exact Or.inl (by rw [h1.2]; rfl)
        · exact Or.inl (by rw [h1.2.2])
        · obtain ⟨_, node, v, e, ctx1, st1, hn, _, hr1⟩ := h1
          exact Or.inr ⟨by rw [hr1], by simp [hn]⟩
        · obtain ⟨_, node, v, ctx1, st1, hn, _, _, hr1⟩ := h1
          exact Or.inr ⟨by rw [hr1]; rfl, by simp [hn]⟩
        · obtain ⟨_, node, v, ctx1, st1, hn, _, _, _, hr1⟩ := h1
          exact Or.inr ⟨by rw [hr1], by simp [hn]⟩
      rcases hcase with h1 | ⟨h1, h2⟩
      · rw [h1]; exact ⟨hnd.of_append_left, hinv.2.2⟩
      · rw [h1]
        refine ⟨hnd, ?_⟩
        intro id hid
        simp only [List.mem_append, List.mem_singleton] at hid
        rcases hid with h3 | h3
        · exact hinv.2.2 id h3
        · rw [h3]; exact h2

/-- C19: on a flow whose graph has no directed cycle, with `ids` a list that
holds every registered node id (so of the length of the registry when it holds
each once and nothing else), `Execute` returns for every behaviour of the
nodes as soon as the fuel exceeds that length: it makes at most that many
passes plus one. No id is consulted twice, every consulted id is registered,
the number of consultations is at most the length of `ids`, and so is the
number of steps of the trace when a trace is returned. -/
theorem Execute_terminates_acyclic (now : σ → Nat) (f : Flow V σ ε Out) (ctx : Context V)
    (st : σ) (ids : List String) (hacyc : f.graph.Acyclic)
    (hids : ∀ id, (f.nodes id).isSome = true → id ∈ ids)
    (fuel : Nat) (hfuel : ids.length < fuel) :
    ∃ r, f.Execute now ctx st fuel = some r
      ∧ r.consulted.Nodup
      ∧ (∀ id ∈ r.consulted, (f.nodes id).isSome = true)
      ∧ r.consulted.length ≤ ids.length
      ∧ ∀ out, r.output = some out →
          out.Steps.map (fun a => a.NodeID) = r.consulted ∧ out.Steps.length ≤ ids.length := by
  unfold Flow.Execute
  by_cases he : f.entry = ""
  · simp [he]
  · simp only [he, if_false]
    obtain ⟨r, hr, hnd, hreg⟩ := loop_terminates now f ids hacyc hids fuel
      (f.start now ctx st) (PathInv_start now f ctx st he) (by simp [Flow.start]; omega)
    have hlen := length_le_of_nodup_subset r.consulted ids hnd (fun id hid => hids id (hreg id hid))
    refine ⟨r, hr, hnd, hreg, hlen, ?_⟩
    intro out hout
    have herr : r.err = none :=
      (loop_output_iff now f fuel _ r hr).mp (by rw [hout]; rfl)
    obtain ⟨out1, hout1, _, _, _, _, _, _, hlog⟩ :=
      loop_walk now f fuel _ r (WalkInv_start now f ctx st he) hr herr
    rw [hout] at hout1
    cases hout1
    refine ⟨hlog.symm, ?_⟩
    have : (out.Steps.map (fun a => a.NodeID)).length ≤ ids.length := by rw [← hlog]; exact hlen
    simpa using this

end TerminationClaims

theorem flowABC_acyclic : flowABC.graph.Acyclic := by
  refine Acyclic_of_rank _ rankABC ?_
  intro a b hab
  obtain ⟨c, hc, hcb⟩ := hab
  have hg : flowABC.graph.connections
      = Function.update (Function.update (fun _ => []) "A" [⟨"A", "B", 1⟩]) "B"
          [⟨"B", "C", 1⟩] := by
    funext k
    simp [flowABC, Flow.Connect, Flow.ConnectWeighted, Flow.Add, NewFlow, Graph.Connect,
      Graph.New, Function.update]
  rw [hg] at hc
  by_cases hB : a = "B"
  · subst hB
    simp only [Function.update_same, List.mem_singleton] at hc
    subst hc
    simp only at hcb
    subst hcb
    decide
  · rw [Function.update_noteq hB] at hc
    by_cases hA : a = "A"
    · subst hA
      simp only [Function.update_same, List.mem_singleton] at hc
      subst hc
      simp only at hcb
      subst hcb
      decide
    · rw [Function.update_noteq hA] at hc
      simp at hc

theorem flowABC_registered (id : String) (h : (flowABC.nodes id).isSome = true) :
    id ∈ ["A", "B", "C"] := by
  have hn : flowABC.nodes
      = Function.update (Function.update (Function.update (fun _ => none) "A"
          (some (routeNode "A" "B" "a"))) "B" (some (routeNode "B" "C" "b"))) "C"
          (some (routeNode "C" "" "c")) := rfl
  rw [hn] at h
  by_cases hC : id = "C"
  · simp [hC]
  · rw [Function.update_noteq hC] at h
    by_cases hB : id = "B"
    · simp [hB]
    · rw [Function.update_noteq hB] at h
      by_cases hA : id = "A"
      · simp [hA]
      · rw [Function.update_noteq hA] at h
        simp at h

/-- C19 at the walk `A → B → C` with fuel 4: `Execute` returns, having
consulted three ids, no id twice. -/
theorem Execute_terminates_acyclic_witness :
    ∃ r, flowABC.Execute clock0 ctx0 () 4 = some r ∧ r.consulted.Nodup
      ∧ r.consulted.length ≤ 3 := by
  obtain ⟨r, h1, h2, _, h4, _⟩ :=
    Execute_terminates_acyclic clock0 flowABC ctx0 () ["A", "B", "C"] flowABC_acyclic
      flowABC_registered 4 (by decide)
  exact ⟨r, h1, h2, h4⟩

/-! ## Two runs in step -/

section SimProofs

variable {V σ ε Out : Type}

theorem loopBody_finish_empty (now : σ → Nat) (f : Flow V σ ε Out) (s : ExecState V σ Out)
    (h : s.current = "") :
    f.loopBody now s = Sum.inr (finish now s.output s.ctx s.st s.consulted) := by
  simp [Flow.loopBody, h]

theorem loopBody_finish_route (now : σ → Nat) (f : Flow V σ ε Out) (s : ExecState V σ Out)
    (node : Node V σ ε Out) (v : Verdict Out) (ctx1 : Context V) (st1 : σ)
    (hcur : s.current ≠ "") (hn : f.nodes s.current = some node)
    (hc : node.Consult s.ctx s.st = (v, none, ctx1, st1)) (hr : v.Route = "") :
    f.loopBody now s = Sum.inr
      (finish now (s.output.record s.current v) ctx1 st1 (s.consulted ++ [s.current])) := by
  simp [Flow.loopBody, hcur, hn, hc, hr]

theorem Forall₂_concat {α : Type} (R : α → α → Prop) (l1 l2 : List α) (a b : α)
    (h : List.Forall₂ R l1 l2) (hab : R a b) : List.Forall₂ R (l1 ++ [a]) (l2 ++ [b]) :=
  List.rel_append h (List.Forall₂.cons hab List.Forall₂.nil)

/-- One pass of `Execute` from two states in step: both go on, to states in
step, or both return, having taken the same course. -/
theorem loopBody_sim (RV : Verdict Out → Verdict Out → Prop)
    (hRV : ∀ v1 v2, RV v1 v2 → v1.Route = v2.Route)
    (Sim : Context V → σ → Context V → σ → Prop) (now1 now2 : σ → Nat)
    (f1 f2 : Flow V σ ε Out)
    (hedge : ∀ a b, f1.graph.Edge a b ↔ f2.graph.Edge a b)
    (hreg : ∀ id, (f1.nodes id).isSome = (f2.nodes id).isSome)
    (hnode : NodesAlike RV Sim f1 f2) (s1 s2 : ExecState V σ Out)
    (hrel : StateRel RV Sim s1 s2) :
    (∃ a b, f1.loopBody now1 s1 = Sum.inl a ∧ f2.loopBody now2 s2 = Sum.inl b
        ∧ StateRel RV Sim a b)
      ∨ (∃ r1 r2, f1.loopBody now1 s1 = Sum.inr r1 ∧ f2.loopBody now2 s2 = Sum.inr r2
        ∧ SameCourse RV r1 r2) := by
  obtain ⟨hcur, hlog, hsteps, hsim⟩ := hrel
  by_cases h0 : s1.current = ""
  · right
    refine ⟨_, _, loopBody_finish_empty now1 f1 s1 h0,
      loopBody_finish_empty now2 f2 s2 (by rw [← hcur]; exact h0), ?_⟩
    exact ⟨rfl, hlog, hsteps, rfl⟩
  · have h0' : s2.current ≠ "" := by rw [← hcur]; exact h0
    cases hn1 : f1.nodes s1.current with
    | none =>
      have hn2 : f2.nodes s2.current = none := by
        have := hreg s1.current
        rw [hn1, hcur] at this
        cases h : f2.nodes s2.current with
        | none => rfl
        | some n => rw [h] at this; simp at this
      right
      refine ⟨_, _, loopBody_notFound now1 f1 s1 h0 hn1, loopBody_notFound now2 f2 s2 h0' hn2, ?_⟩
      exact ⟨rfl, hlog, trivial⟩
    | some n1 =>
      obtain ⟨n2, hn2⟩ : ∃ n2, f2.nodes s2.current = some n2 := by
        have := hreg s1.current
        rw [hn1, hcur] at this
        cases h : f2.nodes s2.current with
        | none => rw [h] at this; simp at this
        | some n => exact ⟨n, rfl⟩
      have hh := hnode s1.current n1 n2 s1.ctx s1.st s2.ctx s2.st hn1 (by rw [hcur]; exact hn2) hsim
      rcases hc1 : n1.Consult s1.ctx s1.st with ⟨v1, e1, c1, t1⟩
      rcases hc2 : n2.Consult s2.ctx s2.st with ⟨v2, e2, c2, t2⟩
      rw [hc1, hc2] at hh
      simp only at hh
      cases e1 with
      | some e =>
        cases e2 with
        | none => simp at hh
        | some e' =>
          right
          refine ⟨_, _, loopBody_failed now1 f1 s1 n1 v1 e c1 t1 h0 hn1 hc1,
            loopBody_failed now2 f2 s2 n2 v2 e' c2 t2 h0' hn2 hc2, ?_⟩
          exact ⟨rfl, by simp [hlog, hcur], trivial⟩
      | none =>
        cases e2 with
        | some e' => simp at hh
        | none =>
          obtain ⟨hrv, hsim1⟩ := hh.2 rfl
          have hroute : v1.Route = v2.Route := hRV v1 v2 hrv
          have hsteps1 : List.Forall₂ (StepRel RV) (s1.output.record s1.current v1).Steps
              (s2.output.record s2.current v2).Steps :=
            Forall₂_concat _ _ _ _ _ hsteps ⟨hcur, hrv⟩
          by_cases hr : v1.Route = ""
          · right
            refine ⟨_, _, loopBody_finish_route now1 f1 s1 n1 v1 c1 t1 h0 hn1 hc1 hr,
              loopBody_finish_route now2 f2 s2 n2 v2 c2 t2 h0' hn2 hc2 (by rw [← hroute]; exact hr),
              ?_⟩
            exact ⟨rfl, by simp [finish, hlog, hcur], hsteps1, rfl⟩
          · have hr' : v2.Route ≠ "" := by rw [← hroute]; exact hr
            by_cases he : f1.graph.Edge s1.current v1.Route
            · have he' : f2.graph.Edge s2.current v2.Route := by
                rw [← hcur, ← hroute]; exact (hedge _ _).mp he
              left
              refine ⟨_, _, loopBody_continue now1 f1 s1 n1 v1 c1 t1 h0 hn1 hc1 hr he,
                loopBody_continue now2 f2 s2 n2 v2 c2 t2 h0' hn2 hc2 hr' he', ?_⟩
              exact ⟨hroute, by simp [hlog, hcur], hsteps1, hsim1⟩
            · have he' : ¬ f2.graph.Edge s2.current v2.Route := by
                rw [← hcur, ← hroute]; exact fun h => he ((hedge _ _).mpr h)
              right
              refine ⟨_, _,
                loopBody_unknown now1 f1 s1 n1 v1 c1 t1 h0 hn1 hc1 hr
                  (fun c hc hcd => he ⟨c, hc, hcd⟩),
                loopBody_unknown now2 f2 s2 n2 v2 c2 t2 h0' hn2 hc2 hr'
                  (fun c hc hcd => he' ⟨c, hc, hcd⟩), ?_⟩
              exact ⟨rfl, by simp [hlog, hcur], trivial⟩

theorem loop_sim (RV : Verdict Out → Verdict Out → Prop)
    (hRV : ∀ v1 v2, RV v1 v2 → v1.Route = v2.Route)
    (Sim : Context V → σ → Context V → σ → Prop) (now1 now2 : σ → Nat)
    (f1 f2 : Flow V σ ε Out)
    (hedge : ∀ a b, f1.graph.Edge a b ↔ f2.graph.Edge a b)
    (hreg : ∀ id, (f1.nodes id).isSome = (f2.nodes id).isSome)
    (hnode : NodesAlike RV Sim f1 f2) (fuel : Nat) :
    ∀ s1 s2 : ExecState V σ Out, StateRel RV Sim s1 s2 →
      SameOutcome RV (f1.loop now1 fuel s1) (f2.loop now2 fuel s2) := by
  induction fuel with
  | zero => intro s1 s2 _; simp [Flow.loop, SameOutcome]
  | succ fuel ih =>
    intro s1 s2 hrel
    rcases loopBody_sim RV hRV Sim now1 now2 f1 f2 hedge hreg hnode s1 s2 hrel with
      ⟨a, b, h1, h2, hab⟩ | ⟨r1, r2, h1, h2, hr⟩
    · simp only [Flow.loop, h1, h2]
      exact ih a b hab
    · simp only [Flow.loop, h1, h2, SameOutcome]
      exact hr

theorem Execute_sim (RV : Verdict Out → Verdict Out → Prop)
    (hRV : ∀ v1 v2, RV v1 v2 → v1.Route = v2.Route)
    (Sim : Context V → σ → Context V → σ → Prop) (now1 now2 : σ → Nat)
    (f1 f2 : Flow V σ ε Out) (hentry : f1.entry = f2.entry)
    (hedge : ∀ a b, f1.graph.Edge a b ↔ f2.graph.Edge a b)
    (hreg : ∀ id, (f1.nodes id).isSome = (f2.nodes id).isSome)
    (hnode : NodesAlike RV Sim f1 f2)
    (ctx1 : Context V) (st1 : σ) (ctx2 : Context V) (st2 : σ) (hsim : Sim ctx1 st1 ctx2 st2)
    (fuel : Nat) :
    SameOutcome RV (f1.Execute now1 ctx1 st1 fuel) (f2.Execute now2 ctx2 st2 fuel) := by
  unfold Flow.Execute
  by_cases he : f1.entry = ""
  · have he2 : f2.entry = "" := by rw [← hentry]; exact he
    simp only [he, he2, if_true, SameOutcome]
    exact ⟨rfl, rfl, trivial⟩
  · have he2 : ¬ f2.entry = "" := by rw [← hentry]; exact he
    simp only [he, he2, if_false]
    refine loop_sim RV hRV Sim now1 now2 f1 f2 hedge hreg hnode fuel _ _ ?_
    exact ⟨hentry, rfl, List.Forall₂.nil, hsim⟩

end SimProofs

section PayloadClaims

variable {V σ ε Out : Type}

theorem ReplayTo_concat (f : Flow V σ ε Out) (c : Context V) (s : σ) (id : String)
    (node : Node V σ ε Out) (v : Verdict Out) (c1 : Context V) (s1 : σ)
    (hn : f.nodes id = some node) (hc : node.Consult c s = (v, none, c1, s1))
    (steps : List (Step Out)) :
    ∀ (ctx0 : Context V) (st0 : σ), ReplayTo f c s ctx0 st0 steps →
      ReplayTo f c1 s1 ctx0 st0 (steps ++ [⟨id, v⟩]) := by
  induction steps with
  | nil =>
    intro ctx0 st0 h
    obtain ⟨rfl, rfl⟩ := h
    refine ⟨node, hn, ?_, ?_, ?_⟩
    · rw [hc]
    · rw [hc]
    · rw [hc]; exact ⟨rfl, rfl⟩
  | cons a rest ih =>
    intro ctx0 st0 h
    obtain ⟨n, h1, h2, h3, h4⟩ := h
    exact ⟨n, h1, h2, h3, ih _ _ h4⟩

theorem loop_replay (now : σ → Nat) (f : Flow V σ ε Out) (ctx0 : Context V) (st0 : σ)
    (fuel : Nat) :
    ∀ (s : ExecState V σ Out) (r : ExecResult V σ ε Out),
      ReplayTo f s.ctx s.st ctx0 st0 s.output.Steps → f.loop now fuel s = some r →
      ∀ out, r.output = some out → ReplayTo f r.ctx r.st ctx0 st0 out.Steps := by
  induction fuel with
  | zero => intro s r _ h; simp [Flow.loop] at h
  | succ fuel ih =>
    intro s r hinv h out hout
    unfold Flow.loop at h
    cases hb : f.loopBody now s with
    | inl s1 =>
      simp only [hb] at h
      obtain ⟨_, node, v, ctx1, st1, hn, hc, _, _, rfl⟩ := loopBody_inl now f s s1 hb
      exact ih _ r (ReplayTo_concat f s.ctx s.st s.current node v ctx1 st1 hn hc _ _ _ hinv)
        h out hout
    | inr r1 =>
      simp only [hb, Option.some.injEq] at h
      subst h
      rcases loopBody_inr now f s r1 hb with h1 | h1 | h1 | h1 | h1
      · rw [h1.2] at hout ⊢
        simp only [finish, Option.some.injEq] at hout
        rw [← hout]
        exact hinv
      · rw [h1.2.2] at hout; simp at hout
      · obtain ⟨_, node, v, e, ctx1, st1, _, _, hr1⟩ := h1
        rw [hr1] at hout; simp at hout
      · obtain ⟨_, node, v, ctx1, st1, hn, hc, _, hr1⟩ := h1
        rw [hr1] at hout ⊢
        simp only [finish, Option.some.injEq] at hout
        rw [← hout]
        exact ReplayTo_concat f s.ctx s.st s.current node v ctx1 st1 hn hc _ _ _ hinv
      · obtain ⟨_, node, v, ctx1, st1, _, _, _, _, hr1⟩ := h1
        rw [hr1] at hout; simp at hout

/-- C14: take two runs of `Execute` on flows with the same entry, the same
graph and the same registered ids, whose nodes answer alike on states related
by `Sim`: both fail, or both succeed with the same route (outputs and weights
of the verdicts being free) and leave related states. With the same fuel both
runs are out of fuel or both return, without error or with errors of the same
kind, having consulted the same ids in the same order, with traces that are
step by step at the same nodes with the same routes. And the steps of a trace
that a run returns are the verdicts, as returned, of the successive
consultations of that run. -/
theorem Execute_ignores_verdict_payload (Sim : Context V → σ → Context V → σ → Prop)
    (now1 now2 : σ → Nat) (f1 f2 : Flow V σ ε Out)
    (hentry : f1.entry = f2.entry) (hgraph : f1.graph = f2.graph)
    (hreg : ∀ id, (f1.nodes id).isSome = (f2.nodes id).isSome)
    (hnode : NodesAlike (fun v1 v2 => v1.Route = v2.Route) Sim f1 f2)
    (ctx1 : Context V) (st1 : σ) (ctx2 : Context V) (st2 : σ) (hsim : Sim ctx1 st1 ctx2 st2)
    (fuel : Nat) :
    SameOutcome (fun v1 v2 => v1.Route = v2.Route)
        (f1.Execute now1 ctx1 st1 fuel) (f2.Execute now2 ctx2 st2 fuel)
      ∧ ∀ r out, f1.Execute now1 ctx1 st1 fuel = some r → r.output = some out →
          ReplayTo f1 r.ctx r.st ctx1 st1 out.Steps := by
  refine ⟨Execute_sim _ (fun _ _ h => h) Sim now1 now2 f1 f2 hentry
    (fun a b => by rw [hgraph]) hreg hnode ctx1 st1 ctx2 st2 hsim fuel, ?_⟩
  intro r out hr hout
  unfold Flow.Execute at hr
  by_cases he : f1.entry = ""
  · simp only [he, if_true, Option.some.injEq] at hr
    rw [← hr] at hout
    simp at hout
  · simp only [he, if_false] at hr
    have h0 : ReplayTo f1 (f1.start now1 ctx1 st1).ctx (f1.start now1 ctx1 st1).st ctx1 st1
        (f1.start now1 ctx1 st1).output.Steps := ⟨rfl, rfl⟩
    exact loop_replay now1 f1 ctx1 st1 fuel _ r h0 hr out hout

end PayloadClaims

theorem flowABC2_nodes (id : String) :
    (id = "A" ∨ id = "B" ∨ id = "C" ∨ (flowABC.nodes id = none ∧ flowABC2.nodes id = none))
      ∧ flowABC.nodes "A" = some (routeNode "A" "B" "a")
      ∧ flowABC.nodes "B" = some (routeNode "B" "C" "b")
      ∧ flowABC.nodes "C" = some (routeNode "C" "" "c")
      ∧ flowABC2.nodes "A" = some { routeNode "A" "B" "x" with
          Consult := fun ctx st => (⟨"B", "x", F64.num (1/3)⟩, none, ctx, st) }
      ∧ flowABC2.nodes "B" = some { routeNode "B" "C" "y" with
          Consult := fun ctx st => (⟨"C", "y", 0⟩, none, ctx, st) }
      ∧ flowABC2.nodes "C" = some (routeNode "C" "" "z") := by
  refine ⟨?_, rfl, rfl, rfl, rfl, rfl, rfl⟩
  by_cases hA : id = "A"
  · exact Or.inl hA
  · by_cases hB : id = "B"
    · exact Or.inr (Or.inl hB)
    · by_cases hC : id = "C"
      · exact Or.inr (Or.inr (Or.inl hC))
      · refine Or.inr (Or.inr (Or.inr ⟨?_, ?_⟩))
        · show Function.update (Function.update (Function.update (fun _ => none) "A" _) "B" _)
            "C" _ id = none
          rw [Function.update_noteq hC, Function.update_noteq hB, Function.update_noteq hA]
        · show Function.update (Function.update (Function.update (fun _ => none) "A" _) "B" _)
            "C" _ id = none
          rw [Function.update_noteq hC, Function.update_noteq hB, Function.update_noteq hA]

/-- C14 at the walk `A → B → C` run twice, the second time with nodes that
return other outputs and other weights: both runs succeed, consult `A`, `B`,
`C` in that order, and the trace of the second holds the outputs `x`, `y`, `z`
as returned. -/
theorem Execute_ignores_verdict_payload_witness :
    SameOutcome (fun v1 v2 => v1.Route = v2.Route)
        (flowABC.Execute clock0 ctx0 () 3) (flowABC2.Execute clock0 ctx0 () 3)
      ∧ (flowABC2.Execute clock0 ctx0 () 3).map (fun r => r.consulted) = some ["A", "B", "C"]
      ∧ (flowABC2.Execute clock0 ctx0 () 3).map
          (fun r => r.output.map (fun o => o.Steps.map (fun a => a.Verdict.Output)))
          = some (some ["x", "y", "z"]) := by
  refine ⟨(Execute_ignores_verdict_payload (fun _ _ _ _ => True) clock0 clock0 flowABC flowABC2
    rfl rfl ?_ ?_ ctx0 () ctx0 () trivial 3).1, rfl, rfl⟩
  · intro id
    obtain ⟨h, a1, b1, c1, a2, b2, c2⟩ := flowABC2_nodes id
    rcases h with rfl | rfl | rfl | ⟨h1, h2⟩
    · rw [a1, a2]; rfl
    · rw [b1, b2]; rfl
    · rw [c1, c2]; rfl
    · rw [h1, h2]
  · intro id n1 n2 c1 s1 c2 s2 h1 h2 _
    obtain ⟨h, a1, b1, c1', a2, b2, c2'⟩ := flowABC2_nodes id
    rcases h with rfl | rfl | rfl | ⟨h3, h4⟩
    · rw [a1] at h1; rw [a2] at h2; cases h1; cases h2
      exact ⟨rfl, fun _ => ⟨rfl, trivial⟩⟩
    · rw [b1] at h1; rw [b2] at h2; cases h1; cases h2
      exact ⟨rfl, fun _ => ⟨rfl, trivial⟩⟩
    · rw [c1'] at h1; rw [c2'] at h2; cases h1; cases h2
      exact ⟨rfl, fun _ => ⟨rfl, trivial⟩⟩
    · rw [h3] at h1; cases h1

theorem AdjustWeight_Edge (g : Graph) (s d : String) (delta : F64) (a b : String) :
    (g.AdjustWeight s d delta).2.Edge a b ↔ g.Edge a b := by
  have key : ∀ h : Graph, h.Edge a b ↔ b ∈ (h.connections a).map (fun c => c.To) := by
    intro h
    simp only [Graph.Edge, List.mem_map]
  rw [key, key]
  unfold Graph.AdjustWeight
  cases hadj : adjustFirst d delta (g.connections s) with
  | none => rfl
  | some cs =>
    by_cases ha : a = s
    · subst ha
      simp only [Function.update_same]
      rw [(adjustFirst_map_To d delta _ cs hadj).1]
    · simp only [Function.update_noteq ha]

theorem AdjustAll_Edge (adjs : List (String × String × F64)) (a b : String) :
    ∀ g : Graph, (g.AdjustAll adjs).Edge a b ↔ g.Edge a b := by
  induction adjs with
  | nil => intro g; rfl
  | cons x xs ih =>
    intro g
    show ((g.AdjustWeight x.1 x.2.1 x.2.2).2.AdjustAll xs).Edge a b ↔ _
    rw [ih, AdjustWeight_Edge]

section WeightClaims

variable {V σ ε Out : Type}

theorem Forall₂_StepRel_eq (l1 l2 : List (Step Out))
    (h : List.Forall₂ (StepRel (fun v1 v2 : Verdict Out => v1 = v2)) l1 l2) : l1 = l2 := by
  induction h with
  | nil => rfl
  | @cons a b l1 l2 hab _ ih =>
    obtain ⟨h1, h2⟩ := hab
    cases a with
    | mk ida va =>
      cases b with
      | mk idb vb =>
        have e1 : ida = idb := h1
        have e2 : va = vb := h2
        rw [e1, e2, ih]

/-- C20: two flows with the same entry, the same nodes and the same pairs
`(from, to)` joined by a stored connection, whatever the weights, run from the
same context and state with the same fuel: both are out of fuel or both
return, without error or with errors of the same kind, with the same ids
consulted in the same order and, when a trace is returned, the same steps.
Any sequence of `AdjustWeight` calls leaves the joined pairs as they are. -/
theorem Execute_independent_of_weights (now : σ → Nat) (f1 f2 : Flow V σ ε Out)
    (hentry : f1.entry = f2.entry) (hnodes : f1.nodes = f2.nodes)
    (hedge : ∀ a b, f1.graph.Edge a b ↔ f2.graph.Edge a b)
    (ctx : Context V) (st : σ) (fuel : Nat) :
    (f1.Execute now ctx st fuel = none ↔ f2.Execute now ctx st fuel = none)
      ∧ (∀ r1 r2, f1.Execute now ctx st fuel = some r1 → f2.Execute now ctx st fuel = some r2 →
          r1.err.map ExecError.kind = r2.err.map ExecError.kind
            ∧ (r1.err = none ↔ r2.err = none)
            ∧ r1.output.map (fun o => o.Steps) = r2.output.map (fun o => o.Steps)
            ∧ r1.consulted = r2.consulted)
      ∧ (∀ (adjs : List (String × String × F64)) (a b : String),
          (f1.graph.AdjustAll adjs).Edge a b ↔ f1.graph.Edge a b) := by
  have hsim := Execute_sim (fun v1 v2 : Verdict Out => v1 = v2) (fun _ _ h => by rw [h])
    (fun c1 s1 c2 s2 => c1 = c2 ∧ s1 = s2) now now f1 f2 hentry hedge
    (fun id => by rw [hnodes])
    (by
      intro id n1 n2 c1 s1 c2 s2 h1 h2 hs
      rw [hnodes, h2] at h1
      cases h1
      obtain ⟨rfl, rfl⟩ := hs
      exact ⟨rfl, fun _ => ⟨rfl, rfl, rfl⟩⟩)
    ctx st ctx st ⟨rfl, rfl⟩ fuel
  refine ⟨?_, ?_, fun adjs a b => AdjustAll_Edge adjs a b f1.graph⟩
  · cases h1 : f1.Execute now ctx st fuel <;> cases h2 : f2.Execute now ctx st fuel <;>
      simp [h1, h2, SameOutcome] at hsim ⊢
  · intro r1 r2 h1 h2
    rw [h1, h2] at hsim
    obtain ⟨hk, hc, ho⟩ := hsim
    refine ⟨hk, ?_, ?_, hc⟩
    · cases e1 : r1.err <;> cases e2 : r2.err <;> simp [e1, e2] at hk ⊢
    · cases o1 : r1.output <;> cases o2 : r2.output <;> simp only [o1, o2, OutputRel] at ho
      · rfl
      · simp only [Option.map_some', Option.some.injEq]
        exact Forall₂_StepRel_eq _ _ ho.1

/-- C20 at the walk `A → B → C` before and after `AdjustWeight(A, B, -0.5)` and
`AdjustWeight(B, C, -0.25)`: the stored weights differ and both runs return the
steps `A`, `B`, `C`. -/
theorem Execute_independent_of_weights_witness :
    flowABC.graph.weightOf "A" "B" = some 1
      ∧ flowABC3.graph.weightOf "A" "B" = some (F64.num (1/2))
      ∧ flowABC3.Execute clock0 ctx0 () 3 = some resultABC
      ∧ ((flowABC.Execute clock0 ctx0 () 3 = none ↔ flowABC3.Execute clock0 ctx0 () 3 = none)
        ∧ ∀ r1 r2, flowABC.Execute clock0 ctx0 () 3 = some r1 →
            flowABC3.Execute clock0 ctx0 () 3 = some r2 →
            r1.err.map ExecError.kind = r2.err.map ExecError.kind
              ∧ (r1.err = none ↔ r2.err = none)
              ∧ r1.output.map (fun o => o.Steps) = r2.output.map (fun o => o.Steps)
              ∧ r1.consulted = r2.consulted) := by
  have h := Execute_independent_of_weights clock0 flowABC flowABC3 rfl rfl
    (fun a b => (AdjustAll_Edge _ a b flowABC.graph).symm) ctx0 () 3
  refine ⟨?_, ?_, rfl, h.1, h.2.1⟩
  · simp [Graph.weightOf, flowABC, Flow.Connect, Flow.ConnectWeighted, Flow.Add, NewFlow,
      Graph.Connect, Graph.New]
  · simp [Graph.weightOf, flowABC3, Graph.AdjustAll, Graph.AdjustWeight, adjustFirst, flowABC,
      Flow.Connect, Flow.ConnectWeighted, Flow.Add, NewFlow, Graph.Connect, Graph.New,
      F64.one_eq, F64.zero_eq, F64.num_add_num, F64.clamp_num_num]
    norm_num

end WeightClaims

/-! ## The insertion sort over any element type -/

section GenericSort

variable {α : Type}

theorem sortInnerBy_append (w : α → F64) (x : α) (r t : List α) :
    sortInnerBy w (r.reverse ++ x :: t) r.length = (insertBackBy w x r).reverse ++ t := by
  induction r generalizing t with
  | nil => simp [sortInnerBy, insertBackBy]
  | cons y ys ih =>
    have h1 : (ys.reverse ++ y :: x :: t)[ys.length + 1]? = some x := by
      rw [List.getElem?_append_right (by simp)]; simp
    have h2 : (ys.reverse ++ y :: x :: t)[ys.length]? = some y := by
      rw [List.getElem?_append_right (by simp)]; simp
    have h3 : ((ys.reverse ++ y :: x :: t).set (ys.length + 1) y).set ys.length x
        = ys.reverse ++ x :: y :: t := by
      rw [List.set_append_right _ _ (by simp), List.set_append_right _ _ (by simp)]
      simp
    simp only [List.reverse_cons, List.append_assoc, List.singleton_append, List.length_cons,
      sortInnerBy, h1, h2, h3, insertBackBy]
    by_cases h : w x > w y
    · simp only [h, if_true, ih, List.reverse_cons, List.append_assoc, List.singleton_append]
    · simp [h]

theorem insertBackBy_length (w : α → F64) (x : α) (r : List α) :
    (insertBackBy w x r).length = r.length + 1 := by
  induction r with
  | nil => simp [insertBackBy]
  | cons y ys ih => by_cases h : w x > w y <;> simp [insertBackBy, h, ih]

theorem sortBy_outer (w : α → F64) (r t : List α) :
    (List.range' (r.length) t.length).foldl (fun cs i => sortInnerBy w cs i) (r.reverse ++ t)
      = (t.foldl (fun acc x => insertBackBy w x acc) r).reverse := by
  induction t generalizing r with
  | nil => simp
  | cons x t ih =>
    simp only [List.length_cons, List.range'_succ, List.foldl_cons, sortInnerBy_append]
    have := ih (insertBackBy w x r)
    rw [insertBackBy_length] at this
    simpa using this

theorem sortBy_eq (w : α → F64) (xs : List α) :
    sortBy w xs = (xs.foldl (fun acc x => insertBackBy w x acc) []).reverse := by
  cases xs with
  | nil => simp [sortBy]
  | cons a t =>
    have := sortBy_outer w [a] t
    simpa [sortBy, insertBackBy] using this

theorem insertBackBy_perm (w : α → F64) (x : α) (r : List α) :
    (insertBackBy w x r).Perm (x :: r) := by
  induction r with
  | nil => simp [insertBackBy]
  | cons y ys ih =>
    by_cases h : w x > w y
    · simp only [insertBackBy, h, if_true]
      exact (List.Perm.cons y ih).trans (List.Perm.swap x y ys)
    · simp [insertBackBy, h]

theorem insertBackBy_sorted (w : α → F64) (x : α) (r : List α)
    (hx : w x ≠ F64.nan) (hn : ∀ y ∈ r, w y ≠ F64.nan)
    (hr : r.Pairwise (fun a b => w a ≤ w b)) :
    (insertBackBy w x r).Pairwise (fun a b => w a ≤ w b) := by
  induction r with
  | nil => simp [insertBackBy]
  | cons y ys ih =>
    rw [List.pairwise_cons] at hr
    have hy : w y ≠ F64.nan := hn y (List.mem_cons_self _ _)
    have hys : ∀ z ∈ ys, w z ≠ F64.nan := fun z hz => hn z (List.mem_cons_of_mem _ hz)
    by_cases h : w x > w y
    · simp only [insertBackBy, h, if_true, List.pairwise_cons]
      refine ⟨fun z hz => ?_, ih hys hr.2⟩
      rcases (List.mem_cons.mp ((insertBackBy_perm w x ys).mem_iff.mp hz)) with hzx | hzy
      · rw [hzx]; exact F64.ge_of_gt _ _ h
      · exact hr.1 z hzy
    · simp only [insertBackBy, h, if_false, List.pairwise_cons]
      have hxy : w x ≤ w y := F64.ge_of_not_gt _ _ hx hy h
      refine ⟨fun z hz => ?_, hr⟩
      rcases List.mem_cons.mp hz with hzy | hzs
      · rw [hzy]; exact hxy
      · exact F64.ge_trans _ _ _ (hr.1 z hzs) hxy

theorem insertBackBy_mem_nan (w : α → F64) (x : α) (r : List α)
    (hx : w x ≠ F64.nan) (hn : ∀ y ∈ r, w y ≠ F64.nan) :
    ∀ y ∈ insertBackBy w x r, w y ≠ F64.nan := by
  intro y hy
  rcases List.mem_cons.mp ((insertBackBy_perm w x r).mem_iff.mp hy) with h | h
  · rw [h]; exact hx
  · exact hn y h

theorem sortBy_perm (w : α → F64) (xs : List α) : (sortBy w xs).Perm xs := by
  rw [sortBy_eq]
  refine (List.reverse_perm _).trans ?_
  have key : ∀ (t r : List α), (t.foldl (fun acc x => insertBackBy w x acc) r).Perm (t ++ r) := by
    intro t
    induction t with
    | nil => intro r; simp
    | cons x t ih =>
      intro r
      simp only [List.foldl_cons, List.cons_append]
      exact (ih _).trans ((List.Perm.append_left t (insertBackBy_perm w x r)).trans
        List.perm_middle)
  simpa using key xs []

theorem sortBy_sorted (w : α → F64) (xs : List α) (hn : ∀ x ∈ xs, w x ≠ F64.nan) :
    (sortBy w xs).Pairwise (fun a b => w a ≥ w b) := by
  rw [sortBy_eq, List.pairwise_reverse]
  have key : ∀ (t r : List α), (∀ y ∈ t, w y ≠ F64.nan) → (∀ y ∈ r, w y ≠ F64.nan) →
      r.Pairwise (fun a b => w a ≤ w b) →
      (t.foldl (fun acc x => insertBackBy w x acc) r).Pairwise (fun a b => w a ≤ w b) := by
    intro t
    induction t with
    | nil => intro r _ _ hr; simpa using hr
    | cons x t ih =>
      intro r ht hn hr
      have hx : w x ≠ F64.nan := ht x (List.mem_cons_self _ _)
      exact ih _ (fun y hy => ht y (List.mem_cons_of_mem _ hy))
        (insertBackBy_mem_nan w x r hx hn) (insertBackBy_sorted w x r hx hn hr)
  exact key xs [] hn (by simp) List.Pairwise.nil

theorem insertBackBy_map {β : Type} (f : α → β) (w : β → F64) (x : α) (r : List α) :
    (insertBackBy (fun a => w (f a)) x r).map f = insertBackBy w (f x) (r.map f) := by
  induction r with
  | nil => simp [insertBackBy]
  | cons y ys ih =>
    by_cases h : w (f x) > w (f y)
    · simp [insertBackBy, h, ih]
    · simp [insertBackBy, h]

/-- Sorting pointers by the weight of what they point to, then reading them,
is reading them and then sorting by weight. -/
theorem sortBy_map {β : Type} (f : α → β) (w : β → F64) (xs : List α) :
    (sortBy (fun a => w (f a)) xs).map f = sortBy w (xs.map f) := by
  rw [sortBy_eq, sortBy_eq, List.map_reverse]
  congr 1
  have key : ∀ (t r : List α),
      (t.foldl (fun acc x => insertBackBy (fun a => w (f a)) x acc) r).map f
        = (t.map f).foldl (fun acc x => insertBackBy w x acc) (r.map f) := by
    intro t
    induction t with
    | nil => intro r; rfl
    | cons x t ih =>
      intro r
      simp only [List.foldl_cons, List.map_cons]
      rw [ih, insertBackBy_map]
  simpa using key xs []

theorem sortInner_eq_sortInnerBy (j : Nat) :
    ∀ conns : List Connection, sortInner conns j = sortInnerBy (fun c => c.Weight) conns j := by
  induction j with
  | zero => intro conns; rfl
  | succ j ih =>
    intro conns
    unfold sortInner sortInnerBy
    cases h1 : conns[j + 1]? <;> cases h2 : conns[j]? <;> simp only []
    split
    · exact ih _
    · rfl

/-- The function `sortConnections` is the shared sort on `Weight`. -/
theorem sortConnections_eq_sortBy (conns : List Connection) :
    sortConnections conns = sortBy (fun c => c.Weight) conns := by
  unfold sortConnections sortBy
  congr 1
  funext cs i
  exact sortInner_eq_sortInnerBy i cs

end GenericSort

/-! ## Claims on the knowledge store -/

namespace Knowledge

/-- Whatever the order in which `range s.units` visits the keys, `Domain(d)`
returns the units of the domain `d` that the store holds and no other unit,
one entry for each key whose unit has the domain `d`; two orders of visit give
the same units, up to the order among them. When no unit of the domain has a
NaN for weight the result is in non-increasing order of weight. `Domain` only
reads the store. -/
theorem Domain_spec {F : Type} (s : Store F) (d : String) (order : List String)
    (horder : s.IteratedBy order) :
    (∀ u, u ∈ s.Domain order d ↔ ∃ id, s.units id = some u ∧ u.Domain = d)
      ∧ (s.Domain order d).Perm ((order.filterMap s.units).filter (fun u => u.Domain = d))
      ∧ (s.Domain order d).length
          = (order.filter (fun id => (s.units id).any (fun u => u.Domain = d))).length
      ∧ ((∀ id u, s.units id = some u → u.Domain = d → u.Weight ≠ F64.nan) →
          (s.Domain order d).Pairwise (fun a b => a.Weight ≥ b.Weight))
      ∧ (∀ order2, s.IteratedBy order2 → (s.Domain order2 d).Perm (s.Domain order d)) := by
  have hperm : ∀ o : List String,
      (s.Domain o d).Perm ((o.filterMap s.units).filter (fun u => u.Domain = d)) :=
    fun o => sortBy_perm _ _
  refine ⟨fun u => ?_, hperm order, ?_, fun hn => sortBy_sorted _ _ ?_, fun order2 h2 => ?_⟩
  · rw [(hperm order).mem_iff]
    simp only [List.mem_filter, List.mem_filterMap, decide_eq_true_eq]
    constructor
    · rintro ⟨⟨id, _, hid⟩, hd⟩
      exact ⟨id, hid, hd⟩
    · rintro ⟨id, hid, hd⟩
      exact ⟨⟨id, (horder.2 id).mpr (by rw [hid]; rfl), hid⟩, hd⟩
  · rw [(hperm order).length_eq]
    have key : ∀ o : List String,
        ((o.filterMap s.units).filter (fun u => u.Domain = d)).length
          = (o.filter (fun id => (s.units id).any (fun u => u.Domain = d))).length := by
      intro o
      induction o with
      | nil => rfl
      | cons id o ih =>
        cases h : s.units id with
        | none => simp [List.filterMap_cons, List.filter_cons, h, ih]
        | some u =>
          by_cases hd : u.Domain = d
          · simp [List.filterMap_cons, List.filter_cons, h, hd, ih]
          · simp [List.filterMap_cons, List.filter_cons, h, hd, ih]
    exact key order
  · intro u hu
    simp only [List.mem_filter, List.mem_filterMap, decide_eq_true_eq] at hu
    obtain ⟨⟨id, _, hid⟩, hd⟩ := hu
    exact hn id u hid hd
  · have hoo : order2.Perm order :=
      (List.perm_ext_iff_of_nodup h2.1 horder.1).mpr
        (fun id => by rw [h2.2 id, horder.2 id])
    exact (hperm order2).trans
      (((hoo.filterMap s.units).filter _).trans (hperm order).symm)

theorem store3_units (id : String) :
    (store3.units id).isSome = true ↔ id ∈ ["u1", "u2", "u3"] := by
  have hn : store3.units
      = Function.update (Function.update (Function.update (fun _ => none) "u1"
          (some (plainUnit "u1" "go" (F64.num (1/2))))) "u2" (some (plainUnit "u2" "rust" 1))) "u3"
          (some (plainUnit "u3" "go" (F64.num (9/10)))) := rfl
  rw [hn]
  by_cases h3 : id = "u3"
  · subst h3; simp
  · rw [Function.update_noteq h3]
    by_cases h2 : id = "u2"
    · subst h2; simp
    · rw [Function.update_noteq h2]
      by_cases h1 : id = "u1"
      · subst h1; simp
      · rw [Function.update_noteq h1]
        simp [h1, h2, h3]

theorem storeNaN_units (id : String) :
    (storeNaN.units id).isSome = true ↔ id ∈ ["u1", "u2", "u3"] := by
  have hn : storeNaN.units
      = Function.update (Function.update (Function.update (fun _ => none) "u1"
          (some (refinedUnit "u1" (F64.num (1/5))))) "u2" (some (refinedUnit "u2" F64.nan))) "u3"
          (some (refinedUnit "u3" (F64.num (9/10)))) := rfl
  rw [hn]
  by_cases h3 : id = "u3"
  · subst h3; simp
  · rw [Function.update_noteq h3]
    by_cases h2 : id = "u2"
    · subst h2; simp
    · rw [Function.update_noteq h2]
      by_cases h1 : id = "u1"
      · subst h1; simp
      · rw [Function.update_noteq h1]
        simp [h1, h2, h3]

/-- A store with `u1` (go, 0.5), `u2` (rust, 1), `u3` (go, 0.9), the keys
visited in the order `u1`, `u2`, `u3`: `Domain(go)` is `u3` then `u1`. -/
theorem Domain_spec_store3 :
    (store3.Domain ["u1", "u2", "u3"] "go").map (fun u => u.ID) = ["u3", "u1"]
      ∧ (store3.Domain ["u1", "u2", "u3"] "go").Pairwise (fun a b => a.Weight ≥ b.Weight)
      ∧ (store3.Domain ["u3", "u2", "u1"] "go").Perm (store3.Domain ["u1", "u2", "u3"] "go") := by
  have h1 : store3.IteratedBy ["u1", "u2", "u3"] :=
    ⟨by decide, fun id => (store3_units id).symm⟩
  have h2 : store3.IteratedBy ["u3", "u2", "u1"] :=
    ⟨by decide, fun id => by rw [store3_units id]; simp; tauto⟩
  have h := Domain_spec store3 "go" ["u1", "u2", "u3"] h1
  have hl : (["u1", "u2", "u3"].filterMap store3.units).filter (fun u => u.Domain = "go")
      = [plainUnit "u1" "go" (F64.num (1/2)), plainUnit "u3" "go" (F64.num (9/10))] := by
    have e1 : store3.units "u1" = some (plainUnit "u1" "go" (F64.num (1/2))) := rfl
    have e2 : store3.units "u2" = some (plainUnit "u2" "rust" 1) := rfl
    have e3 : store3.units "u3" = some (plainUnit "u3" "go" (F64.num (9/10))) := rfl
    simp [List.filterMap_cons, e1, e2, e3, plainUnit]
  have hd : store3.Domain ["u1", "u2", "u3"] "go"
      = [plainUnit "u3" "go" (F64.num (9/10)), plainUnit "u1" "go" (F64.num (1/2))] := by
    unfold Store.Domain
    rw [hl]
    simp [sortByWeight, sortBy, sortInnerBy, List.range', plainUnit, F64.num_gt_num]
    norm_num [sortInnerBy]
  refine ⟨by rw [hd]; rfl, ?_, h.2.2.2.2 _ h2⟩
  rw [hd]
  simp only [List.pairwise_cons, List.mem_singleton, forall_eq, List.not_mem_nil,
    false_implies, implies_true, List.Pairwise.nil, and_true, plainUnit]
  show F64.num (9/10) ≥ F64.num (1/2)
  rw [F64.num_ge_num]; norm_num

/-- C18, the code at a store holding three units of the domain `go` made by
`NewUnit` and refined to `0.2`, to a NaN and to `0.9`, with `range s.units`
visiting them in this order: `Refine` stores the NaN (both comparisons of
`clamp` are false), and `Domain("go")` returns the three units in the order of
the visit, `0.2` before `0.9`: the insertion sort moves nothing past the NaN,
so the result is not in non-increasing order of weight. -/
theorem Domain_unsorted_at_NaN :
    (refinedUnit "u2" F64.nan).Weight = F64.nan
      ∧ storeNaN.IteratedBy ["u1", "u2", "u3"]
      ∧ (storeNaN.Domain ["u1", "u2", "u3"] "go").map (fun u => (u.ID, u.Weight))
          = [("u1", F64.num (1/5)), ("u2", F64.nan), ("u3", F64.num (9/10))]
      ∧ ¬ (storeNaN.Domain ["u1", "u2", "u3"] "go").Pairwise (fun a b => a.Weight ≥ b.Weight)
      ∧ F64.num (9/10) > F64.num (1/5) := by
  have hw2 : (refinedUnit "u2" F64.nan).Weight = F64.nan := by
    show clamp F64.nan 0 1 = F64.nan
    unfold clamp
    rw [if_neg (F64.not_nan_lt 0), if_neg (F64.not_nan_gt 1)]
  have hw : ∀ (id : String) (q : ℚ), 0 ≤ q → q ≤ 1 → (refinedUnit id (F64.num q)).Weight = F64.num q := by
    intro id q h0 h1
    show clamp (F64.num q) 0 1 = F64.num q
    unfold clamp
    rw [F64.zero_eq, F64.one_eq, if_neg (by rw [F64.num_lt_num]; exact not_lt.mpr h0),
      if_neg (by rw [F64.num_gt_num]; exact not_lt.mpr h1)]
  have hw1 := hw "u1" (1/5) (by norm_num) (by norm_num)
  have hw3 := hw "u3" (9/10) (by norm_num) (by norm_num)
  have hl : (["u1", "u2", "u3"].filterMap storeNaN.units).filter (fun u => u.Domain = "go")
      = [refinedUnit "u1" (F64.num (1/5)), refinedUnit "u2" F64.nan,
          refinedUnit "u3" (F64.num (9/10))] := by
    have e1 : storeNaN.units "u1" = some (refinedUnit "u1" (F64.num (1/5))) := rfl
    have e2 : storeNaN.units "u2" = some (refinedUnit "u2" F64.nan) := rfl
    have e3 : storeNaN.units "u3" = some (refinedUnit "u3" (F64.num (9/10))) := rfl
    have d1 : ∀ id w, (refinedUnit id w).Domain = "go" := fun _ _ => rfl
    simp [List.filterMap_cons, e1, e2, e3, d1]
  have hd : storeNaN.Domain ["u1", "u2", "u3"] "go"
      = [refinedUnit "u1" (F64.num (1/5)), refinedUnit "u2" F64.nan,
          refinedUnit "u3" (F64.num (9/10))] := by
    unfold Store.Domain
    rw [hl]
    simp [sortByWeight, sortBy, sortInnerBy, List.range', hw1, hw2, hw3, F64.not_nan_gt,
      F64.not_gt_nan]
  refine ⟨hw2, ⟨by decide, fun id => (storeNaN_units id).symm⟩, ?_, ?_, ?_⟩
  · rw [hd]
    simp only [List.map_cons, List.map_nil, hw1, hw2, hw3]
    rfl
  · rw [hd]
    intro h
    have h2 := (List.pairwise_cons.mp h).1 (refinedUnit "u2" F64.nan) (by simp)
    rw [hw1, hw2] at h2
    exact absurd h2 (by show ¬ F64.ge (F64.num (1/5)) F64.nan = true; simp [F64.ge])
  · rw [F64.num_gt_num]; norm_num

end Knowledge

/-! ## Claims on `RunMany` -/

section RunManyClaims

variable {V σ ε Out : Type}

theorem Execute_output_iff (now : σ → Nat) (f : Flow V σ ε Out) (ctx : Context V) (st : σ)
    (fuel : Nat) (r : ExecResult V σ ε Out) (h : f.Execute now ctx st fuel = some r) :
    r.output.isSome = true ↔ r.err = none := by
  unfold Flow.Execute at h
  by_cases he : f.entry = ""
  · simp only [he, if_true, Option.some.injEq] at h
    rw [← h]; simp
  · simp only [he, if_false] at h
    exact loop_output_iff now f fuel _ r h

theorem Run_output_of_ok (now : σ → Nat) (r : Runtime V σ ε Out) (flowID : String)
    (ctx : Context V) (st : σ) (fuel : Nat) (res : RunResult V σ ε Out)
    (h : r.Run now flowID ctx st fuel = some res) (herr : res.err = none) :
    res.output.isSome = true := by
  unfold Runtime.Run at h
  cases hg : r.get flowID with
  | error e =>
    simp only [hg, Option.some.injEq] at h
    rw [← h] at herr
    simp at herr
  | ok flow =>
    simp only [hg, Option.map_eq_some'] at h
    obtain ⟨er, her, rfl⟩ := h
    simp only [Option.map_eq_none'] at herr
    exact (Execute_output_iff now flow ctx st fuel er her).mpr herr

theorem RunManyFrom_eq (now : σ → Nat) (r : Runtime V σ ε Out) (fuel : Nat) :
    ∀ (l : List FlowRun) (w : World V σ)
      (acc : (String → Option (FlowOutput Out)) × List (RunError ε)),
      r.RunManyFrom now fuel w acc l
        = (r.RunEach now fuel w l).map (fun outs => (collectAll acc outs, w.afterAll outs)) := by
  intro l
  induction l with
  | nil => intro w acc; rfl
  | cons fr rest ih =>
    intro w acc
    unfold Runtime.RunManyFrom Runtime.RunEach
    cases hres : r.Run now fr.FlowID (w.ctxs fr.Ctx) w.st fuel with
    | none => rfl
    | some res =>
      simp only []
      rw [ih]
      cases r.RunEach now fuel (w.after fr res) rest with
      | none => rfl
      | some outs => rfl

theorem RunEach_fst (now : σ → Nat) (r : Runtime V σ ε Out) (fuel : Nat) :
    ∀ (l : List FlowRun) (w : World V σ) (outs : List (FlowRun × RunResult V σ ε Out)),
      r.RunEach now fuel w l = some outs → outs.map Prod.fst = l := by
  intro l
  induction l with
  | nil => intro w outs h; simp [Runtime.RunEach] at h; subst h; rfl
  | cons fr rest ih =>
    intro w outs h
    unfold Runtime.RunEach at h
    cases hres : r.Run now fr.FlowID (w.ctxs fr.Ctx) w.st fuel with
    | none => rw [hres] at h; simp at h
    | some res =>
      rw [hres] at h
      simp only [Option.map_eq_some'] at h
      obtain ⟨l1, hl1, rfl⟩ := h
      simp [ih _ _ hl1]

/-- Every result in the list is what `Run` returned for its run, on some
context and some state. -/
theorem RunEach_mem (now : σ → Nat) (r : Runtime V σ ε Out) (fuel : Nat) :
    ∀ (l : List FlowRun) (w : World V σ) (outs : List (FlowRun × RunResult V σ ε Out)),
      r.RunEach now fuel w l = some outs →
      ∀ p ∈ outs, ∃ ctx st, r.Run now p.1.FlowID ctx st fuel = some p.2 := by
  intro l
  induction l with
  | nil => intro w outs h; simp [Runtime.RunEach] at h; subst h; simp
  | cons fr rest ih =>
    intro w outs h
    unfold Runtime.RunEach at h
    cases hres : r.Run now fr.FlowID (w.ctxs fr.Ctx) w.st fuel with
    | none => rw [hres] at h; simp at h
    | some res =>
      rw [hres] at h
      simp only [Option.map_eq_some'] at h
      obtain ⟨l1, hl1, rfl⟩ := h
      intro p hp
      rcases List.mem_cons.mp hp with rfl | hin
      · exact ⟨_, _, hres⟩
      · exact ih _ _ hl1 p hin

theorem RunEach_returns (now : σ → Nat) (r : Runtime V σ ε Out) (fuel : Nat) :
    ∀ (l : List FlowRun) (w : World V σ),
      (∀ fr ∈ l, ∀ ctx st, (r.Run now fr.FlowID ctx st fuel).isSome = true) →
      ∃ outs, r.RunEach now fuel w l = some outs := by
  intro l
  induction l with
  | nil => intro w _; exact ⟨[], rfl⟩
  | cons fr rest ih =>
    intro w hret
    obtain ⟨res, hres⟩ := Option.isSome_iff_exists.mp
      (hret fr (List.mem_cons_self _ _) (w.ctxs fr.Ctx) w.st)
    obtain ⟨outs, houts⟩ := ih (w.after fr res) (fun x hx => hret x (List.mem_cons_of_mem _ hx))
    exact ⟨(fr, res) :: outs, by simp [Runtime.RunEach, hres, houts]⟩

theorem RunEach_append (now : σ → Nat) (r : Runtime V σ ε Out) (fuel : Nat) :
    ∀ (l1 l2 : List FlowRun) (w : World V σ),
      r.RunEach now fuel w (l1 ++ l2)
        = (r.RunEach now fuel w l1).bind (fun o1 =>
            (r.RunEach now fuel (w.afterAll o1) l2).map (fun o2 => o1 ++ o2)) := by
  intro l1
  induction l1 with
  | nil =>
    intro l2 w
    simp only [List.nil_append, Runtime.RunEach, Option.some_bind, World.afterAll,
      List.foldl_nil]
    cases r.RunEach now fuel w l2 <;> rfl
  | cons fr rest ih =>
    intro l2 w
    simp only [List.cons_append, Runtime.RunEach]
    cases hres : r.Run now fr.FlowID (w.ctxs fr.Ctx) w.st fuel with
    | none => rfl
    | some res =>
      simp only [List.append_eq]
      rw [ih]
      cases h1 : r.RunEach now fuel (w.after fr res) rest with
      | none => rfl
      | some o1 =>
        simp only [Option.some_bind, Option.map_some', World.afterAll, List.foldl_cons]
        cases r.RunEach now fuel (List.foldl (fun w1 p => w1.after p.1 p.2) (w.after fr res) o1) l2
          <;> rfl

theorem collectAll_errors :
    ∀ (outs : List (FlowRun × RunResult V σ ε Out))
      (acc : (String → Option (FlowOutput Out)) × List (RunError ε)),
      (collectAll acc outs).2 = acc.2 ++ outs.filterMap (fun p => p.2.err) := by
  intro outs
  induction outs with
  | nil => intro acc; simp [collectAll]
  | cons p rest ih =>
    intro acc
    have h := ih (collect acc p.1 p.2)
    unfold collectAll at h ⊢
    rw [List.foldl_cons, h]
    cases he : p.2.err with
    | some e => simp [collect, he, List.filterMap_cons]
    | none => simp [collect, he, List.filterMap_cons]

/-- The map after the collection depends on the map before it alone, and a
result with an error does not touch it. -/
theorem collectAll_results :
    ∀ (outs : List (FlowRun × RunResult V σ ε Out))
      (acc : (String → Option (FlowOutput Out)) × List (RunError ε)),
      (collectAll acc outs).1
        = outs.foldl (fun m p =>
            match p.2.err with
            | some _ => m
            | none => Function.update m p.1.FlowID p.2.output) acc.1 := by
  intro outs
  induction outs with
  | nil => intro acc; rfl
  | cons p rest ih =>
    intro acc
    have h := ih (collect acc p.1 p.2)
    unfold collectAll at h ⊢
    rw [List.foldl_cons, h, List.foldl_cons]
    cases he : p.2.err with
    | some e => simp [collect, he]
    | none => simp [collect, he]

theorem collectAll_lookup :
    ∀ (outs : List (FlowRun × RunResult V σ ε Out))
      (acc : (String → Option (FlowOutput Out)) × List (RunError ε)),
      (outs.map (fun p => p.1.FlowID)).Nodup →
      ∀ k, (collectAll acc outs).1 k =
        match outs.find? (fun p => decide (p.1.FlowID = k) && p.2.err.isNone) with
        | some p => p.2.output
        | none => acc.1 k := by
  intro outs
  induction outs with
  | nil => intro acc _ k; rfl
  | cons p rest ih =>
    intro acc hnd k
    rw [List.map_cons, List.nodup_cons] at hnd
    have h := ih (collect acc p.1 p.2) hnd.2 k
    unfold collectAll at h ⊢
    rw [List.foldl_cons, h]
    cases he : p.2.err with
    | some e => simp only [List.find?_cons, he, Option.isNone_some, Bool.and_false, collect]
    | none =>
      by_cases hk : p.1.FlowID = k
      · have hnone : rest.find? (fun x => decide (x.1.FlowID = k) && x.2.err.isNone) = none := by
          rw [List.find?_eq_none]
          intro x hx
          have : x.1.FlowID ≠ k := by
            intro e
            exact hnd.1 (List.mem_map.mpr ⟨x, hx, by rw [e, hk]⟩)
          simp [this]
        simp only [hnone, List.find?_cons, hk, he, Option.isNone_none, decide_True,
          Bool.and_self, collect]
        rw [← hk]
        simp
      · simp only [List.find?_cons, hk, decide_False, Bool.false_and, collect, he]
        cases rest.find? (fun x => decide (x.1.FlowID = k) && x.2.err.isNone) with
        | some x => rfl
        | none => simp [Function.update_noteq (fun e => hk e.symm)]

theorem find?_unique_out (k : String) (p : FlowRun × RunResult V σ ε Out)
    (hk : p.1.FlowID = k) (he : p.2.err = none) :
    ∀ outs : List (FlowRun × RunResult V σ ε Out),
      (outs.map (fun x => x.1.FlowID)).Nodup → p ∈ outs →
      ∃ q, outs.find? (fun x => decide (x.1.FlowID = k) && x.2.err.isNone) = some q
        ∧ q.2.output = p.2.output := by
  intro outs
  induction outs with
  | nil => intro _ h; simp at h
  | cons a rest ih =>
    intro hnd hmem
    rw [List.map_cons, List.nodup_cons] at hnd
    rcases List.mem_cons.mp hmem with rfl | hin
    · exact ⟨p, by simp [List.find?_cons, hk, he], rfl⟩
    · have hne : a.1.FlowID ≠ k := by
        intro e
        exact hnd.1 (List.mem_map.mpr ⟨p, hin, by rw [hk, e]⟩)
      simp only [List.find?_cons, hne, decide_False, Bool.false_and]
      exact ih hnd.2 hin

theorem count_outs :
    ∀ outs : List (FlowRun × RunResult V σ ε Out),
      (outs.filter (fun p => p.2.err.isNone)).length
        + (outs.filterMap (fun p => p.2.err)).length = outs.length := by
  intro outs
  induction outs with
  | nil => rfl
  | cons p rest ih =>
    cases he : p.2.err with
    | some e => simp [List.filter_cons, List.filterMap_cons, he]; omega
    | none => simp [List.filter_cons, List.filterMap_cons, he]; omega

theorem World.after_self (w : World V σ) (fr : FlowRun) (res : RunResult V σ ε Out)
    (hctx : res.ctx = w.ctxs fr.Ctx) (hst : res.st = w.st) : w.after fr res = w := by
  cases w with
  | mk ctxs st =>
    simp only [World.after] at hctx hst ⊢
    rw [hctx, hst, Function.update_eq_self]

/-- A run that fails and leaves the world as it found it can be taken out of
the schedule: the other runs return what they returned, the map is the same
and the error list has lost the entry of the run. -/
theorem RunMany_without (now : σ → Nat) (r : Runtime V σ ε Out) (fuel : Nat) (w : World V σ)
    (pre post : List FlowRun) (fr : FlowRun)
    (o1 : List (FlowRun × RunResult V σ ε Out)) (res : RunResult V σ ε Out) (e : RunError ε)
    (results : String → Option (FlowOutput Out)) (errors : List (RunError ε)) (w1 : World V σ)
    (hmany : r.RunMany now w fuel (pre ++ fr :: post) = some ((results, errors), w1))
    (hpre : r.RunEach now fuel w pre = some o1)
    (hres : r.Run now fr.FlowID ((w.afterAll o1).ctxs fr.Ctx) (w.afterAll o1).st fuel = some res)
    (herr : res.err = some e) (hctx : res.ctx = (w.afterAll o1).ctxs fr.Ctx)
    (hst : res.st = (w.afterAll o1).st) :
    ∃ e1 e2, errors = e1 ++ e :: e2
      ∧ r.RunMany now w fuel (pre ++ post) = some ((results, e1 ++ e2), w1) := by
  have hself : (w.afterAll o1).after fr res = w.afterAll o1 :=
    World.after_self _ fr res hctx hst
  unfold Runtime.RunMany at hmany ⊢
  rw [RunManyFrom_eq, RunEach_append, hpre] at hmany
  simp only [Option.some_bind, Runtime.RunEach, hres, hself] at hmany
  rw [RunManyFrom_eq, RunEach_append, hpre]
  simp only [Option.some_bind]
  cases hpost : r.RunEach now fuel (w.afterAll o1) post with
  | none => rw [hpost] at hmany; simp at hmany
  | some o2 =>
    rw [hpost] at hmany
    simp only [Option.map_some', Option.some.injEq, Prod.mk.injEq] at hmany
    obtain ⟨hacc, hw⟩ := hmany
    have hres1 : results = (collectAll (fun _ => none, []) (o1 ++ (fr, res) :: o2)).1 := by
      rw [hacc]
    have herrs : errors = (collectAll (fun _ => none, []) (o1 ++ (fr, res) :: o2)).2 := by
      rw [hacc]
    refine ⟨o1.filterMap (fun p => p.2.err), o2.filterMap (fun p => p.2.err), ?_, ?_⟩
    · rw [herrs, collectAll_errors]
      simp [List.filterMap_append, List.filterMap_cons, herr]
    · simp only [Option.map_some', Option.some.injEq, Prod.mk.injEq]
      refine ⟨?_, ?_⟩
      · apply Prod.ext
        · rw [hres1, collectAll_results, collectAll_results]
          simp [List.foldl_append, herr]
        · rw [collectAll_errors]
          simp [List.filterMap_append]
      · rw [← hw]
        simp only [World.afterAll, List.foldl_append, List.foldl_cons]
        have h2 : (List.foldl (fun w1 p => w1.after p.1 p.2) w o1).after fr res
            = List.foldl (fun w1 p => w1.after p.1 p.2) w o1 := hself
        rw [h2]

theorem Run_of_unregistered (now : σ → Nat) (r : Runtime V σ ε Out) (flowID : String)
    (ctx : Context V) (st : σ) (fuel : Nat) (h : r.flows flowID = none) :
    r.Run now flowID ctx st fuel
      = some { output := none, err := some (RunError.FlowNotFound flowID), ctx := ctx,
               st := st, consulted := [] } := by
  simp [Runtime.Run, Runtime.get, h]

/-- On a runtime whose flows have graphs without a directed cycle and nodes
among `ids`, every `Run` returns as soon as the fuel exceeds the length of
`ids`, whatever the context and the state. -/
theorem Run_returns_acyclic (now : σ → Nat) (r : Runtime V σ ε Out) (ids : List String)
    (hacyc : ∀ id f, r.flows id = some f → f.graph.Acyclic
      ∧ ∀ n, (f.nodes n).isSome = true → n ∈ ids)
    (fuel : Nat) (hfuel : ids.length < fuel) (flowID : String) (ctx : Context V) (st : σ) :
    (r.Run now flowID ctx st fuel).isSome = true := by
  cases hf : r.flows flowID with
  | none => rw [Run_of_unregistered now r flowID ctx st fuel hf]; rfl
  | some f =>
    obtain ⟨h1, h2⟩ := hacyc flowID f hf
    have hex : ∃ res, f.Execute now ctx st fuel = some res := by
      unfold Flow.Execute
      by_cases he : f.entry = ""
      · simp [he]
      · simp only [he, if_false]
        obtain ⟨res, hr, _⟩ := loop_terminates now f ids h1 h2 fuel
          (f.start now ctx st) (PathInv_start now f ctx st he) (by simp [Flow.start]; omega)
        exact ⟨res, hr⟩
    obtain ⟨res, hres⟩ := hex
    simp [Runtime.Run, Runtime.get, hf, hres]

end RunManyClaims

section RunManyTheorem

variable {V σ ε Out : Type}

/-- C16 as amended: `RunMany` on runs with pairwise distinct flow ids, each of
which returns whatever the context and the state it starts in, with a
cancellation signal that does not fire, the goroutines running one after the
other in any order `sched`: it returns. `outs` being what `Run` returned to
each goroutine, the result map holds under the flow id of every run that
returned without error the trace returned to it, and has no other key; the
error list holds the errors returned, one for each run that returned one, in
the order of the schedule; the number of keys plus the number of errors is the
number of runs. A run that fails and leaves its context and the state of the
nodes as it found them, as every run of a flow that is not registered does,
changes the outcome of no other run: without it `RunMany` returns the same
map and the same error list less its entry. -/
theorem RunMany_spec (now : σ → Nat) (r : Runtime V σ ε Out) (w : World V σ) (fuel : Nat)
    (runs sched : List FlowRun) (hsched : sched.Perm runs)
    (hids : (runs.map (fun fr => fr.FlowID)).Nodup)
    (hret : ∀ fr ∈ runs, ∀ ctx st, (r.Run now fr.FlowID ctx st fuel).isSome = true) :
    ∃ outs results errors w1,
      r.RunEach now fuel w sched = some outs
      ∧ outs.map Prod.fst = sched
      ∧ r.RunMany now w fuel sched = some ((results, errors), w1)
      ∧ (∀ p ∈ outs, p.2.err = none →
          p.2.output.isSome = true ∧ results p.1.FlowID = p.2.output)
      ∧ (∀ k, (results k).isSome = true ↔ ∃ p ∈ outs, p.1.FlowID = k ∧ p.2.err = none)
      ∧ errors = outs.filterMap (fun p => p.2.err)
      ∧ (∃ keys : List String, keys.Nodup ∧ (∀ k, k ∈ keys ↔ (results k).isSome = true)
          ∧ keys.length + errors.length = runs.length)
      ∧ (∀ pre fr post, sched = pre ++ fr :: post →
          ∀ o1, r.RunEach now fuel w pre = some o1 →
          ∀ res e,
            r.Run now fr.FlowID ((w.afterAll o1).ctxs fr.Ctx) (w.afterAll o1).st fuel = some res →
            res.err = some e → res.ctx = (w.afterAll o1).ctxs fr.Ctx →
            res.st = (w.afterAll o1).st →
            ∃ e1 e2, errors = e1 ++ e :: e2
              ∧ r.RunMany now w fuel (pre ++ post) = some ((results, e1 ++ e2), w1))
      ∧ (∀ pre fr post, sched = pre ++ fr :: post → r.flows fr.FlowID = none →
          ∃ e1 e2, errors = e1 ++ RunError.FlowNotFound fr.FlowID :: e2
            ∧ r.RunMany now w fuel (pre ++ post) = some ((results, e1 ++ e2), w1)) := by
  have hret2 : ∀ fr ∈ sched, ∀ ctx st, (r.Run now fr.FlowID ctx st fuel).isSome = true :=
    fun fr hfr => hret fr (hsched.mem_iff.mp hfr)
  obtain ⟨outs, houts⟩ := RunEach_returns now r fuel sched w hret2
  have hfst := RunEach_fst now r fuel sched w outs houts
  have hnd : (outs.map (fun p => p.1.FlowID)).Nodup := by
    have h1 : outs.map (fun p => p.1.FlowID) = sched.map (fun fr => fr.FlowID) := by
      rw [← hfst, List.map_map]; rfl
    rw [h1]
    exact (hsched.map _).nodup_iff.mpr hids
  have hmany : r.RunMany now w fuel sched
      = some (collectAll (fun _ => none, []) outs, w.afterAll outs) := by
    unfold Runtime.RunMany
    rw [RunManyFrom_eq, houts]
    rfl
  have hlook := collectAll_lookup outs (fun _ => none, []) hnd
  have hok : ∀ p ∈ outs, p.2.err = none →
      p.2.output.isSome = true
        ∧ (collectAll ((fun _ => none, []) : (String → Option (FlowOutput Out)) × List (RunError ε))
            outs).1 p.1.FlowID = p.2.output := by
    intro p hp he
    obtain ⟨ctx, st, hrun⟩ := RunEach_mem now r fuel sched w outs houts p hp
    refine ⟨Run_output_of_ok now r p.1.FlowID ctx st fuel p.2 hrun he, ?_⟩
    obtain ⟨q, hq, hqo⟩ := find?_unique_out p.1.FlowID p rfl he outs hnd hp
    rw [hlook p.1.FlowID, hq]
    exact hqo
  have hkeys : ∀ k,
      ((collectAll ((fun _ => none, []) : (String → Option (FlowOutput Out)) × List (RunError ε))
          outs).1 k).isSome = true ↔ ∃ p ∈ outs, p.1.FlowID = k ∧ p.2.err = none := by
    intro k
    constructor
    · intro h
      rw [hlook k] at h
      cases hf : outs.find? (fun p => decide (p.1.FlowID = k) && p.2.err.isNone) with
      | none => rw [hf] at h; simp at h
      | some p =>
        have hp := List.find?_some hf
        have hm := List.mem_of_find?_eq_some hf
        simp only [Bool.and_eq_true, decide_eq_true_eq, Option.isNone_iff_eq_none] at hp
        exact ⟨p, hm, hp.1, hp.2⟩
    · rintro ⟨p, hp, rfl, he⟩
      obtain ⟨h1, h2⟩ := hok p hp he
      rw [h2]; exact h1
  have herrs : (collectAll ((fun _ => none, []) : (String → Option (FlowOutput Out))
      × List (RunError ε)) outs).2 = outs.filterMap (fun p => p.2.err) := by
    rw [collectAll_errors]; rfl
  have hwithout : ∀ pre fr post, sched = pre ++ fr :: post →
      ∀ o1, r.RunEach now fuel w pre = some o1 →
      ∀ res e,
        r.Run now fr.FlowID ((w.afterAll o1).ctxs fr.Ctx) (w.afterAll o1).st fuel = some res →
        res.err = some e → res.ctx = (w.afterAll o1).ctxs fr.Ctx →
        res.st = (w.afterAll o1).st →
        ∃ e1 e2, (collectAll ((fun _ => none, []) : (String → Option (FlowOutput Out))
            × List (RunError ε)) outs).2 = e1 ++ e :: e2
          ∧ r.RunMany now w fuel (pre ++ post)
              = some (((collectAll (fun _ => none, []) outs).1, e1 ++ e2), w.afterAll outs) := by
    intro pre fr post hs o1 ho1 res e hres herr hctx hst
    exact RunMany_without now r fuel w pre post fr o1 res e _ _ _ (by rw [← hs]; exact hmany)
      ho1 hres herr hctx hst
  refine ⟨outs, (collectAll (fun _ => none, []) outs).1, (collectAll (fun _ => none, []) outs).2,
    w.afterAll outs, houts, hfst, hmany, hok, hkeys, herrs, ?_, hwithout, ?_⟩
  · refine ⟨(outs.filter (fun p => p.2.err.isNone)).map (fun p => p.1.FlowID),
      hnd.sublist ((List.filter_sublist _).map _), ?_, ?_⟩
    · intro k
      rw [hkeys k]
      simp only [List.mem_map, List.mem_filter, Option.isNone_iff_eq_none]
      constructor
      · rintro ⟨p, ⟨hp, he⟩, rfl⟩
        exact ⟨p, hp, rfl, he⟩
      · rintro ⟨p, hp, rfl, he⟩
        exact ⟨p, ⟨hp, he⟩, rfl⟩
    · rw [herrs, List.length_map]
      have hc := count_outs outs
      have hl : outs.length = runs.length := by
        rw [← hsched.length_eq, ← hfst, List.length_map]
      omega
  · intro pre fr post hs hnone
    have hpre : ∀ x ∈ pre, ∀ ctx st, (r.Run now x.FlowID ctx st fuel).isSome = true :=
      fun x hx => hret2 x (by rw [hs]; exact List.mem_append_left _ hx)
    obtain ⟨o1, ho1⟩ := RunEach_returns now r fuel pre w hpre
    exact hwithout pre fr post hs o1 ho1 _ _
      (Run_of_unregistered now r fr.FlowID _ _ fuel hnone) rfl rfl rfl

end RunManyTheorem

/-- What `Run` returns for the flows `ok1` and `ok2` of `runtime3`. -/
theorem runtime3_Run_ok :
    runtime3.Run clock0 "ok1" ctx0 () 2
        = some { output := some { FlowID := "ok1", TraceID := "run-1",
                                  Steps := [⟨"A", ⟨"", "a", 1⟩⟩], StartedAt := 0, EndedAt := 0,
                                  Done := true },
                 err := none, ctx := ctx0, st := (), consulted := ["A"] }
      ∧ runtime3.Run clock0 "bad" ctx0 () 2
        = some { output := none,
                 err := some (RunError.Exec (ExecError.ConsultationFailed "bad" "A" "boom")),
                 ctx := ctx0, st := (), consulted := ["A"] } :=
  ⟨rfl, rfl⟩

/-- C16 as amended, at three runs with contexts of their own of which the one
of the flow `bad` fails, the goroutines running in the order `ok2`, `bad`,
`ok1`: two keys in the result map, one error; and without the run of `bad`
the same map and no error. -/
theorem RunMany_spec_witness :
    ∃ results errors w1,
      runtime3.RunMany clock0 world0 2 [⟨"ok2", 2⟩, ⟨"bad", 1⟩, ⟨"ok1", 0⟩]
          = some ((results, errors), w1)
        ∧ errors = [RunError.Exec (ExecError.ConsultationFailed "bad" "A" "boom")]
        ∧ (results "ok1").isSome = true ∧ (results "ok2").isSome = true
        ∧ (results "bad").isSome = false
        ∧ (∃ keys : List String, keys.Nodup ∧ (∀ k, k ∈ keys ↔ (results k).isSome = true)
            ∧ keys.length = 2)
        ∧ runtime3.RunMany clock0 world0 2 [⟨"ok2", 2⟩, ⟨"ok1", 0⟩]
            = some ((results, []), w1) := by
  obtain ⟨outs, results, errors, w1, houts, _, hmany, _, hkeys, herrs, ⟨keys, hk1, hk2, hk3⟩,
      hwithout, _⟩ :=
    RunMany_spec clock0 runtime3 world0 2 runs3 [⟨"ok2", 2⟩, ⟨"bad", 1⟩, ⟨"ok1", 0⟩]
      (by
        have h1 : [(⟨"ok2", 2⟩ : FlowRun), ⟨"bad", 1⟩, ⟨"ok1", 0⟩] = runs3.reverse := rfl
        rw [h1]; exact List.reverse_perm _)
      (by decide)
      (by
        intro fr hfr ctx st
        simp only [runs3, List.mem_cons, List.mem_singleton, List.not_mem_nil, or_false] at hfr
        rcases hfr with rfl | rfl | rfl <;> rfl)
  have hE : runtime3.RunEach clock0 2 world0 [⟨"ok2", 2⟩, ⟨"bad", 1⟩, ⟨"ok1", 0⟩]
      = some [(⟨"ok2", 2⟩,
                { output := some { FlowID := "ok2", TraceID := "run-1",
                                   Steps := [⟨"A", ⟨"", "b", 1⟩⟩], StartedAt := 0,
                                   EndedAt := 0, Done := true },
                  err := none, ctx := ctx0, st := (), consulted := ["A"] }),
              (⟨"bad", 1⟩,
                { output := none,
                  err := some (RunError.Exec (ExecError.ConsultationFailed "bad" "A" "boom")),
                  ctx := ctx0, st := (), consulted := ["A"] }),
              (⟨"ok1", 0⟩,
                { output := some { FlowID := "ok1", TraceID := "run-1",
                                   Steps := [⟨"A", ⟨"", "a", 1⟩⟩], StartedAt := 0,
                                   EndedAt := 0, Done := true },
                  err := none, ctx := ctx0, st := (), consulted := ["A"] })] := rfl
  rw [hE] at houts
  have houts2 := Option.some.inj houts
  subst houts2
  have herr1 : errors = [RunError.Exec (ExecError.ConsultationFailed "bad" "A" "boom")] := by
    rw [herrs]; rfl
  obtain ⟨e1, e2, he, hwo⟩ := hwithout [⟨"ok2", 2⟩] ⟨"bad", 1⟩ [⟨"ok1", 0⟩] rfl _ rfl _ _
    runtime3_Run_ok.2 rfl rfl rfl
  have hnil : e1 ++ e2 = [] := by
    rw [herr1] at he
    have hlen := congrArg List.length he
    simp at hlen
    have h1 : e1 = [] := List.length_eq_zero.mp (by omega)
    have h2 : e2 = [] := List.length_eq_zero.mp (by omega)
    rw [h1, h2]; rfl
  rw [hnil] at hwo
  refine ⟨results, errors, w1, hmany, herr1, ?_, ?_, ?_, ⟨keys, hk1, hk2, ?_⟩, hwo⟩
  · exact (hkeys "ok1").mpr ⟨_, List.mem_cons_of_mem _ (List.mem_cons_of_mem _
      (List.mem_cons_self _ _)), rfl, rfl⟩
  · exact (hkeys "ok2").mpr ⟨_, List.mem_cons_self _ _, rfl, rfl⟩
  · cases hb : (results "bad").isSome with
    | false => rfl
    | true =>
      obtain ⟨p, hp, hid, he⟩ := (hkeys "bad").mp hb
      simp only [List.mem_cons, List.mem_singleton, List.not_mem_nil, or_false] at hp
      rcases hp with rfl | rfl | rfl
      · exact absurd hid (by decide)
      · simp at he
      · exact absurd hid (by decide)
  · rw [herr1] at hk3
    simpa [runs3] using hk3

/-- The loop of `Execute` on the flow `spin` does not end: every pass leads
back to the node `A`. -/
theorem flowSpin_loop (fuel : Nat) :
    ∀ s : ExecState Unit Unit String, s.current = "A" → flowSpin.loop clock0 fuel s = none := by
  induction fuel with
  | zero => intro s _; rfl
  | succ fuel ih =>
    intro s hs
    have hg : flowSpin.graph.Outgoing "A" = [⟨"A", "A", 1⟩] := by
      simp [flowSpin, Flow.Connect, Flow.ConnectWeighted, Flow.Add, NewFlow, Graph.Connect,
        Graph.New, Graph.Outgoing, sortConnections]
    have hn : flowSpin.nodes "A" = some (routeNode "A" "A" "a") := rfl
    have hb : flowSpin.loopBody clock0 s
        = Sum.inl { current := "A", output := s.output.record "A" ⟨"A", "a", 1⟩, ctx := s.ctx,
                    st := s.st, consulted := s.consulted ++ ["A"] } := by
      unfold Flow.loopBody
      simp [hs, hn, hg, routeNode]
    unfold Flow.loop
    rw [hb]
    exact ih _ rfl

/-- C16 as stated fails. On the runtime with the flows `spin`, `mark` and
`check`: `RunMany` on the single run of `spin`, whose node routes to itself
for ever, does not return, whatever the fuel. And the run of `check`, which
succeeds when it runs alone or next to a run of `mark` on a context of its
own, fails when the failing run of `mark` has run before it on the context
they share: two errors and no result. -/
theorem RunMany_counterexample :
    (¬ ∃ fuel, (runtime4.RunMany clock0 world0 fuel [⟨"spin", 0⟩]).isSome = true)
      ∧ (runtime4.RunMany clock0 world0 2 [⟨"check", 0⟩]).map
          (fun out => ((out.1.1 "check").isSome, out.1.2.length)) = some (true, 0)
      ∧ (runtime4.RunMany clock0 world0 2 [⟨"mark", 1⟩, ⟨"check", 0⟩]).map
          (fun out => ((out.1.1 "check").isSome, out.1.2.length)) = some (true, 1)
      ∧ (runtime4.RunMany clock0 world0 2 [⟨"mark", 0⟩, ⟨"check", 0⟩]).map
          (fun out => ((out.1.1 "check").isSome, out.1.2.length)) = some (false, 2) := by
  refine ⟨?_, rfl, rfl, rfl⟩
  rintro ⟨fuel, h⟩
  have hrun : runtime4.Run clock0 "spin" (world0.ctxs 0) world0.st fuel = none := by
    have hget : runtime4.get "spin" = Except.ok flowSpin := rfl
    unfold Runtime.Run
    rw [hget]
    have hex : flowSpin.Execute clock0 (world0.ctxs 0) world0.st fuel = none := by
      unfold Flow.Execute
      have he : flowSpin.entry ≠ "" := by decide
      simp only [he, if_false]
      exact flowSpin_loop fuel _ rfl
    simp [hex]
  simp [Runtime.RunMany, Runtime.RunManyFrom, hrun] at h

/-! ## The slice that `Outgoing` returns, in memory -/

theorem removeFirstPtr_sublist (objs : Nat → Connection) (dst : String) (l l1 : List Nat)
    (h : removeFirstPtr objs dst l = some l1) : l1.Sublist l := by
  induction l generalizing l1 with
  | nil => simp [removeFirstPtr] at h
  | cons p ps ih =>
    by_cases hp : (objs p).To = dst
    · simp only [removeFirstPtr, hp, if_true, Option.some.injEq] at h
      subst h; exact List.sublist_cons_self _ _
    · simp only [removeFirstPtr, hp, if_false, Option.map_eq_some'] at h
      obtain ⟨l2, h2, rfl⟩ := h
      exact (ih l2 h2).cons₂ p

theorem slice_of_some (m : GraphMem) (k : String) (a : Nat) (h : m.connections k = some a) :
    m.slice k = m.arrs a := by
  simp [GraphMem.slice, h]

theorem WF_New : GraphMem.New.WF := by
  refine ⟨fun k a h => ?_, fun k p hp => ?_⟩
  · simp [GraphMem.New] at h
  · simp [GraphMem.New, GraphMem.slice] at hp

theorem Apart_Outgoing (m : GraphMem) (hm : m.WF) (src : String) :
    GraphMem.Apart (m.Outgoing src).2 (m.Outgoing src).1 (m.Outgoing src).2 := by
  refine ⟨by simp [GraphMem.Outgoing], fun k b hb => ?_, rfl, fun p hp => ?_⟩
  · have hlt : b < m.narrs := hm.1 k b hb
    exact ⟨by simp only [GraphMem.Outgoing]; omega, by simp only [GraphMem.Outgoing]; omega⟩
  · simp only [GraphMem.Outgoing, Function.update_same] at hp
    have hp2 : p ∈ m.slice src := (sortBy_perm _ _).mem_iff.mp hp
    exact ⟨hm.2 src p hp2, rfl, rfl⟩

theorem Apart_Later (m1 : GraphMem) (a : Nat) (m2 : GraphMem)
    (h0 : GraphMem.Apart m1 a m1) (hl : GraphMem.Later m1 m2) : GraphMem.Apart m1 a m2 := by
  induction hl with
  | refl => exact h0
  | connect m3 src dst weight _ ih =>
    obtain ⟨ha, hmap, harr, hobj⟩ := ih
    unfold GraphMem.Connect
    by_cases hany : (m3.slice src).any (fun p => (m3.objs p).To = dst) = true
    · simp only [hany, if_true]; exact ⟨ha, hmap, harr, hobj⟩
    · simp only [hany, Bool.false_eq_true, if_false]
      cases hc : m3.connections src with
      | some b =>
        have hb := hmap src b hc
        refine ⟨ha, hmap, ?_, fun p hp => ?_⟩
        · show Function.update m3.arrs b _ a = _
          rw [Function.update_noteq (fun e => hb.1 e.symm)]; exact harr
        · obtain ⟨h1, h2, h3⟩ := hobj p hp
          have hne : p ≠ m3.nobjs := by omega
          refine ⟨by show p < m3.nobjs + 1; omega, ?_, ?_⟩
          · show (Function.update m3.objs m3.nobjs _ p).From = _
            rw [Function.update_noteq hne]; exact h2
          · show (Function.update m3.objs m3.nobjs _ p).To = _
            rw [Function.update_noteq hne]; exact h3
      | none =>
        refine ⟨by show a < m3.narrs + 1; omega, fun k b hkb => ?_, ?_, fun p hp => ?_⟩
        · have hkb' : Function.update m3.connections src (some m3.narrs) k = some b := hkb
          by_cases hk : k = src
          · subst hk
            rw [Function.update_same] at hkb'
            cases hkb'
            exact ⟨by omega, by show m3.narrs < m3.narrs + 1; omega⟩
          · rw [Function.update_noteq hk] at hkb'
            have := hmap k b hkb'
            exact ⟨this.1, by show b < m3.narrs + 1; omega⟩
        · show Function.update m3.arrs m3.narrs _ a = _
          rw [Function.update_noteq (by omega)]; exact harr
        · obtain ⟨h1, h2, h3⟩ := hobj p hp
          have hne : p ≠ m3.nobjs := by omega
          refine ⟨by show p < m3.nobjs + 1; omega, ?_, ?_⟩
          · show (Function.update m3.objs m3.nobjs _ p).From = _
            rw [Function.update_noteq hne]; exact h2
          · show (Function.update m3.objs m3.nobjs _ p).To = _
            rw [Function.update_noteq hne]; exact h3
  | adjustWeight m3 src dst delta _ ih =>
    obtain ⟨ha, hmap, harr, hobj⟩ := ih
    unfold GraphMem.AdjustWeight
    cases hf : (m3.slice src).find? (fun p => (m3.objs p).To = dst) with
    | none => exact ⟨ha, hmap, harr, hobj⟩
    | some q =>
      refine ⟨ha, hmap, harr, fun p hp => ?_⟩
      obtain ⟨h1, h2, h3⟩ := hobj p hp
      refine ⟨h1, ?_, ?_⟩
      · show (Function.update m3.objs q _ p).From = _
        by_cases hpq : p = q
        · subst hpq; rw [Function.update_same]; exact h2
        · rw [Function.update_noteq hpq]; exact h2
      · show (Function.update m3.objs q _ p).To = _
        by_cases hpq : p = q
        · subst hpq; rw [Function.update_same]; exact h3
        · rw [Function.update_noteq hpq]; exact h3
  | disconnect m3 src dst _ ih =>
    obtain ⟨ha, hmap, harr, hobj⟩ := ih
    unfold GraphMem.Disconnect
    cases hc : m3.connections src with
    | none => exact ⟨ha, hmap, harr, hobj⟩
    | some b =>
      simp only []
      cases hr : removeFirstPtr m3.objs dst (m3.arrs b) with
      | none => exact ⟨ha, hmap, harr, hobj⟩
      | some ps =>
        have hb := hmap src b hc
        refine ⟨ha, hmap, ?_, hobj⟩
        show Function.update m3.arrs b _ a = _
        rw [Function.update_noteq (fun e => hb.1 e.symm)]; exact harr
  | outgoing m3 src _ ih =>
    obtain ⟨ha, hmap, harr, hobj⟩ := ih
    refine ⟨by show a < m3.narrs + 1; omega, fun k b hkb => ?_, ?_, hobj⟩
    · have := hmap k b hkb
      exact ⟨this.1, by show b < m3.narrs + 1; omega⟩
    · show Function.update m3.arrs m3.narrs _ a = _
      rw [Function.update_noteq (by omega)]; exact harr

theorem Apart_slices (m1 : GraphMem) (a : Nat) (m2 : GraphMem) (h : GraphMem.Apart m1 a m2)
    (l : List Nat) (k : String) :
    ({ m2 with arrs := Function.update m2.arrs a l } : GraphMem).slice k = m2.slice k := by
  unfold GraphMem.slice
  cases hc : m2.connections k with
  | none => simp [hc]
  | some b =>
    have hb := h.2.1 k b hc
    simp only [hc]
    rw [Function.update_noteq hb.1]

theorem WF_Later (m m1 : GraphMem) (hm : m.WF) (hl : GraphMem.Later m m1) : m1.WF := by
  induction hl with
  | refl => exact hm
  | connect m3 src dst weight _ ih =>
    obtain ⟨h1, h2⟩ := ih
    unfold GraphMem.Connect
    by_cases hany : (m3.slice src).any (fun p => (m3.objs p).To = dst) = true
    · simp only [hany, if_true]; exact ⟨h1, h2⟩
    · simp only [hany, Bool.false_eq_true, if_false]
      cases hc : m3.connections src with
      | some b =>
        refine ⟨h1, fun k p hp => ?_⟩
        show p < m3.nobjs + 1
        cases hk : m3.connections k with
        | none => simp [GraphMem.slice, hk] at hp
        | some b1 =>
          have hp1 : p ∈ Function.update m3.arrs b (m3.arrs b ++ [m3.nobjs]) b1 := by
            simpa [GraphMem.slice, hk] using hp
          by_cases hb : b1 = b
          · subst hb
            rw [Function.update_same, List.mem_append, List.mem_singleton] at hp1
            rcases hp1 with h3 | h3
            · have := h2 k p (by rw [slice_of_some m3 k b1 hk]; exact h3)
              omega
            · omega
          · rw [Function.update_noteq hb] at hp1
            have := h2 k p (by rw [slice_of_some m3 k b1 hk]; exact hp1)
            omega
      | none =>
        refine ⟨fun k b hkb => ?_, fun k p hp => ?_⟩
        · have hkb' : Function.update m3.connections src (some m3.narrs) k = some b := hkb
          show b < m3.narrs + 1
          by_cases hk : k = src
          · subst hk
            rw [Function.update_same] at hkb'
            cases hkb'
            omega
          · rw [Function.update_noteq hk] at hkb'
            have := h1 k b hkb'
            omega
        · show p < m3.nobjs + 1
          by_cases hk : k = src
          · subst hk
            have hp1 : p ∈ [m3.nobjs] := by simpa [GraphMem.slice] using hp
            rw [List.mem_singleton] at hp1
            omega
          · cases hkc : m3.connections k with
            | none => simp [GraphMem.slice, Function.update_noteq hk, hkc] at hp
            | some b1 =>
              have hlt := h1 k b1 hkc
              have hne : b1 ≠ m3.narrs := by omega
              have hp1 : p ∈ m3.arrs b1 := by
                simpa [GraphMem.slice, Function.update_noteq hk, hkc,
                  Function.update_noteq hne] using hp
              have := h2 k p (by rw [slice_of_some m3 k b1 hkc]; exact hp1)
              omega
  | adjustWeight m3 src dst delta _ ih =>
    unfold GraphMem.AdjustWeight
    cases hf : (m3.slice src).find? (fun p => (m3.objs p).To = dst) with
    | none => exact ih
    | some q => exact ⟨ih.1, ih.2⟩
  | disconnect m3 src dst _ ih =>
    obtain ⟨h1, h2⟩ := ih
    unfold GraphMem.Disconnect
    cases hc : m3.connections src with
    | none => exact ⟨h1, h2⟩
    | some b =>
      simp only []
      cases hr : removeFirstPtr m3.objs dst (m3.arrs b) with
      | none => exact ⟨h1, h2⟩
      | some ps =>
        refine ⟨h1, fun k p hp => ?_⟩
        show p < m3.nobjs
        cases hk : m3.connections k with
        | none => simp [GraphMem.slice, hk] at hp
        | some b1 =>
          have hp1 : p ∈ Function.update m3.arrs b ps b1 := by
            simpa [GraphMem.slice, hk] using hp
          by_cases hb : b1 = b
          · subst hb
            rw [Function.update_same] at hp1
            have hp2 := (removeFirstPtr_sublist m3.objs dst _ ps hr).subset hp1
            exact h2 k p (by rw [slice_of_some m3 k b1 hk]; exact hp2)
          · rw [Function.update_noteq hb] at hp1
            exact h2 k p (by rw [slice_of_some m3 k b1 hk]; exact hp1)
  | outgoing m3 src _ ih =>
    obtain ⟨h1, h2⟩ := ih
    refine ⟨fun k b hkb => ?_, fun k p hp => ?_⟩
    · have := h1 k b hkb
      show b < m3.narrs + 1
      omega
    · show p < m3.nobjs
      cases hk : m3.connections k with
      | none => simp [GraphMem.slice, GraphMem.Outgoing, hk] at hp
      | some b1 =>
        have hlt := h1 k b1 hk
        have hne : b1 ≠ m3.narrs := by omega
        have hp1 : p ∈ m3.arrs b1 := by
          simpa [GraphMem.slice, GraphMem.Outgoing, hk, Function.update_noteq hne] using hp
        exact h2 k p (by rw [slice_of_some m3 k b1 hk]; exact hp1)

theorem LaterUnadjusted_Later (m m1 : GraphMem) (hl : GraphMem.LaterUnadjusted m m1) :
    GraphMem.Later m m1 := by
  induction hl with
  | refl => exact GraphMem.Later.refl
  | connect m3 src dst weight _ ih => exact GraphMem.Later.connect _ _ _ _ ih
  | disconnect m3 src dst _ ih => exact GraphMem.Later.disconnect _ _ _ ih
  | outgoing m3 src _ ih => exact GraphMem.Later.outgoing _ _ ih

/-- Calls of `Connect`, `Disconnect` and `Outgoing` leave every connection
object that exists as it is. -/
theorem LaterUnadjusted_objs (m m1 : GraphMem) (hl : GraphMem.LaterUnadjusted m m1) :
    m.nobjs ≤ m1.nobjs ∧ ∀ p, p < m.nobjs → m1.objs p = m.objs p := by
  induction hl with
  | refl => exact ⟨le_refl _, fun _ _ => rfl⟩
  | connect m3 src dst weight _ ih =>
    obtain ⟨hle, hobj⟩ := ih
    unfold GraphMem.Connect
    by_cases hany : (m3.slice src).any (fun p => (m3.objs p).To = dst) = true
    · simp only [hany, if_true]; exact ⟨hle, hobj⟩
    · simp only [hany, Bool.false_eq_true, if_false]
      cases hc : m3.connections src with
      | some b =>
        refine ⟨by show m.nobjs ≤ m3.nobjs + 1; omega, fun p hp => ?_⟩
        show Function.update m3.objs m3.nobjs _ p = _
        rw [Function.update_noteq (by omega)]; exact hobj p hp
      | none =>
        refine ⟨by show m.nobjs ≤ m3.nobjs + 1; omega, fun p hp => ?_⟩
        show Function.update m3.objs m3.nobjs _ p = _
        rw [Function.update_noteq (by omega)]; exact hobj p hp
  | disconnect m3 src dst _ ih =>
    obtain ⟨hle, hobj⟩ := ih
    unfold GraphMem.Disconnect
    cases hc : m3.connections src with
    | none => exact ⟨hle, hobj⟩
    | some b =>
      simp only []
      cases hr : removeFirstPtr m3.objs dst (m3.arrs b) with
      | none => exact ⟨hle, hobj⟩
      | some ps => exact ⟨hle, hobj⟩
  | outgoing m3 src _ ih => exact ⟨ih.1, ih.2⟩

theorem Keyed_New : GraphMem.New.Keyed := by
  refine ⟨fun k p hp => ?_, fun k1 k2 a h1 _ => ?_⟩
  · simp [GraphMem.New, GraphMem.slice] at hp
  · simp [GraphMem.New] at h1

theorem Keyed_Later (m m1 : GraphMem) (hm : m.WF) (hk : m.Keyed) (hl : GraphMem.Later m m1) :
    m1.Keyed := by
  induction hl with
  | refl => exact hk
  | connect m3 src dst weight h3 ih =>
    have hwf := WF_Later m m3 hm h3
    obtain ⟨ihf, ihi⟩ := ih
    unfold GraphMem.Connect
    by_cases hany : (m3.slice src).any (fun p => (m3.objs p).To = dst) = true
    · simp only [hany, if_true]; exact ⟨ihf, ihi⟩
    · simp only [hany, Bool.false_eq_true, if_false]
      cases hc : m3.connections src with
      | some b =>
        refine ⟨fun k p hp => ?_, ihi⟩
        show (Function.update m3.objs m3.nobjs _ p).From = k
        cases hkc : m3.connections k with
        | none => simp [GraphMem.slice, hkc] at hp
        | some b1 =>
          have hp1 : p ∈ Function.update m3.arrs b (m3.arrs b ++ [m3.nobjs]) b1 := by
            simpa [GraphMem.slice, hkc] using hp
          by_cases hb : b1 = b
          · subst hb
            rw [Function.update_same, List.mem_append, List.mem_singleton] at hp1
            rcases hp1 with h4 | h4
            · have hin : p ∈ m3.slice k := by rw [slice_of_some m3 k b1 hkc]; exact h4
              have hlt := hwf.2 k p hin
              rw [Function.update_noteq (by omega)]
              exact ihf k p hin
            · subst h4
              rw [Function.update_same]
              exact ihi src k b1 hc hkc
          · rw [Function.update_noteq hb] at hp1
            have hin : p ∈ m3.slice k := by rw [slice_of_some m3 k b1 hkc]; exact hp1
            have hlt := hwf.2 k p hin
            rw [Function.update_noteq (by omega)]
            exact ihf k p hin
      | none =>
        refine ⟨fun k p hp => ?_, fun k1 k2 a h1 h2 => ?_⟩
        · show (Function.update m3.objs m3.nobjs _ p).From = k
          by_cases hks : k = src
          · subst hks
            have hp1 : p ∈ [m3.nobjs] := by simpa [GraphMem.slice] using hp
            rw [List.mem_singleton] at hp1
            subst hp1
            rw [Function.update_same]
          · cases hkc : m3.connections k with
            | none => simp [GraphMem.slice, Function.update_noteq hks, hkc] at hp
            | some b1 =>
              have hlt := hwf.1 k b1 hkc
              have hne : b1 ≠ m3.narrs := by omega
              have hp1 : p ∈ m3.arrs b1 := by
                simpa [GraphMem.slice, Function.update_noteq hks, hkc,
                  Function.update_noteq hne] using hp
              have hin : p ∈ m3.slice k := by rw [slice_of_some m3 k b1 hkc]; exact hp1
              have hlt2 := hwf.2 k p hin
              rw [Function.update_noteq (by omega)]
              exact ihf k p hin
        · have h1' : Function.update m3.connections src (some m3.narrs) k1 = some a := h1
          have h2' : Function.update m3.connections src (some m3.narrs) k2 = some a := h2
          by_cases hk1 : k1 = src
          · by_cases hk2 : k2 = src
            · rw [hk1, hk2]
            · rw [hk1, Function.update_same] at h1'
              rw [Function.update_noteq hk2] at h2'
              cases h1'
              have := hwf.1 k2 _ h2'
              omega
          · by_cases hk2 : k2 = src
            · rw [hk2, Function.update_same] at h2'
              rw [Function.update_noteq hk1] at h1'
              cases h2'
              have := hwf.1 k1 _ h1'
              omega
            · rw [Function.update_noteq hk1] at h1'
              rw [Function.update_noteq hk2] at h2'
              exact ihi k1 k2 a h1' h2'
  | adjustWeight m3 src dst delta h3 ih =>
    obtain ⟨ihf, ihi⟩ := ih
    unfold GraphMem.AdjustWeight
    cases hf : (m3.slice src).find? (fun p => (m3.objs p).To = dst) with
    | none => exact ⟨ihf, ihi⟩
    | some q =>
      refine ⟨fun k p hp => ?_, ihi⟩
      have hin : p ∈ m3.slice k := hp
      show (Function.update m3.objs q _ p).From = k
      by_cases hpq : p = q
      · subst hpq; rw [Function.update_same]; exact ihf k p hin
      · rw [Function.update_noteq hpq]; exact ihf k p hin
  | disconnect m3 src dst h3 ih =>
    obtain ⟨ihf, ihi⟩ := ih
    unfold GraphMem.Disconnect
    cases hc : m3.connections src with
    | none => exact ⟨ihf, ihi⟩
    | some b =>
      simp only []
      cases hr : removeFirstPtr m3.objs dst (m3.arrs b) with
      | none => exact ⟨ihf, ihi⟩
      | some ps =>
        refine ⟨fun k p hp => ?_, ihi⟩
        show (m3.objs p).From = k
        cases hkc : m3.connections k with
        | none => simp [GraphMem.slice, hkc] at hp
        | some b1 =>
          have hp1 : p ∈ Function.update m3.arrs b ps b1 := by
            simpa [GraphMem.slice, hkc] using hp
          by_cases hb : b1 = b
          · subst hb
            rw [Function.update_same] at hp1
            have hp2 := (removeFirstPtr_sublist m3.objs dst _ ps hr).subset hp1
            exact ihf k p (by rw [slice_of_some m3 k b1 hkc]; exact hp2)
          · rw [Function.update_noteq hb] at hp1
            exact ihf k p (by rw [slice_of_some m3 k b1 hkc]; exact hp1)
  | outgoing m3 src h3 ih =>
    have hwf := WF_Later m m3 hm h3
    obtain ⟨ihf, ihi⟩ := ih
    refine ⟨fun k p hp => ?_, ihi⟩
    show (m3.objs p).From = k
    cases hkc : m3.connections k with
    | none => simp [GraphMem.slice, GraphMem.Outgoing, hkc] at hp
    | some b1 =>
      have hlt := hwf.1 k b1 hkc
      have hne : b1 ≠ m3.narrs := by omega
      have hp1 : p ∈ m3.arrs b1 := by
        simpa [GraphMem.slice, GraphMem.Outgoing, hkc, Function.update_noteq hne] using hp
      exact ihf k p (by rw [slice_of_some m3 k b1 hkc]; exact hp1)

theorem AdjustWeight_arrs (m : GraphMem) (s d : String) (delta : F64) :
    (m.AdjustWeight s d delta).2.arrs = m.arrs := by
  unfold GraphMem.AdjustWeight
  cases (m.slice s).find? (fun p => (m.objs p).To = d) <;> rfl

/-- C17 as amended: `Outgoing` returns a new slice, not the stored one. The
call leaves the map, the arrays of the map and the connection objects as they
are. What is read through the slice when it is returned is the sorted list of
`Graph.Outgoing`. After any later calls of `Connect`, `AdjustWeight`,
`Disconnect` and `Outgoing` the slice holds the same pointers in the same
order, so it has the same length, and they lead to connections with the same
`From` and `To`; and assigning to a slot of the slice changes no slice of the
graph. After any later calls of `Connect`, `Disconnect` and `Outgoing` what is
read through the slice is what was read when it was returned, weights
included. A later `AdjustWeight(s, d, delta)` that fails changes nothing; one
that succeeds changes, of the elements of the slice, the one and only
connection object it adjusts, the first connection to `d` stored for `s`,
whose weight becomes `clamp(old + delta, 0, 1)`: every element keeps its
`From` and `To`, and keeps its weight unless it is a connection from `s` to
`d`. -/
theorem Outgoing_shallow_copy (m : GraphMem) (hm : m.WF) (hk : m.Keyed) (src : String) :
    ((m.Outgoing src).2.connections = m.connections
        ∧ (m.Outgoing src).2.objs = m.objs
        ∧ (∀ k, (m.Outgoing src).2.slice k = m.slice k)
        ∧ (m.Outgoing src).2.toGraph = m.toGraph)
      ∧ (m.Outgoing src).2.read (m.Outgoing src).1 = m.toGraph.Outgoing src
      ∧ (∀ m2, GraphMem.Later (m.Outgoing src).2 m2 →
          m2.arrs (m.Outgoing src).1 = (m.Outgoing src).2.arrs (m.Outgoing src).1
            ∧ (m2.read (m.Outgoing src).1).map (fun c => (c.From, c.To))
                = ((m.Outgoing src).2.read (m.Outgoing src).1).map (fun c => (c.From, c.To))
            ∧ ∀ i p, (m2.writeSlot (m.Outgoing src).1 i p).toGraph = m2.toGraph)
      ∧ (∀ m2, GraphMem.LaterUnadjusted (m.Outgoing src).2 m2 →
          m2.read (m.Outgoing src).1 = (m.Outgoing src).2.read (m.Outgoing src).1)
      ∧ (∀ m2, GraphMem.Later (m.Outgoing src).2 m2 → ∀ (s d : String) (delta : F64),
          ((m2.AdjustWeight s d delta).1 ≠ none → (m2.AdjustWeight s d delta).2 = m2)
            ∧ (∀ p, (m2.AdjustWeight s d delta).2.objs p
                = if (m2.slice s).find? (fun q => (m2.objs q).To = d) = some p
                  then { m2.objs p with Weight := clamp ((m2.objs p).Weight + delta) 0 1 }
                  else m2.objs p)
            ∧ (∀ (i : Nat) (c2 c3 : Connection), (m2.read (m.Outgoing src).1)[i]? = some c2 →
                ((m2.AdjustWeight s d delta).2.read (m.Outgoing src).1)[i]? = some c3 →
                c3.From = c2.From ∧ c3.To = c2.To
                  ∧ (c3.Weight = c2.Weight
                    ∨ (c2.From = s ∧ c2.To = d
                        ∧ c3.Weight = clamp (c2.Weight + delta) 0 1)))) := by
  have hslice : ∀ k, (m.Outgoing src).2.slice k = m.slice k := by
    intro k
    unfold GraphMem.slice
    cases hk : m.connections k with
    | none => simp [GraphMem.Outgoing, hk]
    | some b =>
      have hlt := hm.1 k b hk
      have hne : b ≠ m.narrs := by omega
      simp [GraphMem.Outgoing, hk, Function.update_noteq hne]
  have hl0 : GraphMem.Later m (m.Outgoing src).2 :=
    GraphMem.Later.outgoing _ _ GraphMem.Later.refl
  have hwf1 : (m.Outgoing src).2.WF := WF_Later m _ hm hl0
  have hk1 : (m.Outgoing src).2.Keyed := Keyed_Later m _ hm hk hl0
  refine ⟨⟨rfl, rfl, hslice, ?_⟩, ?_, fun m2 hl => ?_, fun m2 hl => ?_, fun m2 hl s d delta => ?_⟩
  · unfold GraphMem.toGraph
    congr 1
    funext k
    rw [hslice k]
    rfl
  · unfold GraphMem.read Graph.Outgoing
    rw [sortConnections_eq_sortBy]
    simp only [GraphMem.Outgoing, Function.update_same, GraphMem.toGraph]
    exact sortBy_map m.objs (fun c => c.Weight) (m.slice src)
  · have hap := Apart_Later _ _ m2 (Apart_Outgoing m hm src) hl
    obtain ⟨_, hmap, harr, hobj⟩ := hap
    refine ⟨harr, ?_, fun i p => ?_⟩
    · unfold GraphMem.read
      rw [harr, List.map_map, List.map_map]
      apply List.map_congr_left
      intro q hq
      obtain ⟨_, h2, h3⟩ := hobj q hq
      simp [h2, h3]
    · unfold GraphMem.toGraph
      congr 1
      funext k
      have := Apart_slices _ _ m2 (Apart_Later _ _ m2 (Apart_Outgoing m hm src) hl)
        ((m2.arrs (m.Outgoing src).1).set i p) k
      show List.map m2.objs ((m2.writeSlot (m.Outgoing src).1 i p).slice k) = _
      unfold GraphMem.writeSlot
      rw [this]
  · have hap := Apart_Later _ _ m2 (Apart_Outgoing m hm src)
      (LaterUnadjusted_Later _ _ hl)
    have hkept := LaterUnadjusted_objs _ _ hl
    have h0 := Apart_Outgoing m hm src
    unfold GraphMem.read
    rw [hap.2.2.1]
    apply List.map_congr_left
    intro q hq
    exact hkept.2 q (h0.2.2.2 q hq).1
  · have hk2 : m2.Keyed := Keyed_Later _ m2 hwf1 hk1 hl
    have hobjs : ∀ p, (m2.AdjustWeight s d delta).2.objs p
        = if (m2.slice s).find? (fun q => (m2.objs q).To = d) = some p
          then { m2.objs p with Weight := clamp ((m2.objs p).Weight + delta) 0 1 }
          else m2.objs p := by
      intro p
      unfold GraphMem.AdjustWeight
      cases hf : (m2.slice s).find? (fun q => (m2.objs q).To = d) with
      | none => simp
      | some q =>
        show Function.update m2.objs q _ p = _
        by_cases hpq : p = q
        · subst hpq; simp
        · rw [Function.update_noteq hpq]
          have : ¬ (some q = some p) := fun e => hpq (Option.some.inj e).symm
          simp [this]
    refine ⟨fun hne => ?_, hobjs, fun i c2 c3 h2 h3 => ?_⟩
    · unfold GraphMem.AdjustWeight at hne ⊢
      cases hf : (m2.slice s).find? (fun q => (m2.objs q).To = d) with
      | none => rfl
      | some q => simp [hf] at hne
    · unfold GraphMem.read at h2 h3
      rw [AdjustWeight_arrs] at h3
      rw [List.getElem?_map] at h2 h3
      cases hp : (m2.arrs (m.Outgoing src).1)[i]? with
      | none => rw [hp] at h2; simp at h2
      | some p =>
        rw [hp] at h2 h3
        simp only [Option.map_some', Option.some.injEq] at h2 h3
        rw [hobjs p] at h3
        by_cases hf : (m2.slice s).find? (fun q => (m2.objs q).To = d) = some p
        · rw [if_pos hf] at h3
          have hto : (m2.objs p).To = d := by simpa using List.find?_some hf
          have hfrom : (m2.objs p).From = s := hk2.1 s p (List.mem_of_find?_eq_some hf)
          subst h2 h3
          exact ⟨rfl, rfl, Or.inr ⟨hfrom, hto, rfl⟩⟩
        · rw [if_neg hf] at h3
          subst h2 h3
          exact ⟨rfl, rfl, Or.inl rfl⟩

/-- C17 as amended, at the graph holding `A → B (0.5)`: the slice returned by
`Outgoing(A)` reads `A → B (0.5)`; after `Connect(A, C, 1)` and
`Disconnect(A, B)` it still reads `A → B (0.5)`; and after
`AdjustWeight(A, C, -0.5)` on top of that it still holds one pointer, to a
connection from `A` to `B`. -/
theorem Outgoing_shallow_copy_witness :
    (memAB.Outgoing "A").2.read (memAB.Outgoing "A").1 = [⟨"A", "B", F64.num (1/2)⟩]
      ∧ (((memAB.Outgoing "A").2.Connect "A" "C" 1).2.Disconnect "A" "B").read
            (memAB.Outgoing "A").1 = [⟨"A", "B", F64.num (1/2)⟩]
      ∧ (((((memAB.Outgoing "A").2.Connect "A" "C" 1).2.Disconnect "A" "B").AdjustWeight
            "A" "C" (F64.num (-1/2))).2.read (memAB.Outgoing "A").1).map (fun c => (c.From, c.To))
          = [("A", "B")] := by
  have hlater : GraphMem.Later GraphMem.New memAB :=
    GraphMem.Later.connect _ _ _ _ GraphMem.Later.refl
  have hwf : memAB.WF := WF_Later _ _ WF_New hlater
  have hkeyed : memAB.Keyed := Keyed_Later _ _ WF_New Keyed_New hlater
  have h := Outgoing_shallow_copy memAB hwf hkeyed "A"
  have h1 : (memAB.Outgoing "A").2.read (memAB.Outgoing "A").1 = [⟨"A", "B", F64.num (1/2)⟩] := by
    rw [h.2.1]
    simp [memAB, GraphMem.toGraph, GraphMem.slice, GraphMem.Connect, GraphMem.New,
      Graph.Outgoing, sortConnections]
  refine ⟨h1, ?_, ?_⟩
  · rw [h.2.2.2.1 _ (GraphMem.LaterUnadjusted.disconnect _ _ _
      (GraphMem.LaterUnadjusted.connect _ _ _ _ GraphMem.LaterUnadjusted.refl)), h1]
  · rw [(h.2.2.1 _ (GraphMem.Later.adjustWeight _ _ _ _ (GraphMem.Later.disconnect _ _ _
      (GraphMem.Later.connect _ _ _ _ GraphMem.Later.refl)))).2.1, h1]
    rfl

/-- C17 as stated fails: at the graph holding `A → B (0.5)`, the slice
returned by `Outgoing(A)` reads the weight `0.5`, and after
`AdjustWeight(A, B, 0.3)` on the graph the same slice reads `0.8`; and
assigning the weight `0` to its element changes the connection stored in the
graph. -/
theorem Outgoing_snapshot_counterexample :
    (memAB.Outgoing "A").2.read (memAB.Outgoing "A").1 = [⟨"A", "B", F64.num (1/2)⟩]
      ∧ ((memAB.Outgoing "A").2.AdjustWeight "A" "B" (F64.num (3/10))).2.read (memAB.Outgoing "A").1
          = [⟨"A", "B", F64.num (4/5)⟩]
      ∧ ((memAB.Outgoing "A").2.AdjustWeight "A" "B" (F64.num (3/10))).2.read (memAB.Outgoing "A").1
          ≠ (memAB.Outgoing "A").2.read (memAB.Outgoing "A").1
      ∧ (memAB.Outgoing "A").2.toGraph.connections "A" = [⟨"A", "B", F64.num (1/2)⟩]
      ∧ ((memAB.Outgoing "A").2.writeWeight 0 0).toGraph.connections "A" = [⟨"A", "B", 0⟩] := by
  have h1 : (memAB.Outgoing "A").2.read (memAB.Outgoing "A").1 = [⟨"A", "B", F64.num (1/2)⟩] := by
    simp [memAB, GraphMem.read, GraphMem.Outgoing, GraphMem.slice, GraphMem.Connect,
      GraphMem.New, sortBy]
  have h2 : ((memAB.Outgoing "A").2.AdjustWeight "A" "B" (F64.num (3/10))).2.read (memAB.Outgoing "A").1
      = [⟨"A", "B", F64.num (4/5)⟩] := by
    simp [memAB, GraphMem.read, GraphMem.Outgoing, GraphMem.slice, GraphMem.Connect,
      GraphMem.New, GraphMem.AdjustWeight, sortBy, F64.num_add_num, F64.clamp_num]
    norm_num
  refine ⟨h1, h2, ?_, ?_, ?_⟩
  · rw [h1, h2]
    intro h
    simp only [List.cons.injEq, Connection.mk.injEq, and_true, true_and] at h
    norm_num at h
  · simp [memAB, GraphMem.toGraph, GraphMem.Outgoing, GraphMem.slice, GraphMem.Connect,
      GraphMem.New]
  · simp [memAB, GraphMem.toGraph, GraphMem.writeWeight, GraphMem.Outgoing, GraphMem.slice,
      GraphMem.Connect, GraphMem.New]

end Illygen
